import Mathlib

/-!
# SingleLinkedList: a shallow embedding of `single-linked-list.h`

The C++ class keeps a value-less sentinel node `head_` inside the list object and a
chain of heap nodes hanging off `head_.next_node`, together with a cached `size_`.
Iterators are bare `Node*` pointers; `before_begin()` points at the sentinel itself,
which is why `InsertAfter` / `EraseAfter` need no special case for the front.

The embedding keeps that pointer structure:

* a `Memory` maps machine addresses to live `Node` objects (sentinels and heap nodes
  alike) and holds the `size_` member of every list object;
* a list object is identified by the address of its `head_` member;
* every operation is a function on memories returning an `Outcome`: normal return,
  a propagated exception (failed `new`), or no defined result (null / dangling
  dereference, failed `assert`, a loop that never reaches `nullptr`);
* `size_t` arithmetic wraps modulo the number of addresses of the machine.
-/

set_option autoImplicit false

namespace SingleLinkedList

/-! ## Machine model -/

/-- The null pointer is address zero.  Machine addresses (the values of a `Node*`) are
natural numbers throughout. -/
def nullptr : Nat := 0

/-- The `struct Node` of the source: one element value and the link to the next node. -/
structure Node (T : Type) where
  value : T
  next_node : Nat

/-- The part of the machine state the class touches.
`cap` is the number of addresses of the machine (`SIZE_MAX + 1`, e.g. `2 ^ 64`): pointers
and `size_t` values both range over `[0, cap)`.  `node p` is the live `Node` object at
address `p`, if any.  `size_ p` is the `size_` member of the list object whose `head_`
lives at `p`. -/
structure Memory (T : Type) where
  cap : Nat
  node : Nat → Option (Node T)
  size_ : Nat → Nat

/-- Reading through a `Node*`: dereferencing `nullptr` or a pointer to no live node has
no defined result. -/
def Memory.load {T : Type} (m : Memory T) (p : Nat) : Option (Node T) :=
  if p = nullptr then none else m.node p

/-- Writing a whole node object at address `p`. -/
def Memory.store {T : Type} (m : Memory T) (p : Nat) (n : Node T) : Memory T :=
  { m with node := Function.update m.node p (some n) }

/-- The storage at `p` stops holding a live node (`delete p`, or end of an object's
lifetime). -/
def Memory.release {T : Type} (m : Memory T) (p : Nat) : Memory T :=
  { m with node := Function.update m.node p none }

/-- Assigning to the `size_` member of the list at `p`; `size_t` wraps modulo `cap`. -/
def Memory.setSize {T : Type} (m : Memory T) (p : Nat) (s : Nat) : Memory T :=
  { m with size_ := Function.update m.size_ p (s % m.cap) }

/-- The statement `p->next_node = x`. -/
def Memory.setNext {T : Type} (m : Memory T) (p : Nat) (x : Nat) : Option (Memory T) :=
  match m.load p with
  | none => none
  | some n => some (m.store p { n with next_node := x })

/-- The statement `delete p` for a non-null `p`: deleting what is not a live node has no
defined result. -/
def Memory.delete {T : Type} (m : Memory T) (p : Nat) : Option (Memory T) :=
  match m.load p with
  | none => none
  | some _ => some (m.release p)

/-- The result of running an operation.
`ok m r`: normal return with final memory `m` and value `r`.
`throw m`: an exception left the operation; `m` is the memory after unwinding.
`ub`: no defined result (undefined behaviour or a loop that does not terminate). -/
inductive Outcome (T : Type) (α : Type) where
  | ok (m : Memory T) (r : α)
  | throw (m : Memory T)
  | ub

/-- The behaviour of `operator new` together with the element copy constructor:
given the current memory, either the address of the storage for the new node, or
`none` when node creation fails (`std::bad_alloc`, or the copy of the value throws). -/
abbrev Allocator (T : Type) := Memory T → Option Nat

/-- A well-behaved allocator hands out non-null addresses of the machine that hold no
live object. -/
def AllocOK {T : Type} (alloc : Allocator T) : Prop :=
  ∀ m a, alloc m = some a → a ≠ nullptr ∧ a < m.cap ∧ m.node a = none

/-! ## `BasicIterator` -/

/-- The class `BasicIterator`: its only member is `Node* node_`.  The mutable and the
read-only variant have the same representation. -/
structure BasicIterator where
  node_ : Nat
deriving DecidableEq

/-- The `operator==` of iterators: same referenced node. -/
def BasicIterator.op_eq (a b : BasicIterator) : Bool :=
  decide (a.node_ = b.node_)

/-- The `operator!=` of iterators. -/
def BasicIterator.op_ne (a b : BasicIterator) : Bool :=
  !(a.op_eq b)

/-- Prefix `operator++`: `assert(node_ != nullptr); node_ = node_->next_node;`.
Returns the advanced iterator. -/
def BasicIterator.preInc {T : Type} (m : Memory T) (it : BasicIterator) :
    Option BasicIterator :=
  match m.load it.node_ with
  | none => none
  | some n => some ⟨n.next_node⟩

/-- Postfix `operator++`: returns the pair (value returned by the call, the iterator
after the call). -/
def BasicIterator.postInc {T : Type} (m : Memory T) (it : BasicIterator) :
    Option (BasicIterator × BasicIterator) :=
  match m.load it.node_ with
  | none => none
  | some n =>
    let current : BasicIterator := ⟨it.node_⟩
    some (current, ⟨n.next_node⟩)

/-- The `operator*` of iterators: `assert(node_ != nullptr); return node_->value;`. -/
def BasicIterator.deref {T : Type} (m : Memory T) (it : BasicIterator) : Option T :=
  match m.load it.node_ with
  | none => none
  | some n => some n.value

/-! ## `SingleLinkedList` members -/

/-- The iterator `before_begin()`: `Iterator{&head_}`. -/
def before_begin (self : Nat) : BasicIterator := ⟨self⟩

/-- The iterator `begin()`: `Iterator{head_.next_node}`. -/
def begin {T : Type} (m : Memory T) (self : Nat) : Option BasicIterator :=
  match m.load self with
  | none => none
  | some h => some ⟨h.next_node⟩

/-- The iterator `end()`: `Iterator{nullptr}`. -/
def end_ : BasicIterator := ⟨nullptr⟩

/-- The member `GetSize()`: returns `size_`. -/
def GetSize {T : Type} (m : Memory T) (self : Nat) : Nat := m.size_ self

/-- The member `IsEmpty()`: `GetSize() == 0`. -/
def IsEmpty {T : Type} (m : Memory T) (self : Nat) : Bool := decide (GetSize m self = 0)

/-- The default constructor: the member initialisers `head_ = Node()` and `size_ = 0`. -/
def ctor {T : Type} [Inhabited T] (m : Memory T) (self : Nat) : Memory T :=
  (m.store self ⟨default, nullptr⟩).setSize self 0

/-- The member `swap`: `std::swap` of the two `head_.next_node` links and of the two
`size_` members. -/
def swap {T : Type} (m : Memory T) (self other : Nat) : Option (Memory T) :=
  match m.load self, m.load other with
  | some a, some b =>
    -- std::swap(this->head_.next_node, other.head_.next_node)
    let tmp := a.next_node
    match m.setNext self b.next_node with
    | none => none
    | some m1 =>
      match m1.setNext other tmp with
      | none => none
      | some m2 =>
        -- std::swap(this->size_, other.size_)
        let tmp_size := m2.size_ self
        let m3 := m2.setSize self (m2.size_ other)
        some (m3.setSize other tmp_size)
  | _, _ => none

/-- The free function `swap(lhs, rhs)`: `lhs.swap(rhs)`. -/
def swap_free {T : Type} (m : Memory T) (lhs rhs : Nat) : Option (Memory T) :=
  swap m lhs rhs

/-- The member `InsertAfter(pos, value)`. -/
def InsertAfter {T : Type} (alloc : Allocator T) (m : Memory T) (self : Nat)
    (pos : BasicIterator) (value : T) : Outcome T BasicIterator :=
  -- new_node = new Node(value, pos.node_->next_node)
  match alloc m with
  -- a failed `new` leaves new_node == nullptr: the catch block deletes nothing and rethrows
  | none => .throw m
  | some new_node =>
    match m.load pos.node_ with
    | none => .ub
    | some pn =>
      let m1 := m.store new_node ⟨value, pn.next_node⟩
      -- pos.node_->next_node = new_node
      match m1.setNext pos.node_ new_node with
      | none => .ub
      | some m2 =>
        -- size_ += 1
        let m3 := m2.setSize self (m2.size_ self + 1)
        -- return Iterator{pos.node_->next_node}
        match m3.load pos.node_ with
        | none => .ub
        | some pn3 => .ok m3 ⟨pn3.next_node⟩

/-- The member `PopFront()`. -/
def PopFront {T : Type} (m : Memory T) (self : Nat) : Option (Memory T) :=
  if IsEmpty m self = false then
    match m.load self with
    | none => none
    | some h =>
      -- Node* ptrNext = head_.next_node->next_node
      match m.load h.next_node with
      | none => none
      | some first =>
        let ptrNext := first.next_node
        -- delete head_.next_node
        match m.delete h.next_node with
        | none => none
        | some m1 =>
          -- head_.next_node = ptrNext
          match m1.setNext self ptrNext with
          | none => none
          | some m2 =>
            -- size_ -= 1
            some (m2.setSize self (m2.size_ self + m2.cap - 1))
  else some m

/-- The member `EraseAfter(pos)`. -/
def EraseAfter {T : Type} (m : Memory T) (self : Nat) (pos : BasicIterator) :
    Option (Memory T × BasicIterator) :=
  match m.load pos.node_ with
  | none => none
  | some pn =>
    if pn.next_node ≠ nullptr then
      let node_2del := pn.next_node
      match m.load node_2del with
      | none => none
      | some d =>
        let node_remaining := d.next_node
        match m.setNext pos.node_ node_remaining with
        | none => none
        | some m1 =>
          match m1.delete node_2del with
          | none => none
          | some m2 =>
            let m3 := m2.setSize self (m2.size_ self + m2.cap - 1)
            match m3.load pos.node_ with
            | none => none
            | some pn3 => some (m3, ⟨pn3.next_node⟩)
    else some (m, ⟨pn.next_node⟩)

/-- The member `PushFront(value)`. -/
def PushFront {T : Type} (alloc : Allocator T) (m : Memory T) (self : Nat) (value : T) :
    Outcome T Unit :=
  -- head_.next_node = new Node(value, head_.next_node)
  match alloc m with
  | none => .throw m
  | some a =>
    match m.load self with
    | none => .ub
    | some h =>
      let m1 := m.store a ⟨value, h.next_node⟩
      match m1.setNext self a with
      | none => .ub
      | some m2 =>
        -- ++size_
        .ok (m2.setSize self (m2.size_ self + 1)) ()

/-- The loop of `Clear()`:
`for (p = head_.next_node; p != nullptr; ) { t = p->next_node; delete p; p = t; }`.
The first argument bounds the number of iterations. -/
def clearLoop {T : Type} : Nat → Memory T → Nat → Option (Memory T)
  | 0, m, p => if p = nullptr then some m else none
  | fuel + 1, m, p =>
    if p = nullptr then some m
    else
      match m.load p with
      | none => none
      | some n =>
        match m.delete p with
        | none => none
        | some m1 => clearLoop fuel m1 n.next_node

/-- The member `Clear()`.  Every iteration of its loop deletes a live node, so the loop
is run for at most as many iterations as the machine has addresses. -/
def Clear {T : Type} (m : Memory T) (self : Nat) : Option (Memory T) :=
  match m.load self with
  | none => none
  | some h =>
    match clearLoop m.cap m h.next_node with
    | none => none
    | some m1 =>
      match m1.setNext self nullptr with
      | none => none
      | some m2 => some (m2.setSize self 0)

/-- The destructor: `Clear()`, after which the storage of the object is given up. -/
def dtor {T : Type} (m : Memory T) (self : Nat) : Option (Memory T) :=
  match Clear m self with
  | none => none
  | some m1 => some (m1.release self)

/-- A range-for over iterators, `for (it = first; it != end(); ++it) visit(*it)`,
collecting the visited values.  The first argument bounds the number of iterations. -/
def traverse {T : Type} (m : Memory T) : Nat → BasicIterator → Option (List T)
  | 0, it => if it.op_ne end_ then none else some []
  | fuel + 1, it =>
    if it.op_ne end_ then
      match it.deref m, it.preInc m with
      | some v, some it1 =>
        match traverse m fuel it1 with
        | none => none
        | some vs => some (v :: vs)
      | _, _ => none
    else some []

/-- The traversal sequence of a list: the values seen from `begin()` to `end()`.  A chain
without a cycle has fewer nodes than the machine has addresses. -/
def toSeq {T : Type} (m : Memory T) (self : Nat) : Option (List T) :=
  match begin m self with
  | none => none
  | some b => traverse m m.cap b

/-- Following `next_node` links from `p` until `nullptr`, counting the nodes passed. -/
def countFrom {T : Type} (m : Memory T) : Nat → Nat → Option Nat
  | 0, p => if p = nullptr then some 0 else none
  | fuel + 1, p =>
    if p = nullptr then some 0
    else
      match m.load p with
      | none => none
      | some n =>
        match countFrom m fuel n.next_node with
        | none => none
        | some k => some (k + 1)

/-- The number of data nodes reachable from the sentinel's `next_node` link. -/
def countNodes {T : Type} (m : Memory T) (self : Nat) : Option Nat :=
  match m.load self with
  | none => none
  | some h => countFrom m m.cap h.next_node

/-- The second loop of `copy_reversed`:
`while (!rev_stack.empty()) { PushFront(rev_stack.top()); rev_stack.pop(); }`.
The stack is a list with its top at the head. -/
def pushAll {T : Type} (alloc : Allocator T) : Memory T → Nat → List T → Outcome T Unit
  | m, _, [] => .ok m ()
  | m, self, top :: rest =>
    match PushFront alloc m self top with
    | .ok m1 _ => pushAll alloc m1 self rest
    | .throw m1 => .throw m1
    | .ub => .ub

/-- The first loop of `copy_reversed`: `for (const auto t : container) rev_stack.push(t);`
applied to the values the container yields, starting from an empty stack. -/
def fillStack {T : Type} (container : List T) : List T :=
  container.foldl (fun rev_stack t => t :: rev_stack) []

/-- The private member `copy_reversed(container)`, given the values the range-for over
`container` yields. -/
def copy_reversed {T : Type} (alloc : Allocator T) (m : Memory T) (self : Nat)
    (container : List T) : Outcome T Unit :=
  pushAll alloc m self (fillStack container)

/-- The constructor from `std::initializer_list<Type>`.  When `copy_reversed` throws, the
constructor has not completed: no destructor runs and the storage of the object is given
up as it is. -/
def ctor_init {T : Type} [Inhabited T] (alloc : Allocator T) (m : Memory T) (self : Nat)
    (values : List T) : Outcome T Unit :=
  match copy_reversed alloc (ctor m self) self values with
  | .ok m1 _ => .ok m1 ()
  | .throw m1 => .throw (m1.release self)
  | .ub => .ub

/-- The copy constructor.  `tmp` is the address of the local variable `tmp`. -/
def ctor_copy {T : Type} [Inhabited T] (alloc : Allocator T) (m : Memory T)
    (self other tmp : Nat) : Outcome T Unit :=
  let m0 := ctor m self
  -- assert(size_ == 0 && head_.next_node == nullptr)
  match m0.load self with
  | none => .ub
  | some h =>
    if m0.size_ self = 0 ∧ h.next_node = nullptr then
      -- SingleLinkedList tmp;
      let m1 := ctor m0 tmp
      -- tmp.copy_reversed(other): the range-for runs over other.begin() .. other.end()
      match toSeq m1 other with
      | none => .ub
      | some vs =>
        match copy_reversed alloc m1 tmp vs with
        | .ub => .ub
        | .throw m2 =>
          -- unwinding destroys tmp; the object under construction never existed
          match dtor m2 tmp with
          | none => .ub
          | some m3 => .throw (m3.release self)
        | .ok m2 _ =>
          -- swap(tmp)
          match swap m2 self tmp with
          | none => .ub
          | some m3 =>
            match dtor m3 tmp with
            | none => .ub
            | some m4 => .ok m4 ()
    else .ub

/-- The copy assignment `operator=`.  `tmp` is the address of the local variable `tmp`
and `tmp2` the address of the local variable of the copy constructor that builds it. -/
def assign {T : Type} [Inhabited T] (alloc : Allocator T) (m : Memory T)
    (self rhs tmp tmp2 : Nat) : Outcome T Unit :=
  if self ≠ rhs then
    -- SingleLinkedList tmp(rhs);
    match ctor_copy alloc m tmp rhs tmp2 with
    | .ub => .ub
    | .throw m1 => .throw m1
    | .ok m1 _ =>
      -- swap(tmp);
      match swap m1 self tmp with
      | none => .ub
      | some m2 =>
        match dtor m2 tmp with
        | none => .ub
        | some m3 => .ok m3 ()
  else .ok m ()

/-! ## Relational operators -/

/-- The four-iterator `std::equal` on forward iterators, with the element `operator==`:
`for (; first1 != last1 && first2 != last2; ++first1, ++first2)
   if (!(*first1 == *first2)) return false;
 return first1 == last1 && first2 == last2;`
The first argument bounds the number of iterations. -/
def std_equal {T : Type} [BEq T] (m : Memory T) :
    Nat → BasicIterator → BasicIterator → BasicIterator → BasicIterator → Option Bool
  | 0, first1, last1, first2, last2 =>
    if first1.op_ne last1 && first2.op_ne last2 then none
    else some (first1.op_eq last1 && first2.op_eq last2)
  | fuel + 1, first1, last1, first2, last2 =>
    if first1.op_ne last1 && first2.op_ne last2 then
      match first1.deref m, first2.deref m with
      | some a, some b =>
        if !(a == b) then some false
        else
          match first1.preInc m, first2.preInc m with
          | some next1, some next2 => std_equal m fuel next1 last1 next2 last2
          | _, _ => none
      | _, _ => none
    else some (first1.op_eq last1 && first2.op_eq last2)

/-- The `std::lexicographical_compare` with the element `operator<`:
`for (; first1 != last1 && first2 != last2; ++first1, ++first2) {
   if (*first1 < *first2) return true;
   if (*first2 < *first1) return false; }
 return first1 == last1 && first2 != last2;`
The first argument bounds the number of iterations. -/
def std_lexicographical_compare {T : Type} [LT T] [DecidableRel (fun a b : T => a < b)]
    (m : Memory T) :
    Nat → BasicIterator → BasicIterator → BasicIterator → BasicIterator → Option Bool
  | 0, first1, last1, first2, last2 =>
    if first1.op_ne last1 && first2.op_ne last2 then none
    else some (first1.op_eq last1 && first2.op_ne last2)
  | fuel + 1, first1, last1, first2, last2 =>
    if first1.op_ne last1 && first2.op_ne last2 then
      match first1.deref m, first2.deref m with
      | some a, some b =>
        if a < b then some true
        else if b < a then some false
        else
          match first1.preInc m, first2.preInc m with
          | some next1, some next2 =>
            std_lexicographical_compare m fuel next1 last1 next2 last2
          | _, _ => none
      | _, _ => none
    else some (first1.op_eq last1 && first2.op_ne last2)

/-- The free `operator==`: `std::equal(lhs.begin(), lhs.end(), rhs.begin(), rhs.end())`. -/
def op_eq {T : Type} [BEq T] (m : Memory T) (lhs rhs : Nat) : Option Bool :=
  match begin m lhs, begin m rhs with
  | some b1, some b2 => std_equal m m.cap b1 end_ b2 end_
  | _, _ => none

/-- The free `operator!=`: `!(lhs == rhs)`. -/
def op_ne {T : Type} [BEq T] (m : Memory T) (lhs rhs : Nat) : Option Bool :=
  match op_eq m lhs rhs with
  | none => none
  | some r => some (!r)

/-- The free `operator<`:
`std::lexicographical_compare(lhs.begin(), lhs.end(), rhs.begin(), rhs.end())`. -/
def op_lt {T : Type} [LT T] [DecidableRel (fun a b : T => a < b)] (m : Memory T)
    (lhs rhs : Nat) : Option Bool :=
  match begin m lhs, begin m rhs with
  | some b1, some b2 => std_lexicographical_compare m m.cap b1 end_ b2 end_
  | _, _ => none

/-- The free `operator<=`: `!(rhs < lhs)`. -/
def op_le {T : Type} [LT T] [DecidableRel (fun a b : T => a < b)] (m : Memory T)
    (lhs rhs : Nat) : Option Bool :=
  match op_lt m rhs lhs with
  | none => none
  | some r => some (!r)

/-- The free `operator>`: `(rhs < lhs)`. -/
def op_gt {T : Type} [LT T] [DecidableRel (fun a b : T => a < b)] (m : Memory T)
    (lhs rhs : Nat) : Option Bool :=
  op_lt m rhs lhs

/-- The free `operator>=`: `!(rhs > lhs)`. -/
def op_ge {T : Type} [LT T] [DecidableRel (fun a b : T => a < b)] (m : Memory T)
    (lhs rhs : Nat) : Option Bool :=
  match op_gt m rhs lhs with
  | none => none
  | some r => some (!r)

/-! ## Representation predicates -/

/-- The chain starting at pointer `p` consists of exactly the cells `cells` (address and
value of each data node, in link order) and ends in `nullptr`. -/
def Seg {T : Type} (m : Memory T) : Nat → List (Nat × T) → Prop
  | p, [] => p = nullptr
  | p, c :: rest =>
    p = c.1 ∧ c.1 ≠ nullptr ∧ c.1 < m.cap ∧
      ∃ nx, m.node c.1 = some ⟨c.2, nx⟩ ∧ Seg m nx rest

/-- The object at address `self` is a well-formed list whose data nodes are `cells`:
the sentinel is live, its chain is `cells` and ends in `nullptr`, and the cached `size_`
is the number of data nodes. -/
def ListAt {T : Type} (m : Memory T) (self : Nat) (cells : List (Nat × T)) : Prop :=
  self ≠ nullptr ∧ self < m.cap ∧ self ∉ cells.map Prod.fst ∧
    m.size_ self = cells.length ∧ ∃ h, m.node self = some h ∧ Seg m h.next_node cells

/-- The addresses a list occupies: its sentinel and its data nodes. -/
def footprint {T : Type} (self : Nat) (cells : List (Nat × T)) : List Nat :=
  self :: cells.map Prod.fst

/-- Memory `m1` differs from `m` at most at the addresses in `fp` and at addresses that
hold no live object in `m`. -/
def Frame {T : Type} (m m1 : Memory T) (fp : List Nat) : Prop :=
  m1.cap = m.cap ∧
    ∀ x, m.node x ≠ none → x ∉ fp → m1.node x = m.node x ∧ m1.size_ x = m.size_ x

/-- The iterator reached from `it` by `k` prefix increments. -/
def advance {T : Type} (m : Memory T) : Nat → BasicIterator → Option BasicIterator
  | 0, it => some it
  | k + 1, it =>
    match it.preInc m with
    | none => none
    | some it1 => advance m k it1

/-! ## Programs over several lists -/

/-- Storage at `p` that can hold a new object: a non-null address of the machine with no
live object. -/
def FreeAt {T : Type} (m : Memory T) (p : Nat) : Prop :=
  p ≠ nullptr ∧ p < m.cap ∧ m.node p = none

/-- The iterator `pos` is a valid position of the list at `self` other than `end()`:
it is reached from `before_begin()` by some number of increments and references a
node. -/
def ValidPos {T : Type} (m : Memory T) (self : Nat) (pos : BasicIterator) : Prop :=
  ∃ k, advance m k (before_begin self) = some pos ∧ pos.node_ ≠ nullptr

/-- The state of a program that uses the class: the memory and the addresses of the live
`SingleLinkedList` objects. -/
structure World (T : Type) where
  mem : Memory T
  lists : List Nat

/-- One public operation of the class, applied by a client to live list objects, with
every outcome the operation can have (normal return or propagated exception). -/
inductive Step {T : Type} [Inhabited T] (alloc : Allocator T) : World T → World T → Prop
  | ctor (w : World T) (self : Nat) :
      FreeAt w.mem self → Step alloc w ⟨ctor w.mem self, self :: w.lists⟩
  | ctor_init_ok (w : World T) (self : Nat) (values : List T) (m1 : Memory T) :
      FreeAt w.mem self → ctor_init alloc w.mem self values = .ok m1 () →
      Step alloc w ⟨m1, self :: w.lists⟩
  | ctor_init_throw (w : World T) (self : Nat) (values : List T) (m1 : Memory T) :
      FreeAt w.mem self → ctor_init alloc w.mem self values = .throw m1 →
      Step alloc w ⟨m1, w.lists⟩
  | ctor_copy_ok (w : World T) (self other tmp : Nat) (m1 : Memory T) :
      other ∈ w.lists → FreeAt w.mem self → FreeAt w.mem tmp → self ≠ tmp →
      ctor_copy alloc w.mem self other tmp = .ok m1 () →
      Step alloc w ⟨m1, self :: w.lists⟩
  | ctor_copy_throw (w : World T) (self other tmp : Nat) (m1 : Memory T) :
      other ∈ w.lists → FreeAt w.mem self → FreeAt w.mem tmp → self ≠ tmp →
      ctor_copy alloc w.mem self other tmp = .throw m1 →
      Step alloc w ⟨m1, w.lists⟩
  | assign_ok (w : World T) (self rhs tmp tmp2 : Nat) (m1 : Memory T) :
      self ∈ w.lists → rhs ∈ w.lists → FreeAt w.mem tmp → FreeAt w.mem tmp2 → tmp ≠ tmp2 →
      assign alloc w.mem self rhs tmp tmp2 = .ok m1 () →
      Step alloc w ⟨m1, w.lists⟩
  | assign_throw (w : World T) (self rhs tmp tmp2 : Nat) (m1 : Memory T) :
      self ∈ w.lists → rhs ∈ w.lists → FreeAt w.mem tmp → FreeAt w.mem tmp2 → tmp ≠ tmp2 →
      assign alloc w.mem self rhs tmp tmp2 = .throw m1 →
      Step alloc w ⟨m1, w.lists⟩
  | pushFront_ok (w : World T) (self : Nat) (value : T) (m1 : Memory T) :
      self ∈ w.lists → PushFront alloc w.mem self value = .ok m1 () →
      Step alloc w ⟨m1, w.lists⟩
  | pushFront_throw (w : World T) (self : Nat) (value : T) (m1 : Memory T) :
      self ∈ w.lists → PushFront alloc w.mem self value = .throw m1 →
      Step alloc w ⟨m1, w.lists⟩
  | popFront (w : World T) (self : Nat) (m1 : Memory T) :
      self ∈ w.lists → PopFront w.mem self = some m1 → Step alloc w ⟨m1, w.lists⟩
  | insertAfter_ok (w : World T) (self : Nat) (pos : BasicIterator) (value : T)
      (m1 : Memory T) (it : BasicIterator) :
      self ∈ w.lists → ValidPos w.mem self pos →
      InsertAfter alloc w.mem self pos value = .ok m1 it → Step alloc w ⟨m1, w.lists⟩
  | insertAfter_throw (w : World T) (self : Nat) (pos : BasicIterator) (value : T)
      (m1 : Memory T) :
      self ∈ w.lists → ValidPos w.mem self pos →
      InsertAfter alloc w.mem self pos value = .throw m1 → Step alloc w ⟨m1, w.lists⟩
  | eraseAfter (w : World T) (self : Nat) (pos : BasicIterator) (m1 : Memory T)
      (it : BasicIterator) :
      self ∈ w.lists → ValidPos w.mem self pos →
      EraseAfter w.mem self pos = some (m1, it) → Step alloc w ⟨m1, w.lists⟩
  | clear (w : World T) (self : Nat) (m1 : Memory T) :
      self ∈ w.lists → Clear w.mem self = some m1 → Step alloc w ⟨m1, w.lists⟩
  | swap (w : World T) (self other : Nat) (m1 : Memory T) :
      self ∈ w.lists → other ∈ w.lists → swap w.mem self other = some m1 →
      Step alloc w ⟨m1, w.lists⟩
  | dtor (w : World T) (self : Nat) (m1 : Memory T) :
      self ∈ w.lists → dtor w.mem self = some m1 → Step alloc w ⟨m1, w.lists.erase self⟩

/-- The program states reachable from a state without list objects by public operations
of the class. -/
inductive Reachable {T : Type} [Inhabited T] (alloc : Allocator T) : World T → Prop
  | init (m : Memory T) : Reachable alloc ⟨m, []⟩
  | step {w w1 : World T} : Reachable alloc w → Step alloc w w1 → Reachable alloc w1

/-- The invariant of reachable program states: every live list object is well formed and
no two of them share an address. -/
def WorldOK {T : Type} (w : World T) : Prop :=
  ∃ fp : Nat → List (Nat × T), w.lists.Nodup ∧ (∀ l ∈ w.lists, ListAt w.mem l (fp l)) ∧
    ∀ l1 ∈ w.lists, ∀ l2 ∈ w.lists, l1 ≠ l2 →
      ∀ x ∈ footprint l1 (fp l1), x ∉ footprint l2 (fp l2)

/-- A first-fit allocator: the lowest non-null address of the machine holding no live
object, or failure when there is none. -/
def firstFit {T : Type} : Allocator T := fun m =>
  (List.range m.cap).find? (fun a => decide (a ≠ nullptr) && (m.node a).isNone)

/-- One mutating member call on the list at `self`, with every outcome it can have
(normal return or propagated exception): `PushFront`, `PopFront`, `InsertAfter` at a
valid position, `EraseAfter` at a valid position, `Clear`. -/
inductive Mutate {T : Type} (alloc : Allocator T) (self : Nat) : Memory T → Memory T → Prop
  | pushFront_ok (m : Memory T) (value : T) (m1 : Memory T) :
      PushFront alloc m self value = .ok m1 () → Mutate alloc self m m1
  | pushFront_throw (m : Memory T) (value : T) (m1 : Memory T) :
      PushFront alloc m self value = .throw m1 → Mutate alloc self m m1
  | popFront (m m1 : Memory T) : PopFront m self = some m1 → Mutate alloc self m m1
  | insertAfter_ok (m : Memory T) (pos : BasicIterator) (value : T) (m1 : Memory T)
      (it : BasicIterator) :
      ValidPos m self pos → InsertAfter alloc m self pos value = .ok m1 it →
      Mutate alloc self m m1
  | insertAfter_throw (m : Memory T) (pos : BasicIterator) (value : T) (m1 : Memory T) :
      ValidPos m self pos → InsertAfter alloc m self pos value = .throw m1 →
      Mutate alloc self m m1
  | eraseAfter (m : Memory T) (pos : BasicIterator) (m1 : Memory T) (it : BasicIterator) :
      ValidPos m self pos → EraseAfter m self pos = some (m1, it) → Mutate alloc self m m1
  | clear (m m1 : Memory T) : Clear m self = some m1 → Mutate alloc self m m1

/-- A finite sequence of mutating member calls on the list at `self`. -/
inductive Mutations {T : Type} (alloc : Allocator T) (self : Nat) :
    Memory T → Memory T → Prop
  | done (m : Memory T) : Mutations alloc self m m
  | next {m m1 m2 : Memory T} :
      Mutate alloc self m m1 → Mutations alloc self m1 m2 → Mutations alloc self m m2

/-- Two elements tie under the element `operator<`: neither is less than the other. -/
def Tied {T : Type} [LT T] (a b : T) : Prop := ¬ a < b ∧ ¬ b < a

/-- What `std::equal` computes on two value sequences. -/
def seqEqual {T : Type} [BEq T] : List T → List T → Bool
  | [], [] => true
  | a :: as, b :: bs => if !(a == b) then false else seqEqual as bs
  | _, _ => false

/-- What `std::lexicographical_compare` computes on two value sequences. -/
def seqLess {T : Type} [LT T] [DecidableRel (fun a b : T => a < b)] : List T → List T → Bool
  | [], [] => false
  | [], _ :: _ => true
  | _ :: _, [] => false
  | a :: as, b :: bs => if a < b then true else if b < a then false else seqLess as bs

/-- The number of addresses of the machine that can still hold a new object. -/
def freeCount {T : Type} (m : Memory T) : Nat :=
  (List.range m.cap).countP (fun a => decide (a ≠ nullptr) && (m.node a).isNone)

/-- An allocator that fails only when the machine has no free address left (node
creation has no other way to fail). -/
def Complete {T : Type} (alloc : Allocator T) : Prop :=
  ∀ m, alloc m = none → freeCount m = 0

/-! ## A concrete machine -/

/-- The memory an outcome leaves behind (`d` when there is none). -/
def Outcome.mem {T α : Type} (o : Outcome T α) (d : Memory T) : Memory T :=
  match o with
  | .ok m _ => m
  | .throw m => m
  | .ub => d

/-- An empty machine with sixteen addresses. -/
def mem0 : Memory Nat := { cap := 16, node := fun _ => none, size_ := fun _ => 0 }

/-- The machine after `SingleLinkedList<int> a{1, 2, 3};` with `a` at address 1 and the
first-fit allocator: the data nodes land at addresses 4, 3, 2. -/
def mem123 : Memory Nat := (ctor_init firstFit mem0 1 [1, 2, 3]).mem mem0

/-- The machine after a further `SingleLinkedList<int> b{1, 2, 4};` with `b` at
address 5: its data nodes land at addresses 8, 7, 6. -/
def mem124 : Memory Nat := (ctor_init firstFit mem123 5 [1, 2, 4]).mem mem0

/-- The program state after `SingleLinkedList<int> a{1, 2, 3};`. -/
def world123 : World Nat := ⟨mem123, [1]⟩

/-- A machine with five addresses, all of them taken by the list `{1, 2, 3}` at address 1
(data nodes at 4, 3, 2): the next node creation fails. -/
def memFull : Memory Nat :=
  (ctor_init firstFit { cap := 5, node := fun _ => none, size_ := fun _ => 0 } 1
    [1, 2, 3]).mem mem0

/-! ## Memory lemmas -/

section MemoryLemmas

variable {T : Type}

@[simp] theorem load_null (m : Memory T) : m.load nullptr = none := by
  simp [Memory.load]

theorem load_of_ne (m : Memory T) {p : Nat} (hp : p ≠ nullptr) : m.load p = m.node p := by
  simp [Memory.load, hp]

@[simp] theorem store_cap (m : Memory T) (p : Nat) (n : Node T) :
    (m.store p n).cap = m.cap := rfl

@[simp] theorem store_size (m : Memory T) (p : Nat) (n : Node T) :
    (m.store p n).size_ = m.size_ := rfl

@[simp] theorem store_node_same (m : Memory T) (p : Nat) (n : Node T) :
    (m.store p n).node p = some n := by
  simp [Memory.store]

theorem store_node_ne (m : Memory T) {p q : Nat} (n : Node T) (h : q ≠ p) :
    (m.store p n).node q = m.node q := by
  simp [Memory.store, Function.update_noteq h]

@[simp] theorem release_cap (m : Memory T) (p : Nat) : (m.release p).cap = m.cap := rfl

@[simp] theorem release_size (m : Memory T) (p : Nat) : (m.release p).size_ = m.size_ := rfl

@[simp] theorem release_node_same (m : Memory T) (p : Nat) : (m.release p).node p = none := by
  simp [Memory.release]

theorem release_node_ne (m : Memory T) {p q : Nat} (h : q ≠ p) :
    (m.release p).node q = m.node q := by
  simp [Memory.release, Function.update_noteq h]

@[simp] theorem setSize_cap (m : Memory T) (p : Nat) (s : Nat) :
    (m.setSize p s).cap = m.cap := rfl

@[simp] theorem setSize_node (m : Memory T) (p : Nat) (s : Nat) :
    (m.setSize p s).node = m.node := rfl

@[simp] theorem setSize_size_same (m : Memory T) (p : Nat) (s : Nat) :
    (m.setSize p s).size_ p = s % m.cap := by
  simp [Memory.setSize]

theorem setSize_size_ne (m : Memory T) {p q : Nat} (s : Nat) (h : q ≠ p) :
    (m.setSize p s).size_ q = m.size_ q := by
  simp [Memory.setSize, Function.update_noteq h]

theorem setNext_eq (m : Memory T) {p : Nat} {n : Node T} (x : Nat) (hp : p ≠ nullptr)
    (h : m.node p = some n) :
    m.setNext p x = some (m.store p ⟨n.value, x⟩) := by
  simp [Memory.setNext, load_of_ne m hp, h]

theorem delete_eq (m : Memory T) {p : Nat} {n : Node T} (hp : p ≠ nullptr)
    (h : m.node p = some n) : m.delete p = some (m.release p) := by
  simp [Memory.delete, load_of_ne m hp, h]

end MemoryLemmas

/-! ## Chains -/

section SegLemmas

variable {T : Type}

theorem Seg.nil_iff (m : Memory T) (p : Nat) : Seg m p [] ↔ p = nullptr := Iff.rfl

theorem Seg.cons_iff (m : Memory T) (p : Nat) (c : Nat × T) (rest : List (Nat × T)) :
    Seg m p (c :: rest) ↔
      p = c.1 ∧ c.1 ≠ nullptr ∧ c.1 < m.cap ∧
        ∃ nx, m.node c.1 = some ⟨c.2, nx⟩ ∧ Seg m nx rest := Iff.rfl

/-- A chain only depends on the nodes it passes through. -/
theorem Seg.frame {m m1 : Memory T} (hcap : m1.cap = m.cap) :
    ∀ {p : Nat} {cells : List (Nat × T)},
      (∀ x ∈ cells.map Prod.fst, m1.node x = m.node x) → Seg m p cells → Seg m1 p cells
  | _, [], _, h => h
  | _, c :: rest, hag, h => by
    obtain ⟨h1, h2, h3, nx, h4, h5⟩ := h
    refine ⟨h1, h2, by rw [hcap]; exact h3, nx, ?_, ?_⟩
    · rw [hag c.1 (by simp)]; exact h4
    · exact Seg.frame hcap (fun x hx => hag x (by simp at hx ⊢; exact Or.inr hx)) h5

/-- The chain from a pointer is unique. -/
theorem Seg.det {m : Memory T} :
    ∀ {p : Nat} {c1 c2 : List (Nat × T)}, Seg m p c1 → Seg m p c2 → c1 = c2
  | _, [], [], _, _ => rfl
  | _, [], c :: _, h1, h2 => by
    obtain ⟨e, hne, _⟩ := h2
    exact absurd (e ▸ h1) hne
  | _, c :: _, [], h1, h2 => by
    obtain ⟨e, hne, _⟩ := h1
    exact absurd (e ▸ h2) hne
  | _, c :: r1, d :: r2, h1, h2 => by
    obtain ⟨e1, _, _, n1, hn1, s1⟩ := h1
    obtain ⟨e2, _, _, n2, hn2, s2⟩ := h2
    have hcd : c.1 = d.1 := e1.symm.trans e2
    rw [hcd, hn2] at hn1
    have hv : d.2 = c.2 := by injection hn1 with h; injection h
    have hn : n2 = n1 := by injection hn1 with h; injection h
    have hr : r1 = r2 := Seg.det s1 (hn ▸ s2)
    have : c = d := Prod.ext hcd hv.symm
    rw [this, hr]

/-- Every suffix of a chain is the chain of some pointer. -/
theorem Seg.suffix {m : Memory T} :
    ∀ {p : Nat} (l1 : List (Nat × T)) {l2 : List (Nat × T)},
      Seg m p (l1 ++ l2) → ∃ q, Seg m q l2
  | p, [], _, h => ⟨p, h⟩
  | _, _ :: r, _, h => by
    obtain ⟨_, _, _, nx, _, s⟩ := h
    exact Seg.suffix r s

theorem Seg.head_not_mem {m : Memory T} {p : Nat} {c : Nat × T} {rest : List (Nat × T)}
    (h : Seg m p (c :: rest)) : c.1 ∉ rest.map Prod.fst := by
  intro hmem
  obtain ⟨d, hd, hdc⟩ := List.mem_map.1 hmem
  obtain ⟨l1, l2, hsplit⟩ := List.append_of_mem hd
  have h0 := h
  obtain ⟨_, _, _, nx, _, s⟩ := h
  rw [hsplit] at s
  obtain ⟨q, hq⟩ := Seg.suffix l1 s
  have hq1 : q = d.1 := hq.1
  have hp1 : p = c.1 := h0.1
  have hqp : q = p := by rw [hq1, hp1, hdc]
  rw [hqp] at hq
  have := Seg.det hq h0
  have hlen := congrArg List.length this
  rw [hsplit] at hlen
  simp at hlen
  omega

/-- A chain that ends in `nullptr` visits no node twice. -/
theorem Seg.nodup {m : Memory T} :
    ∀ {p : Nat} {cells : List (Nat × T)}, Seg m p cells → (cells.map Prod.fst).Nodup
  | _, [], _ => by simp
  | _, c :: rest, h => by
    have hh := Seg.head_not_mem h
    obtain ⟨_, _, _, nx, _, s⟩ := h
    simp only [List.map_cons, List.nodup_cons]
    exact ⟨hh, Seg.nodup s⟩

theorem Seg.addr_pos {m : Memory T} :
    ∀ {p : Nat} {cells : List (Nat × T)}, Seg m p cells →
      ∀ x ∈ cells.map Prod.fst, x ≠ nullptr ∧ x < m.cap ∧ m.node x ≠ none
  | _, [], _, x, hx => by simp at hx
  | _, c :: rest, h, x, hx => by
    obtain ⟨_, h2, h3, nx, h4, s⟩ := h
    simp only [List.map_cons, List.mem_cons] at hx
    rcases hx with hx | hx
    · subst hx
      exact ⟨h2, h3, by rw [h4]; simp⟩
    · exact Seg.addr_pos s x hx

/-- A list of distinct addresses below `n`, none of them `0` or `a`, is short. -/
theorem length_le_of_nodup_bounded {l : List Nat} {n a : Nat} (hnd : l.Nodup)
    (hb : ∀ x ∈ l, x ≠ 0 ∧ x < n) (ha0 : a ≠ 0) (han : a < n) (ha : a ∉ l) :
    l.length + 2 ≤ n := by
  have hnd2 : (0 :: a :: l).Nodup := by
    simp only [List.nodup_cons, List.mem_cons, not_or]
    refine ⟨⟨fun h => ha0 h.symm, fun h => (hb 0 h).1 rfl⟩, ha, hnd⟩
  have hsub : (0 :: a :: l).toFinset ⊆ Finset.range n := by
    intro x hx
    simp only [List.toFinset_cons, Finset.mem_insert, List.mem_toFinset] at hx
    simp only [Finset.mem_range]
    rcases hx with hx | hx | hx
    · omega
    · omega
    · exact (hb x hx).2
  have hcard := Finset.card_le_card hsub
  rw [List.toFinset_card_of_nodup hnd2, Finset.card_range] at hcard
  simp at hcard
  omega

/-- A well-formed list has fewer data nodes than the machine has addresses, with room
for the sentinel and the null address. -/
theorem ListAt.length_bound {m : Memory T} {self : Nat} {cells : List (Nat × T)}
    (h : ListAt m self cells) : cells.length + 2 ≤ m.cap := by
  obtain ⟨h0, hc, hnm, _, hd, _, hs⟩ := h
  have := length_le_of_nodup_bounded (Seg.nodup hs)
    (fun x hx => ⟨(Seg.addr_pos hs x hx).1, (Seg.addr_pos hs x hx).2.1⟩) h0 hc hnm
  simpa using this

theorem Seg.length_lt_cap {m : Memory T} {p : Nat} {cells : List (Nat × T)}
    (h : Seg m p cells) : cells.length < m.cap ∨ cells = [] := by
  cases cells with
  | nil => exact Or.inr rfl
  | cons c rest =>
    left
    have hnd := Seg.nodup h
    have hb := Seg.addr_pos h
    have hsub : (0 :: (c :: rest).map Prod.fst).toFinset ⊆ Finset.range m.cap := by
      intro x hx
      simp only [List.toFinset_cons, Finset.mem_insert, List.mem_toFinset] at hx
      simp only [Finset.mem_range]
      rcases hx with hx | hx
      · have := (hb c.1 (by simp)).2.1
        omega
      · exact (hb x hx).2.1
    have hnd2 : (0 :: (c :: rest).map Prod.fst).Nodup := by
      rw [List.nodup_cons]
      exact ⟨fun h0 => (hb 0 h0).1 rfl, hnd⟩
    have hcard := Finset.card_le_card hsub
    rw [List.toFinset_card_of_nodup hnd2, Finset.card_range] at hcard
    simp at hcard
    simp
    omega

end SegLemmas

/-! ## Well-formed lists -/

section ListLemmas

variable {T : Type}

/-- A well-formed list is a chain that starts at the sentinel. -/
theorem ListAt.seg {m : Memory T} {self : Nat} {cells : List (Nat × T)}
    (h : ListAt m self cells) :
    ∃ hv, Seg m self ((self, hv) :: cells) := by
  obtain ⟨h0, hc, _, _, hd, hn, hs⟩ := h
  exact ⟨hd.value, rfl, h0, hc, hd.next_node, hn, hs⟩

theorem ListAt.of_seg {m : Memory T} {self : Nat} {cells : List (Nat × T)} {hv : T}
    (h : Seg m self ((self, hv) :: cells)) (hsz : m.size_ self = cells.length) :
    ListAt m self cells := by
  have hnm := Seg.head_not_mem h
  obtain ⟨_, h0, hc, nx, hn, hs⟩ := h
  exact ⟨h0, hc, hnm, hsz, ⟨hv, nx⟩, hn, hs⟩

theorem ListAt.load {m : Memory T} {self : Nat} {cells : List (Nat × T)}
    (h : ListAt m self cells) :
    ∃ hd, m.load self = some hd ∧ m.node self = some hd ∧ Seg m hd.next_node cells := by
  obtain ⟨h0, _, _, _, hd, hn, hs⟩ := h
  exact ⟨hd, by rw [load_of_ne m h0, hn], hn, hs⟩

theorem ListAt.live {m : Memory T} {self : Nat} {cells : List (Nat × T)}
    (h : ListAt m self cells) :
    ∀ x ∈ footprint self cells, x ≠ nullptr ∧ x < m.cap ∧ m.node x ≠ none := by
  obtain ⟨hv, hs⟩ := h.seg
  exact Seg.addr_pos hs

theorem ListAt.footprint_nodup {m : Memory T} {self : Nat} {cells : List (Nat × T)}
    (h : ListAt m self cells) : (footprint self cells).Nodup := by
  obtain ⟨hv, hs⟩ := h.seg
  exact Seg.nodup hs

/-- Operations that stay away from the footprint of a list leave it as it is. -/
theorem ListAt.preserved {m m1 : Memory T} {self : Nat} {cells : List (Nat × T)}
    {fp : List Nat} (h : ListAt m self cells) (hf : Frame m m1 fp)
    (hdis : ∀ x ∈ footprint self cells, x ∉ fp) : ListAt m1 self cells := by
  have hlive := h.live
  obtain ⟨hv, hs⟩ := h.seg
  have hsz := h.2.2.2.1
  have hself := hf.2 self (hlive self (by simp [footprint])).2.2 (hdis self (by simp [footprint]))
  refine @ListAt.of_seg _ _ _ _ hv (Seg.frame hf.1 ?_ hs) (by rw [hself.2]; exact hsz)
  intro x hx
  exact (hf.2 x (hlive x hx).2.2 (hdis x hx)).1

theorem Frame.refl (m : Memory T) (fp : List Nat) : Frame m m fp :=
  ⟨rfl, fun _ _ _ => ⟨rfl, rfl⟩⟩

theorem Frame.mono {m m1 : Memory T} {fp fp1 : List Nat} (h : Frame m m1 fp)
    (hsub : ∀ x ∈ fp, x ∈ fp1) : Frame m m1 fp1 :=
  ⟨h.1, fun x hx hn => h.2 x hx (fun hmem => hn (hsub x hmem))⟩

/-- Frames compose when the second step only touches the first footprint or storage
that was not live at the start. -/
theorem Frame.trans {m m1 m2 : Memory T} {fp fp1 : List Nat} (h : Frame m m1 fp)
    (h1 : Frame m1 m2 fp1) (hsub : ∀ x ∈ fp1, x ∈ fp ∨ m.node x = none) :
    Frame m m2 fp := by
  refine ⟨h1.1.trans h.1, fun x hx hn => ?_⟩
  have hx1 := h.2 x hx hn
  have hlive1 : m1.node x ≠ none := by rw [hx1.1]; exact hx
  have hnfp1 : x ∉ fp1 := by
    intro hmem
    rcases hsub x hmem with hh | hh
    · exact hn hh
    · exact hx hh
  have hx2 := h1.2 x hlive1 hnfp1
  exact ⟨hx2.1.trans hx1.1, hx2.2.trans hx1.2⟩

/-! ### Traversal of a chain -/

theorem traverse_seg {m : Memory T} :
    ∀ {cells : List (Nat × T)} {p : Nat} {fuel : Nat}, Seg m p cells →
      cells.length ≤ fuel → traverse m fuel ⟨p⟩ = some (cells.map Prod.snd)
  | [], p, fuel, h, _ => by
    have hp : p = nullptr := h
    subst hp
    cases fuel <;> simp [traverse, BasicIterator.op_ne, BasicIterator.op_eq, end_]
  | c :: rest, p, 0, _, hl => by simp at hl
  | c :: rest, p, fuel + 1, h, hl => by
    obtain ⟨h1, h2, _, nx, h4, hs⟩ := h
    subst h1
    have ih : traverse m fuel ⟨nx⟩ = some (rest.map Prod.snd) :=
      traverse_seg hs (by simpa using hl)
    simp [traverse, BasicIterator.op_ne, BasicIterator.op_eq, end_, h2,
      BasicIterator.deref, BasicIterator.preInc, load_of_ne m h2, h4, ih]

theorem countFrom_seg {m : Memory T} :
    ∀ {cells : List (Nat × T)} {p : Nat} {fuel : Nat}, Seg m p cells →
      cells.length ≤ fuel → countFrom m fuel p = some cells.length
  | [], p, fuel, h, _ => by
    have hp : p = nullptr := h
    subst hp
    cases fuel <;> simp [countFrom]
  | c :: rest, p, 0, _, hl => by simp at hl
  | c :: rest, p, fuel + 1, h, hl => by
    obtain ⟨h1, h2, _, nx, h4, hs⟩ := h
    subst h1
    have ih : countFrom m fuel nx = some rest.length :=
      countFrom_seg hs (by simpa using hl)
    simp [countFrom, h2, load_of_ne m h2, h4, ih]

theorem ListAt.toSeq {m : Memory T} {self : Nat} {cells : List (Nat × T)}
    (h : ListAt m self cells) : toSeq m self = some (cells.map Prod.snd) := by
  have hb := h.length_bound
  obtain ⟨hd, hl, _, hs⟩ := h.load
  simp only [SingleLinkedList.toSeq, begin, hl]
  exact traverse_seg hs (by omega)

theorem ListAt.countNodes {m : Memory T} {self : Nat} {cells : List (Nat × T)}
    (h : ListAt m self cells) : countNodes m self = some cells.length := by
  have hb := h.length_bound
  obtain ⟨hd, hl, _, hs⟩ := h.load
  simp only [SingleLinkedList.countNodes, hl]
  exact countFrom_seg hs (by omega)

theorem ListAt.getSize {m : Memory T} {self : Nat} {cells : List (Nat × T)}
    (h : ListAt m self cells) : GetSize m self = cells.length := h.2.2.2.1

end ListLemmas

/-! ## Linking and unlinking inside a chain -/

section Surgery

variable {T : Type}

/-- Linking a fresh node `a` behind the `k`-th cell of a chain. -/
theorem Seg.insert {m : Memory T} {a : Nat} {v : T} (ha0 : a ≠ nullptr) (hac : a < m.cap)
    (hfree : m.node a = none) :
    ∀ {cells : List (Nat × T)} {p k : Nat} {c : Nat × T} {nx : Nat},
      Seg m p cells → cells[k]? = some c → m.node c.1 = some ⟨c.2, nx⟩ →
      Seg ((m.store a ⟨v, nx⟩).store c.1 ⟨c.2, a⟩) p
        (cells.take (k + 1) ++ (a, v) :: cells.drop (k + 1))
  | [], _, _, _, _, _, hk, _ => by simp at hk
  | d :: rest, p, 0, c, nx, hs, hk, hn => by
    have hdc : d = c := by simpa using hk
    subst hdc
    have hnm := Seg.head_not_mem hs
    obtain ⟨h1, h2, h3, nx1, h4, hs1⟩ := hs
    have hnx : nx1 = nx := by
      rw [h4] at hn
      injection hn with h
      injection h
    subst hnx
    have hda : d.1 ≠ a := fun e => by rw [e, hfree] at h4; cases h4
    simp only [List.take_succ_cons, List.take_zero, List.drop_succ_cons, List.drop_zero,
      List.singleton_append]
    refine ⟨h1, h2, h3, a, by simp, rfl, ha0, hac, nx1, ?_, ?_⟩
    · rw [store_node_ne _ _ (Ne.symm hda)]
      simp
    · refine Seg.frame (by simp) (fun x hx => ?_) hs1
      have hxd : x ≠ d.1 := fun e => hnm (e ▸ hx)
      have hxa : x ≠ a := fun e => by
        have := (Seg.addr_pos hs1 x hx).2.2
        rw [e, hfree] at this
        exact this rfl
      rw [store_node_ne _ _ hxd, store_node_ne _ _ hxa]
  | d :: rest, p, k + 1, c, nx, hs, hk, hn => by
    have hk1 : rest[k]? = some c := by simpa using hk
    have hnm := Seg.head_not_mem hs
    obtain ⟨h1, h2, h3, nx1, h4, hs1⟩ := hs
    have ih := Seg.insert (v := v) ha0 hac hfree hs1 hk1 hn
    have hcm : c.1 ∈ rest.map Prod.fst := by
      have : c ∈ rest := List.getElem?_mem hk1
      exact List.mem_map_of_mem _ this
    have hdc : d.1 ≠ c.1 := fun e => hnm (e ▸ hcm)
    have hda : d.1 ≠ a := fun e => by rw [e, hfree] at h4; cases h4
    simp only [List.take_succ_cons, List.drop_succ_cons, List.cons_append]
    refine ⟨h1, h2, h3, nx1, ?_, ih⟩
    rw [store_node_ne _ _ hdc, store_node_ne _ _ hda]
    exact h4

/-- Unlinking and deleting the cell behind the `k`-th cell of a chain. -/
theorem Seg.erase {m : Memory T} :
    ∀ {cells : List (Nat × T)} {p k : Nat} {c d : Nat × T} {nx : Nat},
      Seg m p cells → cells[k]? = some c → cells[k + 1]? = some d →
      m.node d.1 = some ⟨d.2, nx⟩ →
      Seg ((m.store c.1 ⟨c.2, nx⟩).release d.1) p (cells.eraseIdx (k + 1))
  | [], _, _, _, _, _, _, hk, _, _ => by simp at hk
  | [_], _, 0, _, _, _, _, _, hk1, _ => by simp at hk1
  | e :: f :: rest, p, 0, c, d, nx, hs, hk, hk1, hn => by
    have hec : e = c := by simpa using hk
    have hfd : f = d := by simpa using hk1
    subst hec
    subst hfd
    have hnm := Seg.head_not_mem hs
    obtain ⟨h1, h2, h3, nx1, h4, hs1⟩ := hs
    have hnm1 := Seg.head_not_mem hs1
    obtain ⟨g1, g2, g3, nx2, g4, hs2⟩ := hs1
    have hnx : nx2 = nx := by
      rw [g4] at hn
      injection hn with h
      injection h
    subst hnx
    have hef : e.1 ≠ f.1 := fun h => hnm (by simp [h])
    simp only [List.eraseIdx_cons_succ, List.eraseIdx_cons_zero]
    refine ⟨h1, h2, h3, nx2, ?_, ?_⟩
    · rw [release_node_ne _ hef]
      simp
    · refine Seg.frame (by simp) (fun x hx => ?_) hs2
      have hxf : x ≠ f.1 := fun h => hnm1 (h ▸ hx)
      have hxe : x ≠ e.1 := fun h => hnm (by rw [← h]; simp [hx])
      rw [release_node_ne _ hxf, store_node_ne _ _ hxe]
  | e :: rest, p, k + 1, c, d, nx, hs, hk, hk1, hn => by
    have hk' : rest[k]? = some c := by simpa using hk
    have hk1' : rest[k + 1]? = some d := by simpa using hk1
    have hnm := Seg.head_not_mem hs
    obtain ⟨h1, h2, h3, nx1, h4, hs1⟩ := hs
    have ih := Seg.erase hs1 hk' hk1' hn
    have hcm : c.1 ∈ rest.map Prod.fst :=
      List.mem_map_of_mem _ (List.getElem?_mem hk')
    have hdm : d.1 ∈ rest.map Prod.fst :=
      List.mem_map_of_mem _ (List.getElem?_mem hk1')
    have hec : e.1 ≠ c.1 := fun h => hnm (h ▸ hcm)
    have hed : e.1 ≠ d.1 := fun h => hnm (h ▸ hdm)
    simp only [List.eraseIdx_cons_succ]
    refine ⟨h1, h2, h3, nx1, ?_, ih⟩
    rw [release_node_ne _ hed, store_node_ne _ _ hec]
    exact h4

/-- The node stored in the `k`-th cell of a chain. -/
theorem Seg.node_at {m : Memory T} :
    ∀ {cells : List (Nat × T)} {p k : Nat} {c : Nat × T},
      Seg m p cells → cells[k]? = some c →
      c.1 ≠ nullptr ∧ ∃ nx, m.node c.1 = some ⟨c.2, nx⟩ ∧ Seg m nx (cells.drop (k + 1))
  | [], _, _, _, _, hk => by simp at hk
  | d :: rest, _, 0, c, hs, hk => by
    have hdc : d = c := by simpa using hk
    subst hdc
    obtain ⟨_, h2, _, nx1, h4, hs1⟩ := hs
    exact ⟨h2, nx1, h4, by simpa using hs1⟩
  | d :: rest, _, k + 1, c, hs, hk => by
    have hk1 : rest[k]? = some c := by simpa using hk
    obtain ⟨_, _, _, nx1, _, hs1⟩ := hs
    simpa using Seg.node_at hs1 hk1

end Surgery

/-! ## Specifications of the mutating members -/

section Members

variable {T : Type}

theorem Seg.setSize {m : Memory T} {p : Nat} {cells : List (Nat × T)} (q s : Nat)
    (h : Seg m p cells) : Seg (m.setSize q s) p cells :=
  Seg.frame (by simp) (fun _ _ => by simp) h

/-- The successor link of the `k`-th cell of a chain is the address of the next cell. -/
theorem Seg.next_at {m : Memory T} {cells : List (Nat × T)} {p k : Nat} {c d : Nat × T}
    (hs : Seg m p cells) (hk : cells[k]? = some c) (hk1 : cells[k + 1]? = some d) :
    m.node c.1 = some ⟨c.2, d.1⟩ ∧ d.1 ≠ nullptr ∧ ∃ nx, m.node d.1 = some ⟨d.2, nx⟩ := by
  obtain ⟨_, nx, hn, hrest⟩ := Seg.node_at hs hk
  obtain ⟨hd0, nx2, hn2, _⟩ := Seg.node_at hs hk1
  obtain ⟨hlt, hget⟩ := List.getElem?_eq_some.1 hk1
  rw [List.drop_eq_getElem_cons hlt, hget] at hrest
  have : nx = d.1 := hrest.1
  subst this
  exact ⟨hn, hd0, nx2, hn2⟩

/-- The successor link of the last cell of a chain is `nullptr`. -/
theorem Seg.next_last {m : Memory T} {cells : List (Nat × T)} {p k : Nat} {c : Nat × T}
    (hs : Seg m p cells) (hk : cells[k]? = some c) (hk1 : cells[k + 1]? = none) :
    m.node c.1 = some ⟨c.2, nullptr⟩ := by
  obtain ⟨_, nx, hn, hrest⟩ := Seg.node_at hs hk
  have hlen : cells.length ≤ k + 1 := List.getElem?_eq_none_iff.1 hk1
  rw [List.drop_of_length_le hlen] at hrest
  have : nx = nullptr := hrest
  subst this
  exact hn

/-- The memory `InsertAfter` produces when called at the `k`-th position of a
well-formed list (position `0` is the sentinel). -/
theorem ListAt.insert_mem {m : Memory T} {self a k nx : Nat} {cells : List (Nat × T)}
    {hv : T} {c : Nat × T} (v : T) (hl : ListAt m self cells)
    (hseg : Seg m self ((self, hv) :: cells))
    (hk : ((self, hv) :: cells)[k]? = some c) (hn : m.node c.1 = some ⟨c.2, nx⟩)
    (ha0 : a ≠ nullptr) (hac : a < m.cap) (hfree : m.node a = none) :
    ListAt (((m.store a ⟨v, nx⟩).store c.1 ⟨c.2, a⟩).setSize self (m.size_ self + 1)) self
        (cells.take k ++ (a, v) :: cells.drop k) ∧
      Frame m (((m.store a ⟨v, nx⟩).store c.1 ⟨c.2, a⟩).setSize self (m.size_ self + 1))
        (footprint self cells) := by
  have hb := hl.length_bound
  have hsz : m.size_ self = cells.length := hl.2.2.2.1
  have hk_le : k ≤ cells.length := by
    obtain ⟨hlt, _⟩ := List.getElem?_eq_some.1 hk
    simp at hlt
    omega
  have hcm : c.1 ∈ footprint self cells := by
    have : c ∈ (self, hv) :: cells := List.getElem?_mem hk
    have := List.mem_map_of_mem Prod.fst this
    simpa [footprint] using this
  constructor
  · have h1 := Seg.insert (v := v) ha0 hac hfree hseg hk hn
    have h2 := Seg.setSize self (m.size_ self + 1) h1
    simp only [List.take_succ_cons, List.drop_succ_cons, List.cons_append] at h2
    refine ListAt.of_seg h2 ?_
    rw [setSize_size_same]
    simp only [store_cap, hsz, List.length_append, List.length_take, List.length_cons,
      List.length_drop]
    rw [Nat.mod_eq_of_lt (by omega)]
    omega
  · refine ⟨by simp, fun x hx hnf => ?_⟩
    have hxc : x ≠ c.1 := fun e => hnf (e ▸ hcm)
    have hxa : x ≠ a := fun e => hx (e ▸ hfree)
    have hxs : x ≠ self := fun e => hnf (by simp [footprint, e])
    refine ⟨?_, ?_⟩
    · rw [setSize_node, store_node_ne _ _ hxc, store_node_ne _ _ hxa]
    · rw [setSize_size_ne _ _ hxs]
      simp

/-- The memory `EraseAfter` produces when called at the `k`-th position of a
well-formed list whose `k`-th position has a successor. -/
theorem ListAt.erase_mem {m : Memory T} {self k nx : Nat} {cells : List (Nat × T)}
    {hv : T} {c d : Nat × T} (hl : ListAt m self cells)
    (hseg : Seg m self ((self, hv) :: cells))
    (hk : ((self, hv) :: cells)[k]? = some c) (hk1 : ((self, hv) :: cells)[k + 1]? = some d)
    (hn : m.node d.1 = some ⟨d.2, nx⟩) :
    ListAt (((m.store c.1 ⟨c.2, nx⟩).release d.1).setSize self (m.size_ self + m.cap - 1))
        self (cells.eraseIdx k) ∧
      Frame m (((m.store c.1 ⟨c.2, nx⟩).release d.1).setSize self (m.size_ self + m.cap - 1))
        (footprint self cells) := by
  have hb := hl.length_bound
  have hsz : m.size_ self = cells.length := hl.2.2.2.1
  have hk_lt : k < cells.length := by
    obtain ⟨hlt, _⟩ := List.getElem?_eq_some.1 hk1
    simp at hlt
    omega
  have hcm : c.1 ∈ footprint self cells := by
    have := List.mem_map_of_mem Prod.fst (List.getElem?_mem hk)
    simpa [footprint] using this
  have hdm : d.1 ∈ footprint self cells := by
    have := List.mem_map_of_mem Prod.fst (List.getElem?_mem hk1)
    simpa [footprint] using this
  constructor
  · have h1 := Seg.erase hseg hk hk1 hn
    have h2 := Seg.setSize self (m.size_ self + m.cap - 1) h1
    simp only [List.eraseIdx_cons_succ] at h2
    refine ListAt.of_seg h2 ?_
    rw [setSize_size_same]
    simp only [store_cap, release_cap, hsz]
    rw [List.length_eraseIdx_of_lt hk_lt]
    have : cells.length + m.cap - 1 = (cells.length - 1) + m.cap := by omega
    rw [this, Nat.add_mod_right, Nat.mod_eq_of_lt (by omega)]
  · refine ⟨by simp, fun x hx hnf => ?_⟩
    have hxc : x ≠ c.1 := fun e => hnf (e ▸ hcm)
    have hxd : x ≠ d.1 := fun e => hnf (e ▸ hdm)
    have hxs : x ≠ self := fun e => hnf (by simp [footprint, e])
    refine ⟨?_, ?_⟩
    · rw [setSize_node, release_node_ne _ hxd, store_node_ne _ _ hxc]
    · rw [setSize_size_ne _ _ hxs]
      simp

end Members

section MemberResults

variable {T : Type}

theorem footprint_getElem? {self k q : Nat} {cells : List (Nat × T)} (hv : T)
    (hk : (footprint self cells)[k]? = some q) :
    ∃ c : Nat × T, ((self, hv) :: cells)[k]? = some c ∧ c.1 = q := by
  have : footprint self cells = ((self, hv) :: cells).map Prod.fst := by simp [footprint]
  rw [this, List.getElem?_map] at hk
  cases h : ((self, hv) :: cells)[k]? with
  | none => rw [h] at hk; simp at hk
  | some c =>
    rw [h] at hk
    exact ⟨c, rfl, by simpa using hk⟩

/-- The member `InsertAfter` at the `k`-th position of a well-formed list, when node
creation succeeds. -/
theorem InsertAfter_ok {alloc : Allocator T} (hA : AllocOK alloc) {m : Memory T}
    {self k q a : Nat} {cells : List (Nat × T)} (v : T) (hl : ListAt m self cells)
    (hk : (footprint self cells)[k]? = some q) (ha : alloc m = some a) :
    ∃ m1, InsertAfter alloc m self ⟨q⟩ v = .ok m1 ⟨a⟩ ∧
      ListAt m1 self (cells.take k ++ (a, v) :: cells.drop k) ∧
      Frame m m1 (footprint self cells) ∧ m.node a = none := by
  obtain ⟨ha0, hac, hfree⟩ := hA m a ha
  obtain ⟨hv, hseg⟩ := hl.seg
  obtain ⟨c, hkc, hcq⟩ := footprint_getElem? hv hk
  obtain ⟨hc0, nx, hn, _⟩ := Seg.node_at hseg hkc
  subst hcq
  have hca : c.1 ≠ a := fun e => by rw [e, hfree] at hn; cases hn
  obtain ⟨h1, h2⟩ := hl.insert_mem v hseg hkc hn ha0 hac hfree
  refine ⟨_, ?_, h1, h2, hfree⟩
  have e1 : (m.store a ⟨v, nx⟩).node c.1 = some ⟨c.2, nx⟩ := by
    rw [store_node_ne _ _ hca]; exact hn
  simp only [InsertAfter, ha, load_of_ne _ hc0, hn, setNext_eq _ a hc0 e1, setSize_node,
    store_node_same, store_size]

/-- The member `InsertAfter` when node creation fails: the exception propagates and the
memory is the one before the call. -/
theorem InsertAfter_throw {alloc : Allocator T} {m : Memory T} {self : Nat}
    (pos : BasicIterator) (v : T) (ha : alloc m = none) :
    InsertAfter alloc m self pos v = .throw m := by
  simp only [InsertAfter, ha]

/-- The member `PushFront` on a well-formed list, when node creation succeeds. -/
theorem PushFront_ok {alloc : Allocator T} (hA : AllocOK alloc) {m : Memory T}
    {self a : Nat} {cells : List (Nat × T)} (v : T) (hl : ListAt m self cells)
    (ha : alloc m = some a) :
    ∃ m1, PushFront alloc m self v = .ok m1 () ∧ ListAt m1 self ((a, v) :: cells) ∧
      Frame m m1 [self] ∧ m.node a = none := by
  obtain ⟨ha0, hac, hfree⟩ := hA m a ha
  obtain ⟨hv, hseg⟩ := hl.seg
  have hkc : ((self, hv) :: cells)[0]? = some (self, hv) := by simp
  obtain ⟨hc0, nx, hn, _⟩ := Seg.node_at hseg hkc
  have hca : self ≠ a := fun e => by rw [e, hfree] at hn; cases hn
  obtain ⟨h1, h2⟩ := hl.insert_mem v hseg hkc hn ha0 hac hfree
  simp only [List.take_zero, List.nil_append, List.drop_zero] at h1
  refine ⟨_, ?_, h1, ?_, hfree⟩
  · have e1 : (m.store a ⟨v, nx⟩).node self = some ⟨hv, nx⟩ := by
      rw [store_node_ne _ _ hca]; exact hn
    simp only [PushFront, ha, load_of_ne _ hc0, hn, setNext_eq _ a hc0 e1, store_size]
  · refine ⟨by simp, fun x hx hnf => ?_⟩
    have hxs : x ≠ self := fun e => hnf (by simp [e])
    have hxa : x ≠ a := fun e => hx (e ▸ hfree)
    refine ⟨?_, ?_⟩
    · rw [setSize_node, store_node_ne _ _ hxs, store_node_ne _ _ hxa]
    · rw [setSize_size_ne _ _ hxs]
      simp

theorem PushFront_throw {alloc : Allocator T} {m : Memory T} (self : Nat) (v : T)
    (ha : alloc m = none) : PushFront alloc m self v = .throw m := by
  simp only [PushFront, ha]

/-- The member `EraseAfter` at the `k`-th position of a well-formed list when that
position has a successor. -/
theorem EraseAfter_ok {m : Memory T} {self k q : Nat} {cells : List (Nat × T)}
    (hl : ListAt m self cells) (hk : (footprint self cells)[k]? = some q)
    (hlt : k < cells.length) :
    ∃ m1, EraseAfter m self ⟨q⟩ =
        some (m1, ⟨((cells.map Prod.fst).drop (k + 1)).headD nullptr⟩) ∧
      ListAt m1 self (cells.eraseIdx k) ∧ Frame m m1 (footprint self cells) := by
  obtain ⟨hv, hseg⟩ := hl.seg
  obtain ⟨c, hkc, hcq⟩ := footprint_getElem? hv hk
  subst hcq
  have hlen : k + 1 < ((self, hv) :: cells).length := by simpa using hlt
  obtain ⟨d, hk1⟩ : ∃ d, ((self, hv) :: cells)[k + 1]? = some d :=
    ⟨_, List.getElem?_eq_getElem hlen⟩
  obtain ⟨hn, hd0, nx, hnd⟩ := Seg.next_at hseg hkc hk1
  obtain ⟨hc0, _, _, _⟩ := Seg.node_at hseg hkc
  obtain ⟨_, nx2, hnd2, hrest⟩ := Seg.node_at hseg hk1
  have hnx : nx2 = nx := by
    rw [hnd] at hnd2
    injection hnd2 with h
    injection h with _ h
    exact h.symm
  subst hnx
  obtain ⟨h1, h2⟩ := hl.erase_mem hseg hkc hk1 hnd
  refine ⟨_, ?_, h1, h2⟩
  have hcd : d.1 ≠ c.1 := by
    intro e
    have hnodup := Seg.nodup hseg
    have g1 : (((self, hv) :: cells).map Prod.fst)[k]? = some c.1 := by
      rw [List.getElem?_map, hkc]; rfl
    have g2 : (((self, hv) :: cells).map Prod.fst)[k + 1]? = some c.1 := by
      rw [List.getElem?_map, hk1, ← e]; rfl
    have hkl : k < (((self, hv) :: cells).map Prod.fst).length := by
      obtain ⟨hh, _⟩ := List.getElem?_eq_some.1 g1
      exact hh
    have := List.getElem?_inj hkl hnodup (g1.trans g2.symm)
    omega
  have e1 : (m.store c.1 ⟨c.2, nx2⟩).node d.1 = some ⟨d.2, nx2⟩ := by
    rw [store_node_ne _ _ hcd]; exact hnd
  have hnext : ((cells.map Prod.fst).drop (k + 1)).headD nullptr = nx2 := by
    cases hr : List.drop (k + 1 + 1) ((self, hv) :: cells) with
    | nil =>
      rw [hr] at hrest
      have hnil : List.drop (k + 1) cells = [] := by simpa using hr
      have : nx2 = nullptr := hrest
      rw [← List.map_drop, hnil, this]
      rfl
    | cons e es =>
      rw [hr] at hrest
      have hcons : List.drop (k + 1) cells = e :: es := by simpa using hr
      have : nx2 = e.1 := hrest.1
      rw [← List.map_drop, hcons, this]
      rfl
  simp only [EraseAfter, load_of_ne _ hc0, load_of_ne _ hd0, hn, ne_eq, hd0,
    not_false_eq_true, if_true, hnd, setNext_eq _ nx2 hc0 hn, delete_eq _ hd0 e1,
    setSize_node, store_size, release_size, store_cap, release_cap,
    release_node_ne _ (Ne.symm hcd), store_node_same, hnext]

/-- The member `EraseAfter` at a position without successor changes nothing and returns
`end()`. -/
theorem EraseAfter_last {m : Memory T} {self k q : Nat} {cells : List (Nat × T)}
    (hl : ListAt m self cells) (hk : (footprint self cells)[k]? = some q)
    (hlast : k = cells.length) : EraseAfter m self ⟨q⟩ = some (m, end_) := by
  obtain ⟨hv, hseg⟩ := hl.seg
  obtain ⟨c, hkc, hcq⟩ := footprint_getElem? hv hk
  subst hcq
  have hk1 : ((self, hv) :: cells)[k + 1]? = none := by
    rw [List.getElem?_eq_none_iff]
    simp [hlast]
  have hn := Seg.next_last hseg hkc hk1
  obtain ⟨hc0, _, _, _⟩ := Seg.node_at hseg hkc
  simp [EraseAfter, load_of_ne _ hc0, hn, end_]

end MemberResults

section MoreMembers

variable {T : Type}

theorem store_release_comm (m : Memory T) {p q : Nat} (n : Node T) (h : p ≠ q) :
    (m.release q).store p n = (m.store p n).release q := by
  simp only [Memory.store, Memory.release]
  rw [Function.update_comm h]

/-- On a non-empty well-formed list `PopFront()` produces the memory that
`EraseAfter(before_begin())` produces. -/
theorem PopFront_eq_EraseAfter {m : Memory T} {self : Nat} {c : Nat × T}
    {rest : List (Nat × T)} (hl : ListAt m self (c :: rest)) :
    ∃ m1 it, PopFront m self = some m1 ∧ EraseAfter m self (before_begin self) = some (m1, it) ∧
      ListAt m1 self rest ∧ Frame m m1 (footprint self (c :: rest)) := by
  have hk : (footprint self (c :: rest))[0]? = some self := by simp [footprint]
  obtain ⟨m1, he, h1, h2⟩ := EraseAfter_ok hl hk (by simp)
  refine ⟨m1, _, ?_, he, by simpa using h1, h2⟩
  obtain ⟨hv, hseg⟩ := hl.seg
  have hk0 : ((self, hv) :: c :: rest)[0]? = some (self, hv) := by simp
  have hk1 : ((self, hv) :: c :: rest)[0 + 1]? = some c := by simp
  obtain ⟨hn, hd0, nx, hnd⟩ := Seg.next_at hseg hk0 hk1
  have hs0 : self ≠ nullptr := hl.1
  have hsc : self ≠ c.1 := fun e => hl.2.2.1 (by simp [← e])
  have hsz : m.size_ self = (c :: rest).length := hl.2.2.2.1
  have hne : IsEmpty m self = false := by
    simp [IsEmpty, GetSize, hsz]
  have e1 : (m.release c.1).node self = some ⟨hv, c.1⟩ := by
    rw [release_node_ne _ hsc]; exact hn
  have e2 : (m.store self ⟨hv, nx⟩).node c.1 = some ⟨c.2, nx⟩ := by
    rw [store_node_ne _ _ (Ne.symm hsc)]; exact hnd
  have hP : PopFront m self = some (((m.release c.1).store self ⟨hv, nx⟩).setSize self
      (m.size_ self + m.cap - 1)) := by
    simp only [PopFront, hne, if_true, load_of_ne _ hs0, load_of_ne _ hd0, hn, hnd,
      delete_eq _ hd0 hnd, setNext_eq _ nx hs0 e1, store_size, release_size, store_cap,
      release_cap]
  have hE : EraseAfter m self (before_begin self) = some
      (((m.store self ⟨hv, nx⟩).release c.1).setSize self (m.size_ self + m.cap - 1),
        ⟨nx⟩) := by
    simp only [EraseAfter, before_begin, load_of_ne _ hs0, load_of_ne _ hd0, hn, ne_eq, hd0,
      not_false_eq_true, if_true, hnd, setNext_eq _ nx hs0 hn, delete_eq _ hd0 e2,
      setSize_node, store_size, release_size, store_cap, release_cap,
      release_node_ne _ hsc, store_node_same]
  rw [before_begin] at hE
  rw [hE] at he
  have hm : m1 = ((m.store self ⟨hv, nx⟩).release c.1).setSize self
      (m.size_ self + m.cap - 1) := by
    injection he with he
    exact (congrArg Prod.fst he).symm
  rw [hP, hm, store_release_comm _ _ hsc]

/-- On an empty well-formed list `PopFront()` does nothing. -/
theorem PopFront_empty {m : Memory T} {self : Nat} (hl : ListAt m self []) :
    PopFront m self = some m := by
  have hsz : m.size_ self = 0 := hl.2.2.2.1
  simp [PopFront, IsEmpty, GetSize, hsz]

/-- The default constructor makes a well-formed empty list. -/
theorem ListAt.ctor_list [Inhabited T] (m : Memory T) {self : Nat} (h0 : self ≠ nullptr)
    (hc : self < m.cap) : ListAt (ctor m self) self [] := by
  refine ⟨h0, hc, by simp, ?_, ⟨default, nullptr⟩, ?_, rfl⟩
  · simp [SingleLinkedList.ctor]
  · simp [SingleLinkedList.ctor]

theorem Frame.ctor_frame [Inhabited T] (m : Memory T) (self : Nat) :
    Frame m (ctor m self) [self] := by
  refine ⟨rfl, fun x _ hn => ?_⟩
  have hxs : x ≠ self := fun e => hn (by simp [e])
  simp only [SingleLinkedList.ctor]
  exact ⟨by rw [setSize_node, store_node_ne _ _ hxs], by rw [setSize_size_ne _ _ hxs]; simp⟩

/-- The loop of `Clear()` on a chain deletes exactly the nodes of the chain. -/
theorem clearLoop_seg :
    ∀ {cells : List (Nat × T)} {m : Memory T} {p fuel : Nat}, Seg m p cells →
      cells.length ≤ fuel →
      ∃ m1, clearLoop fuel m p = some m1 ∧ m1.cap = m.cap ∧ m1.size_ = m.size_ ∧
        (∀ x, x ∉ cells.map Prod.fst → m1.node x = m.node x) ∧
        (∀ x ∈ cells.map Prod.fst, m1.node x = none)
  | [], m, p, fuel, h, _ => by
    have hp : p = nullptr := h
    subst hp
    refine ⟨m, ?_, rfl, rfl, fun _ _ => rfl, fun x hx => by simp at hx⟩
    cases fuel <;> simp [clearLoop]
  | c :: rest, m, p, 0, _, hl => by simp at hl
  | c :: rest, m, p, fuel + 1, h, hl => by
    have hnm := Seg.head_not_mem h
    obtain ⟨h1, h2, _, nx, h4, hs⟩ := h
    subst h1
    have hs1 : Seg (m.release c.1) nx rest := by
      refine Seg.frame (by simp) (fun x hx => ?_) hs
      exact release_node_ne _ (fun e => hnm (e ▸ hx))
    obtain ⟨m1, hm1, hcap, hsize, hout, hin⟩ :=
      clearLoop_seg hs1 (Nat.le_of_succ_le_succ (by simpa using hl))
    refine ⟨m1, ?_, by rw [hcap]; rfl, by rw [hsize]; rfl, ?_, ?_⟩
    · simp only [clearLoop, h2, if_false, load_of_ne _ h2, h4, delete_eq _ h2 h4, hm1]
    · intro x hx
      simp only [List.map_cons, List.mem_cons, not_or] at hx
      rw [hout x hx.2, release_node_ne _ hx.1]
    · intro x hx
      simp only [List.map_cons, List.mem_cons] at hx
      rcases hx with hx | hx
      · subst hx
        rw [hout _ hnm]
        simp
      · exact hin x hx

/-- The member `Clear()` on a well-formed list. -/
theorem Clear_ok {m : Memory T} {self : Nat} {cells : List (Nat × T)}
    (hl : ListAt m self cells) :
    ∃ m1, Clear m self = some m1 ∧ ListAt m1 self [] ∧ Frame m m1 (footprint self cells) ∧
      (∀ x ∈ cells.map Prod.fst, m1.node x = none) ∧
      ∃ hv, m1.node self = some ⟨hv, nullptr⟩ := by
  have hb := hl.length_bound
  obtain ⟨h0, hc, hnm, hsz, hd, hn, hs⟩ := hl
  obtain ⟨m1, hm1, hcap, hsize, hout, hin⟩ := clearLoop_seg hs (by omega : cells.length ≤ m.cap)
  have hn1 : m1.node self = some hd := by rw [hout self hnm]; exact hn
  refine ⟨(m1.store self ⟨hd.value, nullptr⟩).setSize self 0, ?_, ?_, ?_, ?_, ?_⟩
  · simp only [Clear, load_of_ne _ h0, hn, hm1, setNext_eq _ nullptr h0 hn1]
  · refine ⟨h0, by simpa [hcap] using hc, by simp, by simp, ⟨hd.value, nullptr⟩, by simp, rfl⟩
  · refine ⟨by simp [hcap], fun x _ hnf => ?_⟩
    simp only [footprint, List.mem_cons, not_or] at hnf
    refine ⟨?_, ?_⟩
    · rw [setSize_node, store_node_ne _ _ hnf.1, hout x hnf.2]
    · rw [setSize_size_ne _ _ hnf.1, store_size, hsize]
  · intro x hx
    have hxs : x ≠ self := fun e => hnm (e ▸ hx)
    rw [setSize_node, store_node_ne _ _ hxs]
    exact hin x hx
  · exact ⟨hd.value, by simp⟩

/-- The destructor of a well-formed list gives up the sentinel and every data node and
touches nothing else. -/
theorem dtor_ok {m : Memory T} {self : Nat} {cells : List (Nat × T)}
    (hl : ListAt m self cells) :
    ∃ m1, dtor m self = some m1 ∧ Frame m m1 (footprint self cells) ∧
      (∀ x ∈ footprint self cells, m1.node x = none) := by
  obtain ⟨m1, hm1, _, hf, hin, _⟩ := Clear_ok hl
  refine ⟨m1.release self, by simp only [dtor, hm1], ?_, ?_⟩
  · refine ⟨by simp [hf.1], fun x hx hnf => ?_⟩
    have hxs : x ≠ self := fun e => hnf (by simp [footprint, e])
    have := hf.2 x hx hnf
    exact ⟨by rw [release_node_ne _ hxs]; exact this.1, by simpa using this.2⟩
  · intro x hx
    simp only [footprint, List.mem_cons] at hx
    rcases hx with hx | hx
    · subst hx; simp
    · by_cases hxs : x = self
      · subst hxs; simp
      · rw [release_node_ne _ hxs]
        exact hin x hx

end MoreMembers

section SwapAndCopy

variable {T : Type}

/-- The member `swap` on two well-formed lists that are the same object or do not contain
each other's sentinel: the chains and the sizes change places. -/
theorem swap_ok {m : Memory T} {A B : Nat} {ca cb : List (Nat × T)}
    (ha : ListAt m A ca) (hb : ListAt m B cb)
    (hdis : A = B ∨ (A ∉ footprint B cb ∧ B ∉ footprint A ca)) :
    ∃ m1, swap m A B = some m1 ∧ ListAt m1 A cb ∧ ListAt m1 B ca ∧ Frame m m1 [A, B] := by
  have hba := ha.length_bound
  have hbb := hb.length_bound
  obtain ⟨hA0, hAc, hAnm, hAsz, hdA, hnA, hsA⟩ := ha
  obtain ⟨hB0, hBc, hBnm, hBsz, hdB, hnB, hsB⟩ := hb
  by_cases hAB : A = B
  · subst hAB
    have hd : hdB = hdA := by
      rw [hnA] at hnB
      injection hnB with h
      exact h.symm
    subst hd
    have hcc : ca = cb := Seg.det hsA hsB
    subst hcc
    have e1 : (m.store A ⟨hdB.value, hdB.next_node⟩).node A = some ⟨hdB.value, hdB.next_node⟩ := by
      simp
    refine ⟨(((m.store A ⟨hdB.value, hdB.next_node⟩).store A
        ⟨hdB.value, hdB.next_node⟩).setSize A (m.size_ A)).setSize A (m.size_ A),
      ?_, ?_, ?_, ?_⟩
    · simp only [swap, load_of_ne _ hA0, hnA, setNext_eq _ hdB.next_node hA0 hnA,
        setNext_eq _ hdB.next_node hA0 e1, store_size]
    · refine ⟨hA0, by simpa using hAc, hAnm, ?_, hdB, by simp, ?_⟩
      · simp [hAsz, Nat.mod_eq_of_lt (by omega : ca.length < m.cap)]
      · refine Seg.frame (by simp) (fun x hx => ?_) hsA
        have hxA : x ≠ A := fun e => hAnm (e ▸ hx)
        simp [store_node_ne _ _ hxA]
    · refine ⟨hA0, by simpa using hAc, hAnm, ?_, hdB, by simp, ?_⟩
      · simp [hAsz, Nat.mod_eq_of_lt (by omega : ca.length < m.cap)]
      · refine Seg.frame (by simp) (fun x hx => ?_) hsA
        have hxA : x ≠ A := fun e => hAnm (e ▸ hx)
        simp [store_node_ne _ _ hxA]
    · refine ⟨by simp, fun x _ hnf => ?_⟩
      have hxA : x ≠ A := fun e => hnf (by simp [e])
      refine ⟨by simp [store_node_ne _ _ hxA], ?_⟩
      rw [setSize_size_ne _ _ hxA, setSize_size_ne _ _ hxA]
      simp
  · rcases hdis with hdis | ⟨hd1, hd2⟩
    · exact absurd hdis hAB
    · simp only [footprint, List.mem_cons, not_or] at hd1 hd2
      have hBA : B ≠ A := fun e => hAB e.symm
      have e1 : (m.store A ⟨hdA.value, hdB.next_node⟩).node B = some hdB := by
        rw [store_node_ne _ _ hBA]; exact hnB
      refine ⟨(((m.store A ⟨hdA.value, hdB.next_node⟩).store B
          ⟨hdB.value, hdA.next_node⟩).setSize A (m.size_ B)).setSize B (m.size_ A),
        ?_, ?_, ?_, ?_⟩
      · simp only [swap, load_of_ne _ hA0, load_of_ne _ hB0, hnA, hnB,
          setNext_eq _ hdB.next_node hA0 hnA, setNext_eq _ hdA.next_node hB0 e1, store_size]
      · refine ⟨hA0, by simpa using hAc, hd1.2, ?_, ⟨hdA.value, hdB.next_node⟩, ?_, ?_⟩
        · rw [setSize_size_ne _ _ hAB]
          simp [hBsz, Nat.mod_eq_of_lt (by omega : cb.length < m.cap)]
        · simp [store_node_ne _ _ hAB]
        · refine Seg.frame (by simp) (fun x hx => ?_) hsB
          have hxA : x ≠ A := fun e => hd1.2 (e ▸ hx)
          have hxB : x ≠ B := fun e => hBnm (e ▸ hx)
          simp [store_node_ne _ _ hxA, store_node_ne _ _ hxB]
      · refine ⟨hB0, by simpa using hBc, hd2.2, ?_, ⟨hdB.value, hdA.next_node⟩, ?_, ?_⟩
        · simp [hAsz, Nat.mod_eq_of_lt (by omega : ca.length < m.cap)]
        · simp
        · refine Seg.frame (by simp) (fun x hx => ?_) hsA
          have hxA : x ≠ A := fun e => hAnm (e ▸ hx)
          have hxB : x ≠ B := fun e => hd2.2 (e ▸ hx)
          simp [store_node_ne _ _ hxA, store_node_ne _ _ hxB]
      · refine ⟨by simp, fun x _ hnf => ?_⟩
        simp only [List.mem_cons, List.mem_singleton, not_or, List.not_mem_nil,
          or_false] at hnf
        refine ⟨by simp [store_node_ne _ _ hnf.1, store_node_ne _ _ hnf.2], ?_⟩
        rw [setSize_size_ne _ _ hnf.2, setSize_size_ne _ _ hnf.1]
        simp

theorem fillStack_eq_reverse (container : List T) : fillStack container = container.reverse := by
  have key : ∀ (l acc : List T),
      List.foldl (fun rev_stack t => t :: rev_stack) acc l = l.reverse ++ acc := by
    intro l
    induction l with
    | nil => intro acc; rfl
    | cons x xs ih =>
      intro acc
      simp only [List.foldl_cons, List.reverse_cons, List.append_assoc, List.singleton_append]
      exact ih (x :: acc)
  simp [fillStack, key]

/-- Storage that is free after a step that only touched `fp` and free storage was free
before the step, unless it lies in `fp`. -/
theorem Frame.free_before {m m1 : Memory T} {fp : List Nat} (h : Frame m m1 fp) {x : Nat}
    (hx : m1.node x = none) (hn : x ∉ fp) : m.node x = none := by
  by_contra hlive
  have := (h.2 x hlive hn).1
  rw [hx] at this
  exact hlive this.symm

/-- The second loop of `copy_reversed` on a well-formed list: it prepends the stack
contents bottom-first, or stops at a failed node creation with a well-formed list. -/
theorem pushAll_spec {alloc : Allocator T} (hA : AllocOK alloc) :
    ∀ (stack : List T) {m : Memory T} {self : Nat} {cells : List (Nat × T)},
      ListAt m self cells →
      ∃ m1 news, ListAt m1 self (news ++ cells) ∧ Frame m m1 [self] ∧
        (∀ x ∈ news.map Prod.fst, m.node x = none) ∧
        ((pushAll alloc m self stack = .ok m1 () ∧ news.map Prod.snd = stack.reverse) ∨
          pushAll alloc m self stack = .throw m1)
  | [], m, self, cells, hl =>
    ⟨m, [], by simpa using hl, Frame.refl m _, by simp, Or.inl ⟨rfl, rfl⟩⟩
  | top :: rest, m, self, cells, hl => by
    cases ha : alloc m with
    | none =>
      refine ⟨m, [], by simpa using hl, Frame.refl m _, by simp, Or.inr ?_⟩
      simp only [pushAll, PushFront_throw self top ha]
    | some a =>
      obtain ⟨m1, hp, hl1, hf1, hfree⟩ := PushFront_ok hA top hl ha
      obtain ⟨m2, news, hl2, hf2, hfresh, hres⟩ := pushAll_spec hA rest hl1
      refine ⟨m2, news ++ [(a, top)], by simpa using hl2,
        Frame.trans hf1 hf2 (fun x hx => Or.inl hx), ?_, ?_⟩
      · intro x hx
        simp only [List.map_append, List.map_cons, List.map_nil, List.mem_append,
          List.mem_singleton] at hx
        rcases hx with hx | hx
        · have hxs : x ∉ [self] := by
            intro hmem
            simp only [List.mem_singleton] at hmem
            subst hmem
            have := (hl1.live x (by simp [footprint])).2.2
            exact this (hfresh x hx)
          exact hf1.free_before (hfresh x hx) hxs
        · subst hx; exact hfree
      · rcases hres with ⟨hr, hv⟩ | hr
        · left
          refine ⟨by simp only [pushAll, hp, hr], ?_⟩
          simp [hv]
        · right
          simp only [pushAll, hp, hr]

/-- The private member `copy_reversed` on a well-formed list: it prepends the container's
values in the container's order, or stops at a failed node creation. -/
theorem copy_reversed_spec {alloc : Allocator T} (hA : AllocOK alloc) (container : List T)
    {m : Memory T} {self : Nat} {cells : List (Nat × T)} (hl : ListAt m self cells) :
    ∃ m1 news, ListAt m1 self (news ++ cells) ∧ Frame m m1 [self] ∧
      (∀ x ∈ news.map Prod.fst, m.node x = none) ∧
      ((copy_reversed alloc m self container = .ok m1 () ∧ news.map Prod.snd = container) ∨
        copy_reversed alloc m self container = .throw m1) := by
  obtain ⟨m1, news, h1, h2, h3, h4⟩ := pushAll_spec hA (fillStack container) hl
  refine ⟨m1, news, h1, h2, h3, ?_⟩
  rw [fillStack_eq_reverse, List.reverse_reverse] at h4
  rw [copy_reversed, fillStack_eq_reverse]
  exact h4

end SwapAndCopy

section Constructors

variable {T : Type}

theorem Frame.weaken {m m1 : Memory T} {fp fp1 : List Nat} (h : Frame m m1 fp)
    (hsub : ∀ x ∈ fp, x ∈ fp1 ∨ m.node x = none) : Frame m m1 fp1 :=
  ⟨h.1, fun x hx hn => h.2 x hx (fun hmem => by
    rcases hsub x hmem with hh | hh
    · exact hn hh
    · exact hx hh)⟩

theorem Frame.release {m m1 : Memory T} {fp : List Nat} (h : Frame m m1 fp) {p : Nat}
    (hp : p ∈ fp ∨ m.node p = none) : Frame m (m1.release p) fp := by
  refine ⟨by simp [h.1], fun x hx hn => ?_⟩
  have hxp : x ≠ p := by
    intro e
    subst e
    rcases hp with hp | hp
    · exact hn hp
    · exact hx hp
  have := h.2 x hx hn
  exact ⟨by rw [release_node_ne _ hxp]; exact this.1, by simpa using this.2⟩

/-- The constructor from an initializer list, run on free storage: either it returns
with a well-formed list holding the values in order, built from storage that was free,
or it throws; in both cases no live object is touched. -/
theorem ctor_init_spec [Inhabited T] {alloc : Allocator T} (hA : AllocOK alloc)
    (values : List T) {m : Memory T} {self : Nat} (h0 : self ≠ nullptr) (hc : self < m.cap)
    (hfree : m.node self = none) :
    (∃ m1 news, ctor_init alloc m self values = .ok m1 () ∧ ListAt m1 self news ∧
        news.map Prod.snd = values ∧ Frame m m1 [] ∧
        ∀ x ∈ footprint self news, m.node x = none) ∨
      (∃ m1, ctor_init alloc m self values = .throw m1 ∧ Frame m m1 []) := by
  have hl0 : ListAt (ctor m self) self [] := ListAt.ctor_list m h0 hc
  have f0 : Frame m (ctor m self) [self] := Frame.ctor_frame m self
  obtain ⟨m1, news, hl1, f1, hfresh, hres⟩ := copy_reversed_spec hA values hl0
  have f01 : Frame m m1 [self] := Frame.trans f0 f1 (fun x hx => Or.inl hx)
  have hdead : ∀ x ∈ [self], x ∈ ([] : List Nat) ∨ m.node x = none := by
    intro x hx
    simp only [List.mem_singleton] at hx
    subst hx
    exact Or.inr hfree
  rw [List.append_nil] at hl1
  rcases hres with ⟨hr, hv⟩ | hr
  · left
    refine ⟨m1, news, by simp only [ctor_init, hr], hl1, hv, f01.weaken hdead, ?_⟩
    intro x hx
    simp only [footprint, List.mem_cons] at hx
    rcases hx with hx | hx
    · subst hx; exact hfree
    · by_cases hxs : x = self
      · subst hxs; exact hfree
      · exact f0.free_before (hfresh x hx) (by simpa using hxs)
  · right
    refine ⟨m1.release self, by simp only [ctor_init, hr], ?_⟩
    exact (f01.release (Or.inl (by simp))).weaken hdead

/-- The copy constructor, run on free storage with a well-formed source: either it
returns with a well-formed list holding the source's values in order, built from storage
that was free, or it throws; in both cases no live object is touched. -/
theorem ctor_copy_spec [Inhabited T] {alloc : Allocator T} (hA : AllocOK alloc)
    {m : Memory T} {self other tmp : Nat} {cells : List (Nat × T)}
    (ho : ListAt m other cells)
    (hs0 : self ≠ nullptr) (hsc : self < m.cap) (hsf : m.node self = none)
    (ht0 : tmp ≠ nullptr) (htc : tmp < m.cap) (htf : m.node tmp = none) (hst : self ≠ tmp) :
    (∃ m1 news, ctor_copy alloc m self other tmp = .ok m1 () ∧ ListAt m1 self news ∧
        news.map Prod.snd = cells.map Prod.snd ∧ Frame m m1 [] ∧
        (∀ x ∈ footprint self news, m.node x = none) ∧ m1.node tmp = none) ∨
      (∃ m1, ctor_copy alloc m self other tmp = .throw m1 ∧ Frame m m1 []) := by
  have hl0 : ListAt (ctor m self) self [] := ListAt.ctor_list m hs0 hsc
  have f0 : Frame m (ctor m self) [self] := Frame.ctor_frame m self
  have hl1t : ListAt (ctor (ctor m self) tmp) tmp [] := ListAt.ctor_list _ ht0 htc
  have f1 : Frame (ctor m self) (ctor (ctor m self) tmp) [tmp] := Frame.ctor_frame _ tmp
  have f01 : Frame m (ctor (ctor m self) tmp) [self, tmp] :=
    Frame.trans (f0.weaken (fun x hx => Or.inl (by simp at hx; simp [hx]))) f1
      (fun x hx => Or.inl (by simp at hx; simp [hx]))
  have hdead : ∀ x ∈ [self, tmp], x ∈ ([] : List Nat) ∨ m.node x = none := by
    intro x hx
    simp only [List.mem_cons, List.mem_singleton, List.not_mem_nil, or_false] at hx
    rcases hx with hx | hx
    · subst hx; exact Or.inr hsf
    · subst hx; exact Or.inr htf
  have hout : ∀ x, m.node x ≠ none → x ∉ [self, tmp] := by
    intro x hx hmem
    rcases hdead x hmem with hh | hh
    · simp at hh
    · exact hx hh
  have ho1 : ListAt (ctor (ctor m self) tmp) other cells :=
    ho.preserved f01 (fun x hx => hout x (ho.live x hx).2.2)
  have hl1s : ListAt (ctor (ctor m self) tmp) self [] :=
    hl0.preserved f1 (fun x hx => by
      simp only [footprint, List.map_nil, List.mem_singleton] at hx
      subst hx
      simpa using hst)
  obtain ⟨m2, news, hl2, f2, hfresh, hres⟩ := copy_reversed_spec hA (cells.map Prod.snd) hl1t
  rw [List.append_nil] at hl2
  have f02 : Frame m m2 [self, tmp] := Frame.trans f01 f2 (fun x hx => Or.inl (by
    simp at hx; simp [hx]))
  have hfresh_m : ∀ x ∈ news.map Prod.fst, m.node x = none := by
    intro x hx
    by_cases hmem : x ∈ [self, tmp]
    · rcases hdead x hmem with hh | hh
      · simp at hh
      · exact hh
    · exact f01.free_before (hfresh x hx) hmem
  have hload : (ctor m self).load self = some ⟨default, nullptr⟩ := by
    rw [load_of_ne _ hs0]
    simp [SingleLinkedList.ctor]
  have hsize : (ctor m self).size_ self = 0 := by
    simp [SingleLinkedList.ctor]
  have hhead : ctor_copy alloc m self other tmp =
      match copy_reversed alloc (ctor (ctor m self) tmp) tmp (cells.map Prod.snd) with
      | .ub => .ub
      | .throw m2 =>
        match dtor m2 tmp with
        | none => .ub
        | some m3 => .throw (m3.release self)
      | .ok m2 _ =>
        match swap m2 self tmp with
        | none => .ub
        | some m3 =>
          match dtor m3 tmp with
          | none => .ub
          | some m4 => .ok m4 () := by
    simp only [ctor_copy, hload, hsize, and_self, if_true, ho1.toSeq]
  rcases hres with ⟨hr, hv⟩ | hr
  · left
    have hl2s : ListAt m2 self [] :=
      hl1s.preserved f2 (fun x hx => by
        simp only [footprint, List.map_nil, List.mem_singleton] at hx
        subst hx
        simpa using hst)
    have hself_news : self ∉ news.map Prod.fst := fun hmem =>
      (hl1s.live self (by simp [footprint])).2.2 (hfresh self hmem)
    obtain ⟨m3, hsw, hl3s, hl3t, f3⟩ := swap_ok hl2s hl2 (Or.inr ⟨by
      simp only [footprint, List.mem_cons, not_or]
      exact ⟨hst, hself_news⟩, by
      simp only [footprint, List.map_nil, List.mem_singleton]
      exact fun e => hst e.symm⟩)
    obtain ⟨m4, hdt, f4, hgone⟩ := dtor_ok hl3t
    have htn : tmp ∉ news.map Prod.fst := hl2.2.2.1
    have hl4 : ListAt m4 self news :=
      hl3s.preserved f4 (fun x hx => by
        simp only [footprint, List.map_nil, List.mem_singleton]
        simp only [footprint, List.mem_cons] at hx
        rcases hx with hx | hx
        · subst hx; exact hst
        · exact fun e => htn (e ▸ hx))
    have f04 : Frame m m4 [self, tmp] :=
      Frame.trans (Frame.trans f02 f3 (fun x hx => Or.inl hx)) f4
        (fun x hx => Or.inl (by
          simp only [footprint, List.map_nil, List.mem_singleton] at hx
          simp [hx]))
    refine ⟨m4, news, ?_, hl4, hv, f04.weaken hdead, ?_, hgone tmp (by simp [footprint])⟩
    · rw [hhead]
      simp only [hr, hsw, hdt]
    · intro x hx
      simp only [footprint, List.mem_cons] at hx
      rcases hx with hx | hx
      · subst hx; exact hsf
      · exact hfresh_m x hx
  · right
    obtain ⟨m3, hdt, f3, _⟩ := dtor_ok hl2
    have f03 : Frame m m3 [self, tmp] :=
      Frame.trans f02 f3 (fun x hx => by
        simp only [footprint, List.mem_cons] at hx
        rcases hx with hx | hx
        · exact Or.inl (by simp [hx])
        · exact Or.inr (hfresh_m x hx))
    refine ⟨m3.release self, ?_, (f03.release (Or.inl (by simp))).weaken hdead⟩
    rw [hhead]
    simp only [hr, hdt]

end Constructors

section Assignment

variable {T : Type}

/-- The copy assignment between two distinct, disjoint well-formed lists: either the
target ends up with the values of the right-hand side in nodes built from storage that
was free, and only the target's old footprint is touched; or it throws and no live
object is touched. -/
theorem assign_spec [Inhabited T] {alloc : Allocator T} (hA : AllocOK alloc)
    {m : Memory T} {self rhs tmp tmp2 : Nat} {ca cb : List (Nat × T)}
    (hs : ListAt m self ca) (hr : ListAt m rhs cb) (hne : self ≠ rhs)
    (hdis : ∀ x ∈ footprint self ca, x ∉ footprint rhs cb)
    (ht0 : tmp ≠ nullptr) (htc : tmp < m.cap) (htf : m.node tmp = none)
    (hu0 : tmp2 ≠ nullptr) (huc : tmp2 < m.cap) (huf : m.node tmp2 = none)
    (htu : tmp ≠ tmp2) :
    (∃ m1 news, assign alloc m self rhs tmp tmp2 = .ok m1 () ∧ ListAt m1 self news ∧
        news.map Prod.snd = cb.map Prod.snd ∧ Frame m m1 (footprint self ca) ∧
        (∀ x ∈ news.map Prod.fst, m.node x = none)) ∨
      (∃ m1, assign alloc m self rhs tmp tmp2 = .throw m1 ∧ Frame m m1 []) := by
  rcases ctor_copy_spec hA hr ht0 htc htf hu0 huc huf htu with
    ⟨m1, news, hcc, hl1t, hv, f1, hfresh, _⟩ | ⟨m1, hcc, f1⟩
  · left
    have hl1s : ListAt m1 self ca := hs.preserved f1 (fun x _ => by simp)
    have hlive_s := hs.live
    have hself_t : self ∉ footprint tmp news := fun hmem =>
      (hlive_s self (by simp [footprint])).2.2 (hfresh self hmem)
    have htmp_s : tmp ∉ footprint self ca := fun hmem =>
      (hlive_s tmp hmem).2.2 htf
    obtain ⟨m2, hsw, hl2s, hl2t, f2⟩ := swap_ok hl1s hl1t (Or.inr ⟨hself_t, htmp_s⟩)
    obtain ⟨m3, hdt, f3, _⟩ := dtor_ok hl2t
    have hl3 : ListAt m3 self news :=
      hl2s.preserved f3 (fun x hx hmem => by
        simp only [footprint, List.mem_cons] at hx hmem
        rcases hx with hx | hx
        · subst hx
          rcases hmem with hmem | hmem
          · exact hself_t (by simp [footprint, hmem])
          · exact hs.2.2.1 hmem
        · have hxd : m.node x = none := hfresh x (by simp [footprint, hx])
          rcases hmem with hmem | hmem
          · subst hmem
            exact hl1t.2.2.1 hx
          · exact (hlive_s x (by simp [footprint, hmem])).2.2 hxd)
    have f03 : Frame m m3 (footprint self ca) := by
      have f02 : Frame m m2 (footprint self ca) :=
        Frame.trans (f1.weaken (fun x hx => by simp at hx)) f2 (fun x hx => by
          simp only [List.mem_cons, List.mem_singleton, List.not_mem_nil, or_false] at hx
          rcases hx with hx | hx
          · subst hx; exact Or.inl (by simp [footprint])
          · subst hx; exact Or.inr htf)
      refine Frame.trans f02 f3 (fun x hx => ?_)
      simp only [footprint, List.mem_cons] at hx
      rcases hx with hx | hx
      · subst hx; exact Or.inr htf
      · exact Or.inl (by simp [footprint, hx])
    refine ⟨m3, news, ?_, hl3, hv, f03, fun x hx => hfresh x (by simp [footprint, hx])⟩
    simp only [assign, ne_eq, hne, not_false_eq_true, if_true, hcc, hsw, hdt]
  · right
    refine ⟨m1, ?_, f1⟩
    simp only [assign, ne_eq, hne, not_false_eq_true, if_true, hcc]

/-- Self-assignment returns at once. -/
theorem assign_self [Inhabited T] (alloc : Allocator T) (m : Memory T) (self tmp tmp2 : Nat) :
    assign alloc m self self tmp tmp2 = .ok m () := by
  simp [assign]

end Assignment

/-! ## Positions -/

section Positions

variable {T : Type}

/-- Incrementing along a chain: a non-null iterator reached after `k` increments
references the `k`-th cell. -/
theorem Seg.advance_index {m : Memory T} :
    ∀ {k : Nat} {cells : List (Nat × T)} {p : Nat} {pos : BasicIterator},
      Seg m p cells → advance m k ⟨p⟩ = some pos → pos.node_ ≠ nullptr →
      (cells.map Prod.fst)[k]? = some pos.node_
  | 0, [], p, pos, hs, ha, hn => by
    have hp : p = nullptr := hs
    simp only [advance, Option.some.injEq] at ha
    subst ha
    exact absurd hp hn
  | 0, c :: rest, p, pos, hs, ha, _ => by
    simp only [advance, Option.some.injEq] at ha
    subst ha
    simp [hs.1]
  | k + 1, [], p, pos, hs, ha, _ => by
    have hp : p = nullptr := hs
    subst hp
    simp [advance, BasicIterator.preInc] at ha
  | k + 1, c :: rest, p, pos, hs, ha, hn => by
    obtain ⟨h1, h2, _, nx, h4, hs1⟩ := hs
    subst h1
    simp only [advance, BasicIterator.preInc, load_of_ne _ h2, h4] at ha
    simpa using Seg.advance_index hs1 ha hn

/-- Incrementing along a chain reaches every cell. -/
theorem Seg.advance_to {m : Memory T} :
    ∀ {k : Nat} {cells : List (Nat × T)} {p q : Nat},
      Seg m p cells → (cells.map Prod.fst)[k]? = some q → advance m k ⟨p⟩ = some ⟨q⟩
  | _, [], _, _, _, hk => by simp at hk
  | 0, c :: rest, p, q, hs, hk => by
    have : c.1 = q := by simpa using hk
    simp [advance, hs.1, this]
  | k + 1, c :: rest, p, q, hs, hk => by
    obtain ⟨h1, h2, _, nx, h4, hs1⟩ := hs
    subst h1
    have hk1 : (rest.map Prod.fst)[k]? = some q := by simpa using hk
    simp only [advance, BasicIterator.preInc, load_of_ne _ h2, h4]
    exact Seg.advance_to hs1 hk1

/-- Incrementing past the last cell of a chain gives `end()`. -/
theorem Seg.advance_end {m : Memory T} :
    ∀ {cells : List (Nat × T)} {p : Nat},
      Seg m p cells → advance m cells.length ⟨p⟩ = some end_
  | [], p, hs => by
    have hp : p = nullptr := hs
    subst hp
    rfl
  | c :: rest, p, hs => by
    obtain ⟨h1, h2, _, nx, h4, hs1⟩ := hs
    subst h1
    simp only [List.length_cons, advance, BasicIterator.preInc, load_of_ne _ h2, h4]
    exact Seg.advance_end hs1

theorem ListAt.validPos_index {m : Memory T} {self : Nat} {cells : List (Nat × T)}
    (hl : ListAt m self cells) {pos : BasicIterator} (hp : ValidPos m self pos) :
    ∃ k, (footprint self cells)[k]? = some pos.node_ ∧ k ≤ cells.length := by
  obtain ⟨k, hk, hn⟩ := hp
  obtain ⟨hv, hseg⟩ := hl.seg
  have h := Seg.advance_index hseg hk hn
  have hfp : footprint self cells = ((self, hv) :: cells).map Prod.fst := by simp [footprint]
  rw [← hfp] at h
  refine ⟨k, h, ?_⟩
  obtain ⟨hlt, _⟩ := List.getElem?_eq_some.1 h
  simp [footprint] at hlt
  omega

theorem ListAt.validPos_of_index {m : Memory T} {self k q : Nat} {cells : List (Nat × T)}
    (hl : ListAt m self cells) (hk : (footprint self cells)[k]? = some q) :
    advance m k (before_begin self) = some ⟨q⟩ ∧ q ≠ nullptr := by
  obtain ⟨hv, hseg⟩ := hl.seg
  have hfp : footprint self cells = ((self, hv) :: cells).map Prod.fst := by simp [footprint]
  rw [hfp] at hk
  refine ⟨Seg.advance_to hseg hk, ?_⟩
  exact (Seg.addr_pos hseg q (List.getElem?_mem hk)).1

end Positions

/-! ## The invariant of reachable program states -/

section WorldInvariant

variable {T : Type}

theorem firstFit_ok : AllocOK (firstFit : Allocator T) := by
  intro m a h
  have hp := List.find?_some h
  have hm := List.mem_of_find?_eq_some h
  simp only [Bool.and_eq_true, decide_eq_true_eq, Option.isNone_iff_eq_none] at hp
  exact ⟨hp.1, List.mem_range.1 hm, hp.2⟩

/-- An operation on one live list that keeps it well formed, touches only its old
footprint and builds only from free storage, keeps the program state well formed. -/
theorem WorldOK.modify {w : World T} {fp : Nat → List (Nat × T)} (hnd : w.lists.Nodup)
    (hall : ∀ l ∈ w.lists, ListAt w.mem l (fp l))
    (hdis : ∀ l1 ∈ w.lists, ∀ l2 ∈ w.lists, l1 ≠ l2 →
      ∀ x ∈ footprint l1 (fp l1), x ∉ footprint l2 (fp l2))
    {self : Nat} (hs : self ∈ w.lists) {m1 : Memory T} {cells1 : List (Nat × T)}
    (hl1 : ListAt m1 self cells1) (hf : Frame w.mem m1 (footprint self (fp self)))
    (hnew : ∀ x ∈ footprint self cells1, x ∈ footprint self (fp self) ∨ w.mem.node x = none) :
    WorldOK ⟨m1, w.lists⟩ := by
  refine ⟨Function.update fp self cells1, hnd, ?_, ?_⟩
  · intro l hl
    by_cases hls : l = self
    · subst hls
      simpa using hl1
    · rw [Function.update_noteq hls]
      exact (hall l hl).preserved hf (hdis l hl self hs hls)
  · intro l1 h1 l2 h2 hne x hx
    by_cases e1 : l1 = self
    · subst e1
      have e2 : l2 ≠ l1 := fun e => hne e.symm
      rw [Function.update_same] at hx
      rw [Function.update_noteq e2]
      rcases hnew x hx with hh | hh
      · exact hdis l1 h1 l2 h2 hne x hh
      · exact fun hmem => ((hall l2 h2).live x hmem).2.2 hh
    · rw [Function.update_noteq e1] at hx
      by_cases e2 : l2 = self
      · subst e2
        rw [Function.update_same]
        intro hmem
        rcases hnew x hmem with hh | hh
        · exact hdis l1 h1 l2 h2 hne x hx hh
        · exact ((hall l1 h1).live x hx).2.2 hh
      · rw [Function.update_noteq e2]
        exact hdis l1 h1 l2 h2 hne x hx

/-- A step that touches no live object keeps the program state well formed. -/
theorem WorldOK.untouched {w : World T} (h : WorldOK w) {m1 : Memory T}
    (hf : Frame w.mem m1 []) : WorldOK ⟨m1, w.lists⟩ := by
  obtain ⟨fp, hnd, hall, hdis⟩ := h
  exact ⟨fp, hnd, fun l hl => (hall l hl).preserved hf (fun _ _ => by simp), hdis⟩

/-- A new well-formed list built from free storage, without touching a live object, can
join the program state. -/
theorem WorldOK.add {w : World T} (h : WorldOK w) {self : Nat} {m1 : Memory T}
    {news : List (Nat × T)} (hl1 : ListAt m1 self news) (hf : Frame w.mem m1 [])
    (hfresh : ∀ x ∈ footprint self news, w.mem.node x = none) :
    WorldOK ⟨m1, self :: w.lists⟩ := by
  obtain ⟨fp, hnd, hall, hdis⟩ := h
  have hself : self ∉ w.lists := fun hmem =>
    ((hall self hmem).live self (by simp [footprint])).2.2 (hfresh self (by simp [footprint]))
  refine ⟨Function.update fp self news, List.nodup_cons.2 ⟨hself, hnd⟩, ?_, ?_⟩
  · intro l hl
    simp only [List.mem_cons] at hl
    by_cases hls : l = self
    · subst hls
      simpa using hl1
    · rw [Function.update_noteq hls]
      rcases hl with hl | hl
      · exact absurd hl hls
      · exact (hall l hl).preserved hf (fun _ _ => by simp)
  · intro l1 h1 l2 h2 hne x hx
    simp only [List.mem_cons] at h1 h2
    by_cases e1 : l1 = self
    · subst e1
      have e2 : l2 ≠ l1 := fun e => hne e.symm
      rw [Function.update_same] at hx
      rw [Function.update_noteq e2]
      rcases h2 with h2 | h2
      · exact absurd h2 e2
      · exact fun hmem => ((hall l2 h2).live x hmem).2.2 (hfresh x hx)
    · rw [Function.update_noteq e1] at hx
      rcases h1 with h1 | h1
      · exact absurd h1 e1
      · by_cases e2 : l2 = self
        · subst e2
          rw [Function.update_same]
          exact fun hmem => ((hall l1 h1).live x hx).2.2 (hfresh x hmem)
        · rw [Function.update_noteq e2]
          rcases h2 with h2 | h2
          · exact absurd h2 e2
          · exact hdis l1 h1 l2 h2 hne x hx

/-- Destroying a live list keeps the rest of the program state well formed. -/
theorem WorldOK.remove {w : World T} {fp : Nat → List (Nat × T)} (hnd : w.lists.Nodup)
    (hall : ∀ l ∈ w.lists, ListAt w.mem l (fp l))
    (hdis : ∀ l1 ∈ w.lists, ∀ l2 ∈ w.lists, l1 ≠ l2 →
      ∀ x ∈ footprint l1 (fp l1), x ∉ footprint l2 (fp l2))
    {self : Nat} (hs : self ∈ w.lists) {m1 : Memory T}
    (hf : Frame w.mem m1 (footprint self (fp self))) :
    WorldOK ⟨m1, w.lists.erase self⟩ := by
  refine ⟨fp, hnd.erase self, ?_, ?_⟩
  · intro l hl
    have hl' := (List.Nodup.mem_erase_iff hnd).1 hl
    exact (hall l hl'.2).preserved hf (hdis l hl'.2 self hs hl'.1)
  · intro l1 h1 l2 h2 hne
    exact hdis l1 ((List.Nodup.mem_erase_iff hnd).1 h1).2 l2
      ((List.Nodup.mem_erase_iff hnd).1 h2).2 hne

/-- Swapping two distinct live lists keeps the program state well formed. -/
theorem WorldOK.swap {w : World T} {fp : Nat → List (Nat × T)} (hnd : w.lists.Nodup)
    (hall : ∀ l ∈ w.lists, ListAt w.mem l (fp l))
    (hdis : ∀ l1 ∈ w.lists, ∀ l2 ∈ w.lists, l1 ≠ l2 →
      ∀ x ∈ footprint l1 (fp l1), x ∉ footprint l2 (fp l2))
    {a b : Nat} (ha : a ∈ w.lists) (hb : b ∈ w.lists) (hab : a ≠ b) {m1 : Memory T}
    (hla : ListAt m1 a (fp b)) (hlb : ListAt m1 b (fp a)) (hf : Frame w.mem m1 [a, b]) :
    WorldOK ⟨m1, w.lists⟩ := by
  have hba : b ≠ a := fun e => hab e.symm
  have key : ∀ l, Function.update (Function.update fp a (fp b)) b (fp a) l =
      if l = b then fp a else if l = a then fp b else fp l := by
    intro l
    by_cases e1 : l = b
    · subst e1; simp
    · by_cases e2 : l = a
      · subst e2; simp [Function.update_noteq e1, e1]
      · simp [Function.update_noteq e1, Function.update_noteq e2, e1, e2]
  have hna : a ∉ (fp a).map Prod.fst := (hall a ha).2.2.1
  have hnb : b ∉ (fp b).map Prod.fst := (hall b hb).2.2.1
  refine ⟨Function.update (Function.update fp a (fp b)) b (fp a), hnd, ?_, ?_⟩
  · intro l hl
    rw [key]
    by_cases e1 : l = b
    · subst e1; simpa using hlb
    · by_cases e2 : l = a
      · subst e2; simpa [e1] using hla
      · simp only [e1, e2, if_false]
        refine (hall l hl).preserved hf (fun x hx => ?_)
        have h1 := hdis l hl a ha e2 x hx
        have h2 := hdis l hl b hb e1 x hx
        simp only [footprint, List.mem_cons, not_or] at h1 h2
        simp only [List.mem_cons, List.mem_singleton, List.not_mem_nil, or_false, not_or]
        exact ⟨h1.1, h2.1⟩
  · intro l1 h1 l2 h2 hne x hx
    rw [key] at hx ⊢
    have dab := hdis a ha b hb hab
    have dba := hdis b hb a ha hba
    by_cases e1 : l1 = b
    · subst e1
      simp only [if_true] at hx
      by_cases e2 : l2 = a
      · subst e2
        simp only [hab, if_false, if_true]
        simp only [footprint, List.mem_cons] at hx ⊢
        have hxa := dab x
        have hxb := dba x
        simp only [footprint, List.mem_cons] at hxa hxb
        rcases hx with hx | hx
        · subst hx
          intro hc
          rcases hc with hc | hc
          · exact hne hc
          · exact hnb hc
        · intro hc
          rcases hc with hc | hc
          · subst hc; exact hna hx
          · exact hxa (Or.inr hx) (Or.inr hc)
      · have e3 : l2 ≠ l1 := fun e => hne e.symm
        simp only [e3, e2, if_false]
        have d1 := hdis l1 h1 l2 h2 hne x
        have d2 := hdis a ha l2 h2 (fun e => e2 e.symm) x
        simp only [footprint, List.mem_cons] at hx d1 d2 ⊢
        rcases hx with hx | hx
        · exact d1 (Or.inl hx)
        · exact d2 (Or.inr hx)
    · by_cases e1a : l1 = a
      · subst e1a
        simp only [hab, if_false, if_true] at hx
        by_cases e2 : l2 = b
        · subst e2
          simp only [if_true]
          have hxa := dab x
          have hxb := dba x
          simp only [footprint, List.mem_cons] at hx hxa hxb ⊢
          rcases hx with hx | hx
          · subst hx
            intro hc
            rcases hc with hc | hc
            · exact hne hc
            · exact hna hc
          · intro hc
            rcases hc with hc | hc
            · subst hc; exact hnb hx
            · exact hxb (Or.inr hx) (Or.inr hc)
        · have e3 : l2 ≠ l1 := fun e => hne e.symm
          simp only [e2, e3, if_false]
          have d1 := hdis l1 h1 l2 h2 hne x
          have d2 := hdis b hb l2 h2 (fun e => e2 e.symm) x
          simp only [footprint, List.mem_cons] at hx d1 d2 ⊢
          rcases hx with hx | hx
          · exact d1 (Or.inl hx)
          · exact d2 (Or.inr hx)
      · simp only [e1, e1a, if_false] at hx
        have d0 := hdis l1 h1 l2 h2 hne x hx
        have da := hdis l1 h1 a ha e1a x hx
        have db := hdis l1 h1 b hb e1 x hx
        by_cases e2 : l2 = b
        · subst e2
          simp only [if_true]
          simp only [footprint, List.mem_cons, not_or] at d0 da db ⊢
          exact ⟨d0.1, da.2⟩
        · by_cases e2a : l2 = a
          · subst e2a
            simp only [e2, if_false, if_true]
            simp only [footprint, List.mem_cons, not_or] at d0 da db ⊢
            exact ⟨d0.1, db.2⟩
          · simp only [e2, e2a, if_false]
            exact d0

end WorldInvariant

section StepInvariant

variable {T : Type}

theorem mem_insert_cells {cells : List (Nat × T)} {k x : Nat} {c : Nat × T}
    (h : x ∈ (cells.take k ++ c :: cells.drop k).map Prod.fst) :
    x = c.1 ∨ x ∈ cells.map Prod.fst := by
  simp only [List.map_append, List.map_cons, List.mem_append, List.mem_cons] at h
  rcases h with h | h | h
  · right
    obtain ⟨d, hd, hdx⟩ := List.mem_map.1 h
    exact List.mem_map.2 ⟨d, List.mem_of_mem_take hd, hdx⟩
  · exact Or.inl h
  · right
    obtain ⟨d, hd, hdx⟩ := List.mem_map.1 h
    exact List.mem_map.2 ⟨d, List.mem_of_mem_drop hd, hdx⟩

theorem mem_erase_cells {cells : List (Nat × T)} {k x : Nat}
    (h : x ∈ (cells.eraseIdx k).map Prod.fst) : x ∈ cells.map Prod.fst := by
  obtain ⟨d, hd, hdx⟩ := List.mem_map.1 h
  exact List.mem_map.2 ⟨d, (List.eraseIdx_sublist cells k).subset hd, hdx⟩

/-- Every public operation keeps the program state well formed, whether it returns or
throws. -/
theorem Step.preserves [Inhabited T] {alloc : Allocator T} (hA : AllocOK alloc)
    {w w1 : World T} (hw : WorldOK w) (hstep : Step alloc w w1) : WorldOK w1 := by
  cases hstep with
  | ctor self hfree =>
    obtain ⟨h0, hc, hn⟩ := hfree
    refine hw.add (ListAt.ctor_list w.mem h0 hc) ((Frame.ctor_frame w.mem self).weaken ?_) ?_
    · intro x hx
      simp only [List.mem_singleton] at hx
      subst hx
      exact Or.inr hn
    · intro x hx
      simp only [footprint, List.map_nil, List.mem_singleton] at hx
      subst hx
      exact hn
  | ctor_init_ok self values m1 hfree hrun =>
    obtain ⟨h0, hc, hn⟩ := hfree
    rcases ctor_init_spec hA values h0 hc hn with ⟨m2, news, hr, hl, _, hf, hfresh⟩ | ⟨m2, hr, _⟩
    · rw [hrun] at hr
      injection hr with hm
      subst hm
      exact hw.add hl hf hfresh
    · rw [hrun] at hr
      cases hr
  | ctor_init_throw self values m1 hfree hrun =>
    obtain ⟨h0, hc, hn⟩ := hfree
    rcases ctor_init_spec hA values h0 hc hn with ⟨m2, news, hr, _⟩ | ⟨m2, hr, hf⟩
    · rw [hrun] at hr
      cases hr
    · rw [hrun] at hr
      injection hr with hm
      subst hm
      exact hw.untouched hf
  | ctor_copy_ok self other tmp m1 ho hfs hft hst hrun =>
    obtain ⟨fp, hnd, hall, hdis⟩ := hw
    rcases ctor_copy_spec hA (hall other ho) hfs.1 hfs.2.1 hfs.2.2 hft.1 hft.2.1 hft.2.2 hst
      with ⟨m2, news, hr, hl, _, hf, hfresh, _⟩ | ⟨m2, hr, _⟩
    · rw [hrun] at hr
      injection hr with hm
      subst hm
      exact WorldOK.add ⟨fp, hnd, hall, hdis⟩ hl hf hfresh
    · rw [hrun] at hr
      cases hr
  | ctor_copy_throw self other tmp m1 ho hfs hft hst hrun =>
    obtain ⟨fp, hnd, hall, hdis⟩ := hw
    rcases ctor_copy_spec hA (hall other ho) hfs.1 hfs.2.1 hfs.2.2 hft.1 hft.2.1 hft.2.2 hst
      with ⟨m2, news, hr, _⟩ | ⟨m2, hr, hf⟩
    · rw [hrun] at hr
      cases hr
    · rw [hrun] at hr
      injection hr with hm
      subst hm
      exact WorldOK.untouched ⟨fp, hnd, hall, hdis⟩ hf
  | assign_ok self rhs tmp tmp2 m1 hs hr hft hfu htu hrun =>
    by_cases hne : self = rhs
    · subst hne
      rw [assign_self] at hrun
      injection hrun with hm
      subst hm
      exact hw
    · obtain ⟨fp, hnd, hall, hdis⟩ := hw
      rcases assign_spec hA (hall self hs) (hall rhs hr) hne (hdis self hs rhs hr hne)
        hft.1 hft.2.1 hft.2.2 hfu.1 hfu.2.1 hfu.2.2 htu
        with ⟨m2, news, hrn, hl, _, hf, hfresh⟩ | ⟨m2, hrn, _⟩
      · rw [hrun] at hrn
        injection hrn with hm
        subst hm
        refine WorldOK.modify hnd hall hdis hs hl hf (fun x hx => ?_)
        simp only [footprint, List.mem_cons] at hx ⊢
        rcases hx with hx | hx
        · exact Or.inl (Or.inl hx)
        · exact Or.inr (hfresh x hx)
      · rw [hrun] at hrn
        cases hrn
  | assign_throw self rhs tmp tmp2 m1 hs hr hft hfu htu hrun =>
    by_cases hne : self = rhs
    · subst hne
      rw [assign_self] at hrun
      cases hrun
    · obtain ⟨fp, hnd, hall, hdis⟩ := hw
      rcases assign_spec hA (hall self hs) (hall rhs hr) hne (hdis self hs rhs hr hne)
        hft.1 hft.2.1 hft.2.2 hfu.1 hfu.2.1 hfu.2.2 htu
        with ⟨m2, news, hrn, _⟩ | ⟨m2, hrn, hf⟩
      · rw [hrun] at hrn
        cases hrn
      · rw [hrun] at hrn
        injection hrn with hm
        subst hm
        exact WorldOK.untouched ⟨fp, hnd, hall, hdis⟩ hf
  | pushFront_ok self value m1 hs hrun =>
    obtain ⟨fp, hnd, hall, hdis⟩ := hw
    cases ha : alloc w.mem with
    | none =>
      rw [PushFront_throw self value ha] at hrun
      cases hrun
    | some a =>
      obtain ⟨m2, hr, hl, hf, hfree⟩ := PushFront_ok hA value (hall self hs) ha
      rw [hrun] at hr
      injection hr with hm
      subst hm
      refine WorldOK.modify hnd hall hdis hs hl
        (hf.weaken (fun x hx => Or.inl (by
          simp only [List.mem_singleton] at hx
          simp [footprint, hx]))) (fun x hx => ?_)
      simp only [footprint, List.map_cons, List.mem_cons] at hx ⊢
      rcases hx with hx | hx | hx
      · exact Or.inl (Or.inl hx)
      · subst hx; exact Or.inr hfree
      · exact Or.inl (Or.inr hx)
  | pushFront_throw self value m1 hs hrun =>
    cases ha : alloc w.mem with
    | none =>
      rw [PushFront_throw self value ha] at hrun
      injection hrun with hm
      subst hm
      exact hw
    | some a =>
      obtain ⟨fp, hnd, hall, hdis⟩ := hw
      obtain ⟨m2, hr, _⟩ := PushFront_ok hA value (hall self hs) ha
      rw [hrun] at hr
      cases hr
  | popFront self m1 hs hrun =>
    obtain ⟨fp, hnd, hall, hdis⟩ := hw
    have hl := hall self hs
    cases hcells : fp self with
    | nil =>
      rw [hcells] at hl
      rw [PopFront_empty hl] at hrun
      injection hrun with hm
      subst hm
      exact ⟨fp, hnd, hall, hdis⟩
    | cons c rest =>
      rw [hcells] at hl
      obtain ⟨m2, it, hp, _, hl2, hf⟩ := PopFront_eq_EraseAfter hl
      rw [hrun] at hp
      injection hp with hm
      subst hm
      rw [← hcells] at hf
      refine WorldOK.modify hnd hall hdis hs hl2 hf (fun x hx => Or.inl ?_)
      rw [hcells]
      simp only [footprint, List.map_cons, List.mem_cons] at hx ⊢
      rcases hx with hx | hx
      · exact Or.inl hx
      · exact Or.inr (Or.inr hx)
  | insertAfter_ok self pos value m1 it hs hpos hrun =>
    obtain ⟨fp, hnd, hall, hdis⟩ := hw
    obtain ⟨k, hk, _⟩ := (hall self hs).validPos_index hpos
    cases ha : alloc w.mem with
    | none =>
      rw [InsertAfter_throw pos value ha] at hrun
      cases hrun
    | some a =>
      obtain ⟨m2, hr, hl, hf, hfree⟩ := InsertAfter_ok hA value (hall self hs) hk ha
      rw [hrun] at hr
      injection hr with hm _
      subst hm
      refine WorldOK.modify hnd hall hdis hs hl hf (fun x hx => ?_)
      simp only [footprint, List.mem_cons] at hx ⊢
      rcases hx with hx | hx
      · exact Or.inl (Or.inl hx)
      · rcases mem_insert_cells hx with h | h
        · exact Or.inr (by rw [h]; exact hfree)
        · exact Or.inl (Or.inr h)
  | insertAfter_throw self pos value m1 hs hpos hrun =>
    obtain ⟨fp, hnd, hall, hdis⟩ := hw
    obtain ⟨k, hk, _⟩ := (hall self hs).validPos_index hpos
    cases ha : alloc w.mem with
    | none =>
      rw [InsertAfter_throw pos value ha] at hrun
      injection hrun with hm
      subst hm
      exact ⟨fp, hnd, hall, hdis⟩
    | some a =>
      obtain ⟨m2, hr, _⟩ := InsertAfter_ok hA value (hall self hs) hk ha
      rw [hrun] at hr
      cases hr
  | eraseAfter self pos m1 it hs hpos hrun =>
    obtain ⟨fp, hnd, hall, hdis⟩ := hw
    obtain ⟨k, hk, hkle⟩ := (hall self hs).validPos_index hpos
    rcases Nat.lt_or_ge k (fp self).length with hlt | hge
    · obtain ⟨m2, hr, hl, hf⟩ := EraseAfter_ok (hall self hs) hk hlt
      rw [hrun] at hr
      injection hr with hr
      have hm : m1 = m2 := congrArg Prod.fst hr
      subst hm
      refine WorldOK.modify hnd hall hdis hs hl hf (fun x hx => Or.inl ?_)
      simp only [footprint, List.mem_cons] at hx ⊢
      rcases hx with hx | hx
      · exact Or.inl hx
      · exact Or.inr (mem_erase_cells hx)
    · have hr := EraseAfter_last (hall self hs) hk (by omega)
      rw [hrun] at hr
      injection hr with hr
      have hm : m1 = w.mem := congrArg Prod.fst hr
      subst hm
      exact ⟨fp, hnd, hall, hdis⟩
  | clear self m1 hs hrun =>
    obtain ⟨fp, hnd, hall, hdis⟩ := hw
    obtain ⟨m2, hr, hl, hf, _⟩ := Clear_ok (hall self hs)
    rw [hrun] at hr
    injection hr with hm
    subst hm
    refine WorldOK.modify hnd hall hdis hs hl hf (fun x hx => Or.inl ?_)
    simp only [footprint, List.map_nil, List.mem_singleton] at hx
    simp [footprint, hx]
  | swap self other m1 hs ho hrun =>
    obtain ⟨fp, hnd, hall, hdis⟩ := hw
    by_cases hso : self = other
    · subst hso
      obtain ⟨m2, hr, hl, _, hf⟩ := swap_ok (hall self hs) (hall self hs) (Or.inl rfl)
      rw [hrun] at hr
      injection hr with hm
      subst hm
      refine WorldOK.modify hnd hall hdis hs hl
        (hf.weaken (fun x hx => Or.inl (by
          simp only [List.mem_cons, List.mem_singleton, List.not_mem_nil, or_false,
            or_self] at hx
          simp [footprint, hx]))) (fun x hx => Or.inl hx)
    · have d1 := hdis self hs other ho hso self (by simp [footprint])
      have d2 := hdis other ho self hs (fun e => hso e.symm) other (by simp [footprint])
      obtain ⟨m2, hr, hla, hlb, hf⟩ :=
        swap_ok (hall self hs) (hall other ho) (Or.inr ⟨d1, d2⟩)
      rw [hrun] at hr
      injection hr with hm
      subst hm
      exact WorldOK.swap hnd hall hdis hs ho hso hla hlb hf
  | dtor self m1 hs hrun =>
    obtain ⟨fp, hnd, hall, hdis⟩ := hw
    obtain ⟨m2, hr, hf, _⟩ := dtor_ok (hall self hs)
    rw [hrun] at hr
    injection hr with hm
    subst hm
    exact WorldOK.remove hnd hall hdis hs hf

/-- Every reachable program state is well formed. -/
theorem Reachable.worldOK [Inhabited T] {alloc : Allocator T} (hA : AllocOK alloc)
    {w : World T} (hr : Reachable alloc w) : WorldOK w := by
  induction hr with
  | init m => exact ⟨fun _ => [], List.nodup_nil, fun l hl => by simp at hl,
      fun l1 h1 => by simp at h1⟩
  | step _ hstep ih => exact Step.preserves hA ih hstep

end StepInvariant

/-! ## Comparison loops -/

section Comparison

variable {T : Type}

theorem std_equal_seg [BEq T] {m : Memory T} :
    ∀ {ca cb : List (Nat × T)} {p q fuel : Nat}, Seg m p ca → Seg m q cb →
      ca.length ≤ fuel →
      std_equal m fuel ⟨p⟩ end_ ⟨q⟩ end_ =
        some (seqEqual (ca.map Prod.snd) (cb.map Prod.snd))
  | [], cb, p, q, fuel, ha, hb, _ => by
    have hp : p = nullptr := ha
    subst hp
    cases cb with
    | nil =>
      have hq : q = nullptr := hb
      subst hq
      cases fuel <;> simp [std_equal, BasicIterator.op_ne, BasicIterator.op_eq, end_, seqEqual]
    | cons d rest =>
      obtain ⟨h1, h2, _⟩ := hb
      subst h1
      cases fuel <;>
        simp [std_equal, BasicIterator.op_ne, BasicIterator.op_eq, end_, seqEqual, h2]
  | c :: ra, [], p, q, fuel, ha, hb, _ => by
    have hq : q = nullptr := hb
    subst hq
    obtain ⟨h1, h2, _⟩ := ha
    subst h1
    cases fuel <;>
      simp [std_equal, BasicIterator.op_ne, BasicIterator.op_eq, end_, seqEqual, h2]
  | c :: ra, d :: rb, p, q, 0, _, _, hl => by simp at hl
  | c :: ra, d :: rb, p, q, fuel + 1, ha, hb, hl => by
    obtain ⟨h1, h2, _, nx, h4, hsa⟩ := ha
    obtain ⟨g1, g2, _, ny, g4, hsb⟩ := hb
    subst h1
    subst g1
    have ih : std_equal m fuel ⟨nx⟩ end_ ⟨ny⟩ end_ =
        some (seqEqual (ra.map Prod.snd) (rb.map Prod.snd)) :=
      std_equal_seg hsa hsb (by simpa using hl)
    rw [end_] at ih
    by_cases hcd : (c.2 == d.2) = true
    · simp [std_equal, BasicIterator.op_ne, BasicIterator.op_eq, end_, seqEqual, h2, g2,
        BasicIterator.deref, BasicIterator.preInc, load_of_ne _ h2, load_of_ne _ g2, h4, g4,
        hcd, ih]
    · simp [std_equal, BasicIterator.op_ne, BasicIterator.op_eq, end_, seqEqual, h2, g2,
        BasicIterator.deref, load_of_ne _ h2, load_of_ne _ g2, h4, g4, hcd]

theorem std_lexicographical_compare_seg [LT T] [DecidableRel (fun a b : T => a < b)]
    {m : Memory T} :
    ∀ {ca cb : List (Nat × T)} {p q fuel : Nat}, Seg m p ca → Seg m q cb →
      ca.length ≤ fuel →
      std_lexicographical_compare m fuel ⟨p⟩ end_ ⟨q⟩ end_ =
        some (seqLess (ca.map Prod.snd) (cb.map Prod.snd))
  | [], cb, p, q, fuel, ha, hb, _ => by
    have hp : p = nullptr := ha
    subst hp
    cases cb with
    | nil =>
      have hq : q = nullptr := hb
      subst hq
      cases fuel <;>
        simp [std_lexicographical_compare, BasicIterator.op_ne, BasicIterator.op_eq, end_,
          seqLess]
    | cons d rest =>
      obtain ⟨h1, h2, _⟩ := hb
      subst h1
      cases fuel <;>
        simp [std_lexicographical_compare, BasicIterator.op_ne, BasicIterator.op_eq, end_,
          seqLess, h2]
  | c :: ra, [], p, q, fuel, ha, hb, _ => by
    have hq : q = nullptr := hb
    subst hq
    obtain ⟨h1, h2, _⟩ := ha
    subst h1
    cases fuel <;>
      simp [std_lexicographical_compare, BasicIterator.op_ne, BasicIterator.op_eq, end_,
        seqLess, h2]
  | c :: ra, d :: rb, p, q, 0, _, _, hl => by simp at hl
  | c :: ra, d :: rb, p, q, fuel + 1, ha, hb, hl => by
    obtain ⟨h1, h2, _, nx, h4, hsa⟩ := ha
    obtain ⟨g1, g2, _, ny, g4, hsb⟩ := hb
    subst h1
    subst g1
    have ih : std_lexicographical_compare m fuel ⟨nx⟩ end_ ⟨ny⟩ end_ =
        some (seqLess (ra.map Prod.snd) (rb.map Prod.snd)) :=
      std_lexicographical_compare_seg hsa hsb (by simpa using hl)
    rw [end_] at ih
    by_cases hcd : c.2 < d.2
    · simp [std_lexicographical_compare, BasicIterator.op_ne, BasicIterator.op_eq, end_,
        seqLess, h2, g2, BasicIterator.deref, load_of_ne _ h2, load_of_ne _ g2, h4, g4, hcd]
    · by_cases hdc : d.2 < c.2
      · simp [std_lexicographical_compare, BasicIterator.op_ne, BasicIterator.op_eq, end_,
          seqLess, h2, g2, BasicIterator.deref, load_of_ne _ h2, load_of_ne _ g2, h4, g4,
          hcd, hdc]
      · simp [std_lexicographical_compare, BasicIterator.op_ne, BasicIterator.op_eq, end_,
          seqLess, h2, g2, BasicIterator.deref, BasicIterator.preInc, load_of_ne _ h2,
          load_of_ne _ g2, h4, g4, hcd, hdc, ih]

theorem op_eq_of_ListAt [BEq T] {m : Memory T} {A B : Nat} {ca cb : List (Nat × T)}
    (ha : ListAt m A ca) (hb : ListAt m B cb) :
    op_eq m A B = some (seqEqual (ca.map Prod.snd) (cb.map Prod.snd)) := by
  have hbound := ha.length_bound
  obtain ⟨hda, hla, _, hsa⟩ := ha.load
  obtain ⟨hdb, hlb, _, hsb⟩ := hb.load
  simp only [op_eq, begin, hla, hlb]
  exact std_equal_seg hsa hsb (by omega)

theorem op_lt_of_ListAt [LT T] [DecidableRel (fun a b : T => a < b)] {m : Memory T}
    {A B : Nat} {ca cb : List (Nat × T)} (ha : ListAt m A ca) (hb : ListAt m B cb) :
    op_lt m A B = some (seqLess (ca.map Prod.snd) (cb.map Prod.snd)) := by
  have hbound := ha.length_bound
  obtain ⟨hda, hla, _, hsa⟩ := ha.load
  obtain ⟨hdb, hlb, _, hsb⟩ := hb.load
  simp only [op_lt, begin, hla, hlb]
  exact std_lexicographical_compare_seg hsa hsb (by omega)

/-- What `std::equal` computes: equal lengths and equal elements at every position. -/
theorem seqEqual_iff [BEq T] :
    ∀ (sa sb : List T), seqEqual sa sb = true ↔
      sa.length = sb.length ∧
        ∀ (i : Nat) (a b : T), sa[i]? = some a → sb[i]? = some b → (a == b) = true
  | [], [] => by simp [seqEqual]
  | [], b :: bs => by simp [seqEqual]
  | a :: as, [] => by simp [seqEqual]
  | a :: as, b :: bs => by
    have ih := seqEqual_iff as bs
    by_cases hab : (a == b) = true
    · simp only [seqEqual, hab, Bool.not_true, Bool.false_eq_true, if_false, ih,
        List.length_cons, Nat.add_right_cancel_iff]
      constructor
      · rintro ⟨hl, h⟩
        refine ⟨hl, fun i x y hx hy => ?_⟩
        cases i with
        | zero =>
          simp only [List.getElem?_cons_zero, Option.some.injEq] at hx hy
          subst hx; subst hy; exact hab
        | succ j =>
          simp only [List.getElem?_cons_succ] at hx hy
          exact h j x y hx hy
      · rintro ⟨hl, h⟩
        exact ⟨hl, fun i x y hx hy => h (i + 1) x y (by simpa using hx) (by simpa using hy)⟩
    · simp only [seqEqual, hab, Bool.not_false, if_true, Bool.false_eq_true, false_iff,
        not_and]
      intro _ h
      exact hab (h 0 a b (by simp) (by simp))

/-- What `std::lexicographical_compare` computes: at the first position where the
elements do not tie the left one is less, or all common positions tie and the left
sequence is shorter. -/
theorem seqLess_iff [LT T] [DecidableRel (fun a b : T => a < b)] :
    ∀ (sa sb : List T), seqLess sa sb = true ↔
      (∃ (k : Nat) (a b : T), sa[k]? = some a ∧ sb[k]? = some b ∧ a < b ∧
          ∀ (i : Nat) (x y : T), i < k → sa[i]? = some x → sb[i]? = some y → Tied x y) ∨
        (sa.length < sb.length ∧
          ∀ (i : Nat) (x y : T), sa[i]? = some x → sb[i]? = some y → Tied x y)
  | [], [] => by simp [seqLess]
  | [], b :: bs => by simp [seqLess]
  | a :: as, [] => by simp [seqLess]
  | a :: as, b :: bs => by
    have ih := seqLess_iff as bs
    by_cases hab : a < b
    · simp only [seqLess, hab, if_true, true_iff]
      exact Or.inl ⟨0, a, b, by simp, by simp, hab, fun i _ _ hi => absurd hi (Nat.not_lt_zero i)⟩
    · by_cases hba : b < a
      · simp only [seqLess, hab, hba, if_false, if_true, Bool.false_eq_true, false_iff,
          not_or]
        constructor
        · rintro ⟨k, x, y, hx, hy, hlt, htie⟩
          cases k with
          | zero =>
            simp only [List.getElem?_cons_zero, Option.some.injEq] at hx hy
            subst hx; subst hy; exact hab hlt
          | succ j => exact (htie 0 a b (Nat.succ_pos j) (by simp) (by simp)).2 hba
        · rintro ⟨_, htie⟩
          exact (htie 0 a b (by simp) (by simp)).2 hba
      · simp only [seqLess, hab, hba, if_false, ih]
        constructor
        · rintro (⟨k, x, y, hx, hy, hlt, htie⟩ | ⟨hlen, htie⟩)
          · refine Or.inl ⟨k + 1, x, y, by simpa using hx, by simpa using hy, hlt, ?_⟩
            intro i u v hi hu hv
            cases i with
            | zero =>
              simp only [List.getElem?_cons_zero, Option.some.injEq] at hu hv
              subst hu; subst hv; exact ⟨hab, hba⟩
            | succ j =>
              simp only [List.getElem?_cons_succ] at hu hv
              exact htie j u v (by omega) hu hv
          · refine Or.inr ⟨by simpa using hlen, ?_⟩
            intro i u v hu hv
            cases i with
            | zero =>
              simp only [List.getElem?_cons_zero, Option.some.injEq] at hu hv
              subst hu; subst hv; exact ⟨hab, hba⟩
            | succ j =>
              simp only [List.getElem?_cons_succ] at hu hv
              exact htie j u v hu hv
        · rintro (⟨k, x, y, hx, hy, hlt, htie⟩ | ⟨hlen, htie⟩)
          · cases k with
            | zero =>
              simp only [List.getElem?_cons_zero, Option.some.injEq] at hx hy
              subst hx; subst hy; exact absurd hlt hab
            | succ j =>
              simp only [List.getElem?_cons_succ] at hx hy
              exact Or.inl ⟨j, x, y, hx, hy, hlt, fun i u v hi hu hv =>
                htie (i + 1) u v (by omega) (by simpa using hu) (by simpa using hv)⟩
          · exact Or.inr ⟨by simpa using hlen, fun i u v hu hv =>
              htie (i + 1) u v (by simpa using hu) (by simpa using hv)⟩

end Comparison

/-! ## Sequences of mutations and free storage -/

section MutationsAndRoom

variable {T : Type}

/-- One mutating member call on a well-formed list keeps it well formed, touches only its
old footprint and builds only from free storage. -/
theorem Mutate.keeps {alloc : Allocator T} (hA : AllocOK alloc) {self : Nat}
    {m m1 : Memory T} {cells : List (Nat × T)} (hl : ListAt m self cells)
    (h : Mutate alloc self m m1) :
    ∃ cells1, ListAt m1 self cells1 ∧ Frame m m1 (footprint self cells) ∧
      ∀ x ∈ footprint self cells1, x ∈ footprint self cells ∨ m.node x = none := by
  cases h with
  | pushFront_ok value _ hrun =>
    cases ha : alloc m with
    | none =>
      rw [PushFront_throw self value ha] at hrun
      cases hrun
    | some a =>
      obtain ⟨m2, hr, hl2, hf, hfree⟩ := PushFront_ok hA value hl ha
      rw [hrun] at hr
      injection hr with hm
      subst hm
      refine ⟨_, hl2, hf.weaken (fun x hx => Or.inl (by
        simp only [List.mem_singleton] at hx
        simp [footprint, hx])), fun x hx => ?_⟩
      simp only [footprint, List.map_cons, List.mem_cons] at hx ⊢
      rcases hx with hx | hx | hx
      · exact Or.inl (Or.inl hx)
      · subst hx; exact Or.inr hfree
      · exact Or.inl (Or.inr hx)
  | pushFront_throw value _ hrun =>
    cases ha : alloc m with
    | none =>
      rw [PushFront_throw self value ha] at hrun
      injection hrun with hm
      subst hm
      exact ⟨cells, hl, Frame.refl _ _, fun x hx => Or.inl hx⟩
    | some a =>
      obtain ⟨m2, hr, _⟩ := PushFront_ok hA value hl ha
      rw [hrun] at hr
      cases hr
  | popFront _ hrun =>
    cases cells with
    | nil =>
      rw [PopFront_empty hl] at hrun
      injection hrun with hm
      subst hm
      exact ⟨[], hl, Frame.refl _ _, fun x hx => Or.inl hx⟩
    | cons c rest =>
      obtain ⟨m2, it, hp, _, hl2, hf⟩ := PopFront_eq_EraseAfter hl
      rw [hrun] at hp
      injection hp with hm
      subst hm
      refine ⟨rest, hl2, hf, fun x hx => Or.inl ?_⟩
      simp only [footprint, List.map_cons, List.mem_cons] at hx ⊢
      rcases hx with hx | hx
      · exact Or.inl hx
      · exact Or.inr (Or.inr hx)
  | insertAfter_ok pos value _ it hpos hrun =>
    obtain ⟨k, hk, _⟩ := hl.validPos_index hpos
    cases ha : alloc m with
    | none =>
      rw [InsertAfter_throw pos value ha] at hrun
      cases hrun
    | some a =>
      obtain ⟨m2, hr, hl2, hf, hfree⟩ := InsertAfter_ok hA value hl hk ha
      rw [hrun] at hr
      injection hr with hm _
      subst hm
      refine ⟨_, hl2, hf, fun x hx => ?_⟩
      simp only [footprint, List.mem_cons] at hx ⊢
      rcases hx with hx | hx
      · exact Or.inl (Or.inl hx)
      · rcases mem_insert_cells hx with h | h
        · exact Or.inr (by rw [h]; exact hfree)
        · exact Or.inl (Or.inr h)
  | insertAfter_throw pos value _ hpos hrun =>
    obtain ⟨k, hk, _⟩ := hl.validPos_index hpos
    cases ha : alloc m with
    | none =>
      rw [InsertAfter_throw pos value ha] at hrun
      injection hrun with hm
      subst hm
      exact ⟨cells, hl, Frame.refl _ _, fun x hx => Or.inl hx⟩
    | some a =>
      obtain ⟨m2, hr, _⟩ := InsertAfter_ok hA value hl hk ha
      rw [hrun] at hr
      cases hr
  | eraseAfter pos _ it hpos hrun =>
    obtain ⟨k, hk, hkle⟩ := hl.validPos_index hpos
    rcases Nat.lt_or_ge k cells.length with hlt | hge
    · obtain ⟨m2, hr, hl2, hf⟩ := EraseAfter_ok hl hk hlt
      rw [hrun] at hr
      injection hr with hr
      have hm : m1 = m2 := congrArg Prod.fst hr
      subst hm
      refine ⟨_, hl2, hf, fun x hx => Or.inl ?_⟩
      simp only [footprint, List.mem_cons] at hx ⊢
      rcases hx with hx | hx
      · exact Or.inl hx
      · exact Or.inr (mem_erase_cells hx)
    · have hr := EraseAfter_last hl hk (by omega)
      rw [hrun] at hr
      injection hr with hr
      have hm : m1 = m := congrArg Prod.fst hr
      subst hm
      exact ⟨cells, hl, Frame.refl _ _, fun x hx => Or.inl hx⟩
  | clear _ hrun =>
    obtain ⟨m2, hr, hl2, hf, _⟩ := Clear_ok hl
    rw [hrun] at hr
    injection hr with hm
    subst hm
    refine ⟨[], hl2, hf, fun x hx => Or.inl ?_⟩
    simp only [footprint, List.map_nil, List.mem_singleton] at hx
    simp [footprint, hx]

/-- Any sequence of mutating member calls on a well-formed list keeps it well formed,
touches only its original footprint and storage that was free at the start. -/
theorem Mutations.keep {alloc : Allocator T} (hA : AllocOK alloc) {self : Nat}
    {m m2 : Memory T} (h : Mutations alloc self m m2) :
    ∀ {cells : List (Nat × T)}, ListAt m self cells →
      ∃ cells2, ListAt m2 self cells2 ∧ Frame m m2 (footprint self cells) ∧
        ∀ x ∈ footprint self cells2, x ∈ footprint self cells ∨ m.node x = none := by
  induction h with
  | done m => exact fun {cells} hl => ⟨cells, hl, Frame.refl _ _, fun x hx => Or.inl hx⟩
  | next hstep _ ih =>
    intro cells hl
    obtain ⟨cells1, hl1, hf1, hn1⟩ := Mutate.keeps hA hl hstep
    obtain ⟨cells2, hl2, hf2, hn2⟩ := ih hl1
    refine ⟨cells2, hl2, Frame.trans hf1 hf2 hn1, fun x hx => ?_⟩
    rcases hn2 x hx with hh | hh
    · exact hn1 x hh
    · by_cases hmem : x ∈ footprint self cells
      · exact Or.inl hmem
      · exact Or.inr (hf1.free_before hh hmem)

/-! ### Counting free storage -/

theorem countP_range_flip {p q : Nat → Bool} {a : Nat} :
    ∀ {n : Nat}, a < n → p a = true → q a = false → (∀ x, x ≠ a → q x = p x) →
      (List.range n).countP q + 1 = (List.range n).countP p
  | 0, h, _, _, _ => absurd h (Nat.not_lt_zero a)
  | n + 1, h, hp, hq, hsame => by
    rw [List.range_succ, List.countP_append, List.countP_append]
    simp only [List.countP_cons, List.countP_nil, Nat.zero_add]
    by_cases han : a = n
    · subst han
      have hrest : (List.range a).countP q = (List.range a).countP p := by
        apply List.countP_congr
        intro x hx
        have hxa : x ≠ a := Nat.ne_of_lt (List.mem_range.1 hx)
        rw [hsame x hxa]
      simp [hp, hq, hrest]
    · have ih := countP_range_flip (n := n) (by omega) hp hq hsame
      have hn : q n = p n := hsame n (fun e => han e.symm)
      rw [hn]
      omega

theorem countP_range_same {p q : Nat → Bool} (n : Nat) (hsame : ∀ x, q x = p x) :
    (List.range n).countP q = (List.range n).countP p := by
  apply List.countP_congr
  intro x _
  rw [hsame x]

theorem freeCount_store_free (m : Memory T) {p : Nat} (n : Node T) (hp : FreeAt m p) :
    freeCount (m.store p n) + 1 = freeCount m := by
  obtain ⟨h0, hc, hn⟩ := hp
  unfold freeCount
  refine countP_range_flip (a := p) hc ?_ ?_ ?_
  · simp [h0, hn]
  · simp
  · intro x hx
    simp [store_node_ne _ _ hx]

theorem freeCount_store_live (m : Memory T) {p : Nat} (n : Node T) (hp : m.node p ≠ none) :
    freeCount (m.store p n) = freeCount m := by
  unfold freeCount
  refine countP_range_same _ (fun x => ?_)
  by_cases hx : x = p
  · subst hx
    cases h : m.node x with
    | none => exact absurd h hp
    | some _ => simp
  · simp [store_node_ne _ _ hx]

theorem freeCount_setSize (m : Memory T) (p s : Nat) :
    freeCount (m.setSize p s) = freeCount m := rfl

theorem freeCount_ctor [Inhabited T] (m : Memory T) {self : Nat} (hp : FreeAt m self) :
    freeCount (ctor m self) + 1 = freeCount m := by
  simp only [SingleLinkedList.ctor, freeCount_setSize]
  exact freeCount_store_free m _ hp

/-- The member `PushFront` uses up exactly one free address. -/
theorem PushFront_room {alloc : Allocator T} (hA : AllocOK alloc) {m : Memory T}
    {self a : Nat} {cells : List (Nat × T)} (v : T) (hl : ListAt m self cells)
    (ha : alloc m = some a) :
    ∃ m1, PushFront alloc m self v = .ok m1 () ∧ freeCount m1 + 1 = freeCount m := by
  obtain ⟨ha0, hac, hfree⟩ := hA m a ha
  obtain ⟨hd, hld, hnd, _⟩ := hl.load
  have hs0 : self ≠ nullptr := hl.1
  have hsa : self ≠ a := fun e => by rw [e, hfree] at hnd; cases hnd
  have e1 : (m.store a ⟨v, hd.next_node⟩).node self = some hd := by
    rw [store_node_ne _ _ hsa]; exact hnd
  refine ⟨((m.store a ⟨v, hd.next_node⟩).store self ⟨hd.value, a⟩).setSize self
    (m.size_ self + 1), by simp only [PushFront, ha, hld, setNext_eq _ a hs0 e1, store_size],
    ?_⟩
  rw [freeCount_setSize, freeCount_store_live _ _ (by rw [e1]; simp)]
  exact freeCount_store_free m _ ⟨ha0, hac, hfree⟩

/-- With an allocator that fails only for lack of storage and enough free addresses, the
second loop of `copy_reversed` returns normally. -/
theorem pushAll_ok {alloc : Allocator T} (hA : AllocOK alloc) (hC : Complete alloc) :
    ∀ (stack : List T) {m : Memory T} {self : Nat} {cells : List (Nat × T)},
      ListAt m self cells → stack.length ≤ freeCount m →
      ∃ m1, pushAll alloc m self stack = .ok m1 ()
  | [], m, _, _, _, _ => ⟨m, rfl⟩
  | top :: rest, m, self, cells, hl, hroom => by
    cases ha : alloc m with
    | none =>
      have := hC m ha
      simp only [List.length_cons] at hroom
      omega
    | some a =>
      obtain ⟨m1, hp, hcount⟩ := PushFront_room hA top hl ha
      obtain ⟨m2, hp2, hl1, _, _⟩ := PushFront_ok hA top hl ha
      rw [hp] at hp2
      injection hp2 with hm
      subst hm
      simp only [List.length_cons] at hroom
      obtain ⟨m3, hr⟩ := pushAll_ok hA hC rest hl1 (by omega)
      exact ⟨m3, by simp only [pushAll, hp, hr]⟩

theorem firstFit_complete : Complete (firstFit : Allocator T) := by
  intro m h
  unfold freeCount
  rw [List.countP_eq_zero]
  intro x hx
  simp only [firstFit] at h
  rw [List.find?_eq_none] at h
  exact h x hx

end MutationsAndRoom

section Room

variable {T : Type}

theorem fillStack_length (container : List T) : (fillStack container).length = container.length := by
  rw [fillStack_eq_reverse, List.length_reverse]

/-- With an allocator that fails only for lack of storage and enough free addresses, the
constructor from an initializer list returns normally. -/
theorem ctor_init_ok [Inhabited T] {alloc : Allocator T} (hA : AllocOK alloc)
    (hC : Complete alloc) (values : List T) {m : Memory T} {self : Nat}
    (hfree : FreeAt m self) (hroom : values.length + 1 ≤ freeCount m) :
    ∃ m1, ctor_init alloc m self values = .ok m1 () := by
  have hl0 : ListAt (ctor m self) self [] := ListAt.ctor_list m hfree.1 hfree.2.1
  have hcount := freeCount_ctor m hfree
  obtain ⟨m1, hr⟩ := pushAll_ok hA hC (fillStack values) hl0
    (by rw [fillStack_length]; omega)
  exact ⟨m1, by simp only [ctor_init, copy_reversed, hr]⟩

/-- The copy constructor, once its assertion and its range-for over the source are
through, is decided by `copy_reversed` on the temporary. -/
theorem ctor_copy_unfold [Inhabited T] (alloc : Allocator T)
    {m : Memory T} {self other tmp : Nat} {cells : List (Nat × T)}
    (ho : ListAt m other cells) (hfs : FreeAt m self) (hft : FreeAt m tmp) :
    ctor_copy alloc m self other tmp =
      match copy_reversed alloc (ctor (ctor m self) tmp) tmp (cells.map Prod.snd) with
      | .ub => .ub
      | .throw m2 =>
        match dtor m2 tmp with
        | none => .ub
        | some m3 => .throw (m3.release self)
      | .ok m2 _ =>
        match swap m2 self tmp with
        | none => .ub
        | some m3 =>
          match dtor m3 tmp with
          | none => .ub
          | some m4 => .ok m4 () := by
  have f0 : Frame m (ctor m self) [self] := Frame.ctor_frame m self
  have f1 : Frame (ctor m self) (ctor (ctor m self) tmp) [tmp] := Frame.ctor_frame _ tmp
  have f01 : Frame m (ctor (ctor m self) tmp) [self, tmp] :=
    Frame.trans (f0.weaken (fun x hx => Or.inl (by simp at hx; simp [hx]))) f1
      (fun x hx => Or.inl (by simp at hx; simp [hx]))
  have ho1 : ListAt (ctor (ctor m self) tmp) other cells :=
    ho.preserved f01 (fun x hx hmem => by
      have hlive := (ho.live x hx).2.2
      simp only [List.mem_cons, List.mem_singleton, List.not_mem_nil, or_false] at hmem
      rcases hmem with hmem | hmem
      · subst hmem; exact hlive hfs.2.2
      · subst hmem; exact hlive hft.2.2)
  have hload : (ctor m self).load self = some ⟨default, nullptr⟩ := by
    rw [load_of_ne _ hfs.1]
    simp [SingleLinkedList.ctor]
  have hsize : (ctor m self).size_ self = 0 := by
    simp [SingleLinkedList.ctor]
  simp only [ctor_copy, hload, hsize, and_self, if_true, ho1.toSeq]

/-- With an allocator that fails only for lack of storage and enough free addresses, the
copy constructor returns normally. -/
theorem ctor_copy_ok [Inhabited T] {alloc : Allocator T} (hA : AllocOK alloc)
    (hC : Complete alloc) {m : Memory T} {self other tmp : Nat} {cells : List (Nat × T)}
    (ho : ListAt m other cells) (hfs : FreeAt m self) (hft : FreeAt m tmp) (hst : self ≠ tmp)
    (hroom : cells.length + 2 ≤ freeCount m) :
    ∃ m1, ctor_copy alloc m self other tmp = .ok m1 () := by
  rcases ctor_copy_spec hA ho hfs.1 hfs.2.1 hfs.2.2 hft.1 hft.2.1 hft.2.2 hst with
    ⟨m1, _, hr, _⟩ | ⟨m1, hr, _⟩
  · exact ⟨m1, hr⟩
  · exfalso
    have hc0 := freeCount_ctor m hfs
    have hft1 : FreeAt (ctor m self) tmp := by
      refine ⟨hft.1, hft.2.1, ?_⟩
      simp only [SingleLinkedList.ctor, setSize_node]
      rw [store_node_ne _ _ (fun e => hst e.symm)]
      exact hft.2.2
    have hc1 := freeCount_ctor (ctor m self) hft1
    have hl1 : ListAt (ctor (ctor m self) tmp) tmp [] := ListAt.ctor_list _ hft.1 hft.2.1
    obtain ⟨m2, hp⟩ := pushAll_ok hA hC (fillStack (cells.map Prod.snd)) hl1
      (by rw [fillStack_length, List.length_map]; omega)
    rw [ctor_copy_unfold alloc ho hfs hft] at hr
    simp only [copy_reversed, hp] at hr
    split at hr
    · cases hr
    · split at hr <;> cases hr

/-- With an allocator that fails only for lack of storage and enough free addresses, the
copy assignment returns normally. -/
theorem assign_ok [Inhabited T] {alloc : Allocator T} (hA : AllocOK alloc)
    (hC : Complete alloc) {m : Memory T} {self rhs tmp tmp2 : Nat} {ca cb : List (Nat × T)}
    (hs : ListAt m self ca) (hr : ListAt m rhs cb) (hne : self ≠ rhs)
    (hdis : ∀ x ∈ footprint self ca, x ∉ footprint rhs cb)
    (hft : FreeAt m tmp) (hfu : FreeAt m tmp2) (htu : tmp ≠ tmp2)
    (hroom : cb.length + 2 ≤ freeCount m) :
    ∃ m1, assign alloc m self rhs tmp tmp2 = .ok m1 () := by
  rcases assign_spec hA hs hr hne hdis hft.1 hft.2.1 hft.2.2 hfu.1 hfu.2.1 hfu.2.2 htu with
    ⟨m1, _, hrun, _⟩ | ⟨m1, hrun, _⟩
  · exact ⟨m1, hrun⟩
  · exfalso
    obtain ⟨m2, hcc⟩ := ctor_copy_ok hA hC hr hft hfu htu hroom
    simp only [assign, ne_eq, hne, not_false_eq_true, if_true, hcc] at hrun
    split at hrun
    · cases hrun
    · split at hrun <;> cases hrun

end Room

/-! ## Iterators at positions -/

section IteratorsAt

variable {T : Type}

/-- Incrementing the iterator at the `k`-th position of a well-formed list gives the
iterator at the next position, or `end()` behind the last one. -/
theorem ListAt.preInc_at {m : Memory T} {self k q : Nat} {cells : List (Nat × T)}
    (hl : ListAt m self cells) (hk : (footprint self cells)[k]? = some q) :
    BasicIterator.preInc m ⟨q⟩ = some ⟨((footprint self cells)[k + 1]?).getD nullptr⟩ := by
  obtain ⟨hv, hseg⟩ := hl.seg
  obtain ⟨c, hkc, hcq⟩ := footprint_getElem? hv hk
  subst hcq
  obtain ⟨hc0, _, _, _⟩ := Seg.node_at hseg hkc
  have hfp : footprint self cells = ((self, hv) :: cells).map Prod.fst := by simp [footprint]
  cases h1 : ((self, hv) :: cells)[k + 1]? with
  | none =>
    have hn := Seg.next_last hseg hkc h1
    simp only [BasicIterator.preInc, load_of_ne _ hc0, hn, hfp, List.getElem?_map, h1,
      Option.map_none', Option.getD_none]
  | some d =>
    obtain ⟨hn, _, _⟩ := Seg.next_at hseg hkc h1
    simp only [BasicIterator.preInc, load_of_ne _ hc0, hn, hfp, List.getElem?_map, h1,
      Option.map_some', Option.getD_some]

/-- Dereferencing the iterator at a data node of a well-formed list gives its value. -/
theorem ListAt.deref_at {m : Memory T} {self k : Nat} {cells : List (Nat × T)}
    {c : Nat × T} (hl : ListAt m self cells) (hk : cells[k]? = some c) :
    BasicIterator.deref m ⟨c.1⟩ = some c.2 := by
  obtain ⟨_, _, _, hs⟩ := hl.load
  obtain ⟨hc0, nx, hn, _⟩ := Seg.node_at hs hk
  simp only [BasicIterator.deref, load_of_ne _ hc0, hn]

theorem footprint_insert_same {self k : Nat} {cells : List (Nat × T)} (c : Nat × T)
    (hk : k ≤ cells.length) :
    (footprint self (cells.take k ++ c :: cells.drop k))[k]? = (footprint self cells)[k]? := by
  cases k with
  | zero => simp [footprint]
  | succ j =>
    have hj : j < (List.take (j + 1) cells).length := by
      rw [List.length_take]
      omega
    simp only [footprint, List.getElem?_cons_succ, List.getElem?_map]
    rw [List.getElem?_append_left hj, List.getElem?_take_of_lt (by omega)]

theorem footprint_insert_next {self k : Nat} {cells : List (Nat × T)} (c : Nat × T)
    (hk : k ≤ cells.length) :
    (footprint self (cells.take k ++ c :: cells.drop k))[k + 1]? = some c.1 := by
  have hlen : (List.take k cells).length = k := by
    rw [List.length_take]
    omega
  simp only [footprint, List.getElem?_cons_succ, List.getElem?_map]
  rw [List.getElem?_append_right (by omega), hlen]
  simp

theorem cells_insert_at {k : Nat} {cells : List (Nat × T)} (c : Nat × T)
    (hk : k ≤ cells.length) : (cells.take k ++ c :: cells.drop k)[k]? = some c := by
  have hlen : (List.take k cells).length = k := by
    rw [List.length_take]
    omega
  rw [List.getElem?_append_right (by omega), hlen]
  simp

theorem footprint_erase_same {self k : Nat} (cells : List (Nat × T)) :
    (footprint self (cells.eraseIdx k))[k]? = (footprint self cells)[k]? := by
  cases k with
  | zero => simp [footprint]
  | succ j =>
    simp only [footprint, List.getElem?_cons_succ, List.getElem?_map]
    rw [List.getElem?_eraseIdx_of_lt _ _ _ (by omega)]

theorem footprint_erase_next {self k : Nat} (cells : List (Nat × T)) :
    (footprint self (cells.eraseIdx k))[k + 1]? = (footprint self cells)[k + 2]? := by
  simp only [footprint, List.getElem?_cons_succ, List.getElem?_map]
  rw [List.getElem?_eraseIdx_of_ge _ _ _ (Nat.le_refl k)]

theorem map_snd_insert {k : Nat} (cells : List (Nat × T)) (c : Nat × T) :
    (cells.take k ++ c :: cells.drop k).map Prod.snd =
      (cells.map Prod.snd).take k ++ [c.2] ++ (cells.map Prod.snd).drop k := by
  simp [List.map_take, List.map_drop]

theorem map_snd_erase {k : Nat} (cells : List (Nat × T)) :
    (cells.eraseIdx k).map Prod.snd = (cells.map Prod.snd).eraseIdx k := by
  rw [List.eraseIdx_eq_take_drop_succ, List.eraseIdx_eq_take_drop_succ]
  simp [List.map_take, List.map_drop]

end IteratorsAt

/-! ## The concrete machine -/

section Concrete

theorem mem0_free (p : Nat) (h0 : p ≠ nullptr) (hc : p < 16) : FreeAt mem0 p :=
  ⟨h0, hc, rfl⟩

theorem mem123_run : ctor_init firstFit mem0 1 [1, 2, 3] = .ok mem123 () := rfl

theorem mem123_list : ListAt mem123 1 [(4, 1), (3, 2), (2, 3)] :=
  ⟨by decide, by decide, by decide, rfl, ⟨0, 4⟩, rfl, rfl, by decide, by decide, 3, rfl,
    rfl, by decide, by decide, 2, rfl, rfl, by decide, by decide, 0, rfl, rfl⟩

theorem mem124_list_a : ListAt mem124 1 [(4, 1), (3, 2), (2, 3)] :=
  ⟨by decide, by decide, by decide, rfl, ⟨0, 4⟩, rfl, rfl, by decide, by decide, 3, rfl,
    rfl, by decide, by decide, 2, rfl, rfl, by decide, by decide, 0, rfl, rfl⟩

theorem mem124_list_b : ListAt mem124 5 [(8, 1), (7, 2), (6, 4)] :=
  ⟨by decide, by decide, by decide, rfl, ⟨0, 8⟩, rfl, rfl, by decide, by decide, 7, rfl,
    rfl, by decide, by decide, 6, rfl, rfl, by decide, by decide, 0, rfl, rfl⟩

theorem world123_reachable : Reachable firstFit world123 :=
  Reachable.step (Reachable.init mem0)
    (Step.ctor_init_ok ⟨mem0, []⟩ 1 [1, 2, 3] mem123 (mem0_free 1 (by decide) (by decide))
      mem123_run)

end Concrete

/-! ## Main results -/

section MainResults

variable {T : Type}

theorem ListAt.index_of_advance {m : Memory T} {self k : Nat} {cells : List (Nat × T)}
    {pos : BasicIterator} (hl : ListAt m self cells)
    (hpos : advance m k (before_begin self) = some pos) (hn : pos.node_ ≠ nullptr) :
    (footprint self cells)[k]? = some pos.node_ ∧ k ≤ cells.length := by
  obtain ⟨hv, hseg⟩ := hl.seg
  have h := Seg.advance_index hseg hpos hn
  have hfp : footprint self cells = ((self, hv) :: cells).map Prod.fst := by simp [footprint]
  rw [← hfp] at h
  refine ⟨h, ?_⟩
  obtain ⟨hlt, _⟩ := List.getElem?_eq_some.1 h
  simp [footprint] at hlt
  omega

theorem op_ne_end {pos : BasicIterator} (h : pos.op_ne end_ = true) :
    pos.node_ ≠ nullptr := by
  simpa [BasicIterator.op_ne, BasicIterator.op_eq, end_] using h

/-- C1 (size invariant).  In every program state reachable from a state without lists by
construction (default, from an initializer list, by copy), assignment, `PushFront`,
`PopFront`, `InsertAfter` and `EraseAfter` at valid positions, `Clear`, `swap` and
destruction, whether the operations return or throw, every live list has `GetSize()`
equal to the number of data nodes reached from the sentinel's `next_node` link by
following links until `nullptr`. -/
theorem size_invariant [Inhabited T] (alloc : Allocator T) (hA : AllocOK alloc)
    (w : World T) (hr : Reachable alloc w) (l : Nat) (hl : l ∈ w.lists) :
    countNodes w.mem l = some (GetSize w.mem l) := by
  obtain ⟨fp, _, hall, _⟩ := hr.worldOK hA
  rw [(hall l hl).countNodes, (hall l hl).getSize]

theorem size_invariant_witness :
    AllocOK (firstFit : Allocator Nat) ∧ Reachable firstFit world123 ∧ 1 ∈ world123.lists ∧
      countNodes world123.mem 1 = some (GetSize world123.mem 1) :=
  ⟨firstFit_ok, world123_reachable, by decide,
    size_invariant firstFit firstFit_ok world123 world123_reachable 1 (by decide)⟩

/-- C2 (construction from an initializer list).  Run on free storage, the constructor
from the values `v0 .. v(n-1)` either returns a list with `GetSize() == n` whose traversal
from `begin()` to `end()` yields `v0 .. v(n-1)` in input order, or propagates a failed
node creation; it never has an undefined result.  When node creation can only fail for
lack of storage and `n + 1` addresses are free, it returns. -/
theorem ctor_init_correct [Inhabited T] (alloc : Allocator T) (hA : AllocOK alloc)
    (m : Memory T) (self : Nat) (values : List T) (hfree : FreeAt m self) :
    ((∃ m1, ctor_init alloc m self values = .ok m1 () ∧ GetSize m1 self = values.length ∧
          toSeq m1 self = some values) ∨
        (∃ m1, ctor_init alloc m self values = .throw m1)) ∧
      (Complete alloc → values.length + 1 ≤ freeCount m →
        ∃ m1, ctor_init alloc m self values = .ok m1 () ∧ GetSize m1 self = values.length ∧
          toSeq m1 self = some values) := by
  have key : ∀ m1, ctor_init alloc m self values = .ok m1 () →
      GetSize m1 self = values.length ∧ toSeq m1 self = some values := by
    intro m1 hrun
    rcases ctor_init_spec hA values hfree.1 hfree.2.1 hfree.2.2 with
      ⟨m2, news, hr, hl, hv, _⟩ | ⟨m2, hr, _⟩
    · rw [hrun] at hr
      injection hr with hm
      subst hm
      exact ⟨by rw [hl.getSize, ← hv, List.length_map], by rw [hl.toSeq, hv]⟩
    · rw [hrun] at hr
      cases hr
  constructor
  · rcases ctor_init_spec hA values hfree.1 hfree.2.1 hfree.2.2 with
      ⟨m1, _, hr, _⟩ | ⟨m1, hr, _⟩
    · exact Or.inl ⟨m1, hr, key m1 hr⟩
    · exact Or.inr ⟨m1, hr⟩
  · intro hC hroom
    obtain ⟨m1, hr⟩ := ctor_init_ok hA hC values hfree hroom
    exact ⟨m1, hr, key m1 hr⟩

theorem ctor_init_correct_witness :
    AllocOK (firstFit : Allocator Nat) ∧ FreeAt mem0 1 ∧
      (((∃ m1, ctor_init firstFit mem0 1 [1, 2, 3] = .ok m1 () ∧
            GetSize m1 1 = [1, 2, 3].length ∧ toSeq m1 1 = some [1, 2, 3]) ∨
          (∃ m1, ctor_init firstFit mem0 1 [1, 2, 3] = .throw m1)) ∧
        (Complete (firstFit : Allocator Nat) → [1, 2, 3].length + 1 ≤ freeCount mem0 →
          ∃ m1, ctor_init firstFit mem0 1 [1, 2, 3] = .ok m1 () ∧
            GetSize m1 1 = [1, 2, 3].length ∧ toSeq m1 1 = some [1, 2, 3])) :=
  ⟨firstFit_ok, mem0_free 1 (by decide) (by decide),
    ctor_init_correct firstFit firstFit_ok mem0 1 [1, 2, 3]
      (mem0_free 1 (by decide) (by decide))⟩

/-- C3 (copy construction).  Copy-constructing `C` on free storage from a well-formed list
`A` either propagates a failed node creation, leaving `A` as it was, or returns with:
`C` has the size and the traversal sequence of `A` (and `C == A` holds when the element
`operator==` is reflexive); `A` still consists of the same nodes with the same values;
and after any further sequence of `PushFront`, `PopFront`, `InsertAfter`, `EraseAfter`
(at valid positions of `C`) and `Clear` calls on `C`, returning or throwing, `A` still
consists of the same nodes, with unchanged size and traversal sequence.  When node
creation can only fail for lack of storage and enough addresses are free, the copy
constructor returns. -/
theorem copy_ctor_independent [Inhabited T] [BEq T] (alloc : Allocator T)
    (hA : AllocOK alloc) (m : Memory T) (A C tmp : Nat) (cells : List (Nat × T))
    (s : List T) (hl : ListAt m A cells) (hs : toSeq m A = some s)
    (hfC : FreeAt m C) (hft : FreeAt m tmp) (hne : C ≠ tmp) :
    ((∃ m1, ctor_copy alloc m C A tmp = .ok m1 () ∧
          GetSize m1 C = GetSize m A ∧ toSeq m1 C = some s ∧
          ((∀ x : T, (x == x) = true) → op_eq m1 C A = some true) ∧
          ListAt m1 A cells ∧ GetSize m1 A = GetSize m A ∧ toSeq m1 A = some s ∧
          ∀ m2, Mutations alloc C m1 m2 →
            ListAt m2 A cells ∧ GetSize m2 A = GetSize m A ∧ toSeq m2 A = some s) ∨
        (∃ m1, ctor_copy alloc m C A tmp = .throw m1 ∧
          ListAt m1 A cells ∧ GetSize m1 A = GetSize m A ∧ toSeq m1 A = some s)) ∧
      (Complete alloc → cells.length + 2 ≤ freeCount m →
        ∃ m1, ctor_copy alloc m C A tmp = .ok m1 ()) := by
  have hsv : s = cells.map Prod.snd := by
    rw [hl.toSeq] at hs
    injection hs with h
    exact h.symm
  have same : ∀ {m1 : Memory T}, ListAt m1 A cells →
      ListAt m1 A cells ∧ GetSize m1 A = GetSize m A ∧ toSeq m1 A = some s := by
    intro m1 h1
    exact ⟨h1, by rw [h1.getSize, hl.getSize], by rw [h1.toSeq, hsv]⟩
  refine ⟨?_, fun hC hroom => ctor_copy_ok hA hC hl hfC hft hne hroom⟩
  rcases ctor_copy_spec hA hl hfC.1 hfC.2.1 hfC.2.2 hft.1 hft.2.1 hft.2.2 hne with
    ⟨m1, news, hr, hlC, hv, hf, hfresh, _⟩ | ⟨m1, hr, hf⟩
  · left
    have hlA : ListAt m1 A cells := hl.preserved hf (fun _ _ => by simp)
    have hdis : ∀ x ∈ footprint A cells, x ∉ footprint C news := fun x hx hmem =>
      (hl.live x hx).2.2 (hfresh x hmem)
    refine ⟨m1, hr, ?_, ?_, ?_, hlA, (same hlA).2.1, (same hlA).2.2, ?_⟩
    · rw [hlC.getSize, hl.getSize]
      have := congrArg List.length hv
      simpa using this
    · rw [hlC.toSeq, hv, hsv]
    · intro hrefl
      rw [op_eq_of_ListAt hlC hlA, hv]
      have hself : ∀ l : List T, seqEqual l l = true := by
        intro l
        induction l with
        | nil => rfl
        | cons x xs ih => simp [seqEqual, hrefl x, ih]
      rw [hself]
    · intro m2 hmut
      obtain ⟨cells2, _, hf2, _⟩ := Mutations.keep hA hmut hlC
      exact same (hlA.preserved hf2 hdis)
  · right
    exact ⟨m1, hr, same (hl.preserved hf (fun _ _ => by simp))⟩

theorem copy_ctor_independent_witness :
    AllocOK (firstFit : Allocator Nat) ∧ ListAt mem123 1 [(4, 1), (3, 2), (2, 3)] ∧
      toSeq mem123 1 = some [1, 2, 3] ∧ FreeAt mem123 5 ∧ FreeAt mem123 9 ∧ 5 ≠ 9 ∧
      (((∃ m1, ctor_copy firstFit mem123 5 1 9 = .ok m1 () ∧
            GetSize m1 5 = GetSize mem123 1 ∧ toSeq m1 5 = some [1, 2, 3] ∧
            ((∀ x : Nat, (x == x) = true) → op_eq m1 5 1 = some true) ∧
            ListAt m1 1 [(4, 1), (3, 2), (2, 3)] ∧ GetSize m1 1 = GetSize mem123 1 ∧
            toSeq m1 1 = some [1, 2, 3] ∧
            ∀ m2, Mutations firstFit 5 m1 m2 →
              ListAt m2 1 [(4, 1), (3, 2), (2, 3)] ∧ GetSize m2 1 = GetSize mem123 1 ∧
                toSeq m2 1 = some [1, 2, 3]) ∨
          (∃ m1, ctor_copy firstFit mem123 5 1 9 = .throw m1 ∧
            ListAt m1 1 [(4, 1), (3, 2), (2, 3)] ∧ GetSize m1 1 = GetSize mem123 1 ∧
            toSeq m1 1 = some [1, 2, 3])) ∧
        (Complete (firstFit : Allocator Nat) →
          [(4, 1), (3, 2), (2, 3)].length + 2 ≤ freeCount mem123 →
          ∃ m1, ctor_copy firstFit mem123 5 1 9 = .ok m1 ())) :=
  ⟨firstFit_ok, mem123_list, by decide, ⟨by decide, by decide, rfl⟩,
    ⟨by decide, by decide, rfl⟩, by decide,
    copy_ctor_independent firstFit firstFit_ok mem123 1 5 9 [(4, 1), (3, 2), (2, 3)]
      [1, 2, 3] mem123_list (by decide) ⟨by decide, by decide, rfl⟩
      ⟨by decide, by decide, rfl⟩ (by decide)⟩

end MainResults

section MainResults2

variable {T : Type}

/-- C4 (`InsertAfter`).  For a well-formed list with traversal sequence `s`, a position
`pos` other than `end()` reached from `before_begin()` by `k` increments (so
`before_begin()` has index 0 and the `k`-th data node index `k`) and a value `v`, when
node creation succeeds `InsertAfter(pos, v)` returns normally; afterwards the traversal
sequence is the first `k` elements of `s`, then `v`, then the rest of `s`; `GetSize()`
has grown by exactly one; and the returned iterator references the new node: its address
is the one node creation returned (storage that held no node before), it dereferences to
`v`, and it is what incrementing `pos` now gives. -/
theorem InsertAfter_correct (alloc : Allocator T) (hA : AllocOK alloc) (m : Memory T)
    (self : Nat) (cells : List (Nat × T)) (s : List T) (hl : ListAt m self cells)
    (hs : toSeq m self = some s) (k : Nat) (pos : BasicIterator)
    (hpos : advance m k (before_begin self) = some pos) (hne : pos.op_ne end_ = true)
    (v : T) (a : Nat) (ha : alloc m = some a) :
    ∃ m1 it, InsertAfter alloc m self pos v = .ok m1 it ∧
      toSeq m1 self = some (s.take k ++ [v] ++ s.drop k) ∧
      GetSize m1 self = GetSize m self + 1 ∧
      it.node_ = a ∧ m.node a = none ∧ it.deref m1 = some v ∧ pos.preInc m1 = some it := by
  have hsv : s = cells.map Prod.snd := by
    rw [hl.toSeq] at hs
    injection hs with h
    exact h.symm
  obtain ⟨hidx, hkle⟩ := hl.index_of_advance hpos (op_ne_end hne)
  obtain ⟨m1, hrun, hl1, _, hfree⟩ := InsertAfter_ok hA v hl hidx ha
  refine ⟨m1, ⟨a⟩, hrun, ?_, ?_, rfl, hfree, ?_, ?_⟩
  · rw [hl1.toSeq, map_snd_insert, hsv]
  · rw [hl1.getSize, hl.getSize]
    simp only [List.length_append, List.length_take, List.length_cons, List.length_drop]
    omega
  · exact hl1.deref_at (cells_insert_at (a, v) hkle)
  · have h1 : (footprint self (cells.take k ++ (a, v) :: cells.drop k))[k]? =
        some pos.node_ := by
      rw [footprint_insert_same (a, v) hkle]
      exact hidx
    have h2 := hl1.preInc_at h1
    rw [footprint_insert_next (a, v) hkle] at h2
    exact h2

theorem InsertAfter_correct_witness :
    AllocOK (firstFit : Allocator Nat) ∧ ListAt mem123 1 [(4, 1), (3, 2), (2, 3)] ∧
      toSeq mem123 1 = some [1, 2, 3] ∧
      advance mem123 1 (before_begin 1) = some ⟨4⟩ ∧
      (⟨4⟩ : BasicIterator).op_ne end_ = true ∧ firstFit mem123 = some 5 ∧
      ∃ m1 it, InsertAfter firstFit mem123 1 ⟨4⟩ 9 = .ok m1 it ∧
        toSeq m1 1 = some ([1, 2, 3].take 1 ++ [9] ++ [1, 2, 3].drop 1) ∧
        GetSize m1 1 = GetSize mem123 1 + 1 ∧
        it.node_ = 5 ∧ mem123.node 5 = none ∧ it.deref m1 = some 9 ∧
        (⟨4⟩ : BasicIterator).preInc m1 = some it :=
  ⟨firstFit_ok, mem123_list, by decide, by decide, by decide, by decide,
    InsertAfter_correct firstFit firstFit_ok mem123 1 [(4, 1), (3, 2), (2, 3)] [1, 2, 3]
      mem123_list (by decide) 1 ⟨4⟩ (by decide) (by decide) 9 5 (by decide)⟩

/-- C5 (`EraseAfter`).  For a well-formed list with traversal sequence `s` and a position
`pos` reached from `before_begin()` by `k` increments whose node has a successor,
`EraseAfter(pos)` returns normally; afterwards the traversal sequence is `s` without its
`k`-th element (the element right behind `pos`), all others in their order; `GetSize()`
has dropped by exactly one; and the returned iterator is what incrementing `pos` now
gives, which is the node that followed the erased one, and is equal to `end()` exactly
when the erased element was the last. -/
theorem EraseAfter_correct (m : Memory T) (self : Nat) (cells : List (Nat × T))
    (s : List T) (hl : ListAt m self cells) (hs : toSeq m self = some s) (k : Nat)
    (pos nxt : BasicIterator) (hpos : advance m k (before_begin self) = some pos)
    (hsucc : pos.preInc m = some nxt) (hne : nxt.op_ne end_ = true) :
    ∃ m1 it, EraseAfter m self pos = some (m1, it) ∧
      toSeq m1 self = some (s.eraseIdx k) ∧
      GetSize m1 self + 1 = GetSize m self ∧
      pos.preInc m1 = some it ∧ nxt.preInc m = some it ∧
      (it.op_eq end_ = true ↔ k + 1 = s.length) := by
  have hsv : s = cells.map Prod.snd := by
    rw [hl.toSeq] at hs
    injection hs with h
    exact h.symm
  have hp0 : pos.node_ ≠ nullptr := by
    intro e
    simp [BasicIterator.preInc, e] at hsucc
  obtain ⟨hidx, hkle⟩ := hl.index_of_advance hpos hp0
  have hnx := hl.preInc_at hidx
  have hpe : (⟨pos.node_⟩ : BasicIterator) = pos := rfl
  rw [hpe, hsucc] at hnx
  have hnxt : nxt.node_ = ((footprint self cells)[k + 1]?).getD nullptr := by
    injection hnx with h
    rw [h]
  have hn0 := op_ne_end hne
  have hk1 : (footprint self cells)[k + 1]? = some nxt.node_ := by
    cases h : (footprint self cells)[k + 1]? with
    | none => rw [h] at hnxt; exact absurd hnxt hn0
    | some q => rw [h] at hnxt; rw [hnxt]; rfl
  have hlt : k < cells.length := by
    obtain ⟨hh, _⟩ := List.getElem?_eq_some.1 hk1
    simp [footprint] at hh
    omega
  obtain ⟨m1, hrun, hl1, _⟩ := EraseAfter_ok hl hidx hlt
  have hret : ((cells.map Prod.fst).drop (k + 1)).headD nullptr =
      ((footprint self cells)[k + 2]?).getD nullptr := by
    simp [footprint]
  rw [hret] at hrun
  refine ⟨m1, _, hrun, ?_, ?_, ?_, ?_, ?_⟩
  · rw [hl1.toSeq, map_snd_erase, hsv]
  · rw [hl1.getSize, hl.getSize, List.length_eraseIdx_of_lt hlt]
    omega
  · have h1 : (footprint self (cells.eraseIdx k))[k]? = some pos.node_ := by
      rw [footprint_erase_same]
      exact hidx
    have h2 := hl1.preInc_at h1
    rw [footprint_erase_next] at h2
    exact h2
  · exact hl.preInc_at hk1
  · simp only [BasicIterator.op_eq, end_, decide_eq_true_eq, hsv, List.length_map]
    cases h : (footprint self cells)[k + 2]? with
    | none =>
      have := List.getElem?_eq_none_iff.1 h
      simp [footprint] at this
      simp only [Option.getD_none, true_iff]
      omega
    | some q =>
      have hq := (hl.live q (List.getElem?_mem h)).1
      obtain ⟨hh, _⟩ := List.getElem?_eq_some.1 h
      simp [footprint] at hh
      simp only [Option.getD_some, hq, false_iff]
      omega

theorem EraseAfter_correct_witness :
    ListAt mem123 1 [(4, 1), (3, 2), (2, 3)] ∧ toSeq mem123 1 = some [1, 2, 3] ∧
      advance mem123 1 (before_begin 1) = some ⟨4⟩ ∧
      (⟨4⟩ : BasicIterator).preInc mem123 = some ⟨3⟩ ∧
      (⟨3⟩ : BasicIterator).op_ne end_ = true ∧
      ∃ m1 it, EraseAfter mem123 1 ⟨4⟩ = some (m1, it) ∧
        toSeq m1 1 = some ([1, 2, 3].eraseIdx 1) ∧
        GetSize m1 1 + 1 = GetSize mem123 1 ∧
        (⟨4⟩ : BasicIterator).preInc m1 = some it ∧
        (⟨3⟩ : BasicIterator).preInc mem123 = some it ∧
        (it.op_eq end_ = true ↔ 1 + 1 = [1, 2, 3].length) :=
  ⟨mem123_list, by decide, by decide, by decide, by decide,
    EraseAfter_correct mem123 1 [(4, 1), (3, 2), (2, 3)] [1, 2, 3] mem123_list (by decide)
      1 ⟨4⟩ ⟨3⟩ (by decide) (by decide) (by decide)⟩

end MainResults2

section MainResults3

variable {T : Type}

theorem toSeq_eq_of_ListAt {m : Memory T} {self : Nat} {cells : List (Nat × T)}
    {s : List T} (hl : ListAt m self cells) (hs : toSeq m self = some s) :
    s = cells.map Prod.snd := by
  rw [hl.toSeq] at hs
  injection hs with h
  exact h.symm

/-- C6 (`operator==`).  For two well-formed lists `A` and `B` (the same object or not)
with traversal sequences `sa` and `sb`, `A == B` returns, and it returns true exactly when
`GetSize()` of `A` equals `GetSize()` of `B` and at every position the element of `A`
compares equal to the element of `B` under the element `operator==`.  In particular
`A == A` is true whenever the element `operator==` is reflexive. -/
theorem op_eq_correct [BEq T] (m : Memory T) (A B : Nat) (ca cb : List (Nat × T))
    (sa sb : List T) (ha : ListAt m A ca) (hb : ListAt m B cb)
    (hsa : toSeq m A = some sa) (hsb : toSeq m B = some sb) :
    (∃ r, op_eq m A B = some r ∧
        (r = true ↔ GetSize m A = GetSize m B ∧
          ∀ (i : Nat) (a b : T), sa[i]? = some a → sb[i]? = some b → (a == b) = true)) ∧
      ((∀ x : T, (x == x) = true) → op_eq m A A = some true) := by
  have ea := toSeq_eq_of_ListAt ha hsa
  have eb := toSeq_eq_of_ListAt hb hsb
  constructor
  · refine ⟨_, op_eq_of_ListAt ha hb, ?_⟩
    rw [seqEqual_iff, ← ea, ← eb, ha.getSize, hb.getSize]
    have h1 : sa.length = ca.length := by rw [ea, List.length_map]
    have h2 : sb.length = cb.length := by rw [eb, List.length_map]
    rw [h1, h2]
  · intro hrefl
    rw [op_eq_of_ListAt ha ha]
    have hself : ∀ l : List T, seqEqual l l = true := by
      intro l
      induction l with
      | nil => rfl
      | cons x xs ih => simp [seqEqual, hrefl x, ih]
    rw [hself]

theorem op_eq_correct_witness :
    ListAt mem124 1 [(4, 1), (3, 2), (2, 3)] ∧ ListAt mem124 5 [(8, 1), (7, 2), (6, 4)] ∧
      toSeq mem124 1 = some [1, 2, 3] ∧ toSeq mem124 5 = some [1, 2, 4] ∧
      ((∃ r, op_eq mem124 1 5 = some r ∧
          (r = true ↔ GetSize mem124 1 = GetSize mem124 5 ∧
            ∀ (i : Nat) (a b : Nat), [1, 2, 3][i]? = some a → [1, 2, 4][i]? = some b →
              (a == b) = true)) ∧
        ((∀ x : Nat, (x == x) = true) → op_eq mem124 1 1 = some true)) :=
  ⟨mem124_list_a, mem124_list_b, by decide, by decide,
    op_eq_correct mem124 1 5 [(4, 1), (3, 2), (2, 3)] [(8, 1), (7, 2), (6, 4)] [1, 2, 3]
      [1, 2, 4] mem124_list_a mem124_list_b (by decide) (by decide)⟩

/-- C7 (`operator<`).  For two well-formed lists `A` and `B` with traversal sequences `sa`
and `sb`, `A < B` returns the lexicographic comparison of `sa` and `sb` under the element
`operator<`: it is true exactly when at the first position where the elements do not tie
(one is less than the other) the element of `A` is less than the element of `B`, or all
positions of the common prefix tie and `sa` is strictly shorter than `sb`.  When two
elements tie only if they are equal (as for a total order), "tie" reads "are equal" and
"do not tie" reads "differ". -/
theorem op_lt_correct [LT T] [DecidableRel (fun a b : T => a < b)] (m : Memory T)
    (A B : Nat) (ca cb : List (Nat × T)) (sa sb : List T) (ha : ListAt m A ca)
    (hb : ListAt m B cb) (hsa : toSeq m A = some sa) (hsb : toSeq m B = some sb) :
    ∃ r, op_lt m A B = some r ∧
      (r = true ↔
        (∃ (k : Nat) (a b : T), sa[k]? = some a ∧ sb[k]? = some b ∧ a < b ∧
            ∀ (i : Nat) (x y : T), i < k → sa[i]? = some x → sb[i]? = some y → Tied x y) ∨
          (sa.length < sb.length ∧
            ∀ (i : Nat) (x y : T), sa[i]? = some x → sb[i]? = some y → Tied x y)) ∧
      ((∀ x y : T, Tied x y ↔ x = y) →
        (r = true ↔
          (∃ (k : Nat) (a b : T), sa[k]? = some a ∧ sb[k]? = some b ∧ a ≠ b ∧ a < b ∧
              ∀ (i : Nat) (x y : T), i < k → sa[i]? = some x → sb[i]? = some y → x = y) ∨
            (sa.length < sb.length ∧
              ∀ (i : Nat) (x y : T), sa[i]? = some x → sb[i]? = some y → x = y))) := by
  have ea := toSeq_eq_of_ListAt ha hsa
  have eb := toSeq_eq_of_ListAt hb hsb
  refine ⟨_, op_lt_of_ListAt ha hb, ?_, ?_⟩
  · rw [seqLess_iff, ← ea, ← eb]
  · intro htie
    rw [seqLess_iff, ← ea, ← eb]
    constructor
    · rintro (⟨k, a, b, h1, h2, hlt, hpre⟩ | ⟨hlen, hpre⟩)
      · refine Or.inl ⟨k, a, b, h1, h2, ?_, hlt, fun i x y hi hx hy =>
          (htie x y).1 (hpre i x y hi hx hy)⟩
        intro e
        exact ((htie a b).2 e).1 hlt
      · exact Or.inr ⟨hlen, fun i x y hx hy => (htie x y).1 (hpre i x y hx hy)⟩
    · rintro (⟨k, a, b, h1, h2, _, hlt, hpre⟩ | ⟨hlen, hpre⟩)
      · exact Or.inl ⟨k, a, b, h1, h2, hlt, fun i x y hi hx hy =>
          (htie x y).2 (hpre i x y hi hx hy)⟩
      · exact Or.inr ⟨hlen, fun i x y hx hy => (htie x y).2 (hpre i x y hx hy)⟩

theorem op_lt_correct_witness :
    ListAt mem124 1 [(4, 1), (3, 2), (2, 3)] ∧ ListAt mem124 5 [(8, 1), (7, 2), (6, 4)] ∧
      toSeq mem124 1 = some [1, 2, 3] ∧ toSeq mem124 5 = some [1, 2, 4] ∧
      ∃ r, op_lt mem124 1 5 = some r ∧
        (r = true ↔
          (∃ (k : Nat) (a b : Nat), [1, 2, 3][k]? = some a ∧ [1, 2, 4][k]? = some b ∧
              a < b ∧
              ∀ (i : Nat) (x y : Nat), i < k → [1, 2, 3][i]? = some x →
                [1, 2, 4][i]? = some y → Tied x y) ∨
            ([1, 2, 3].length < [1, 2, 4].length ∧
              ∀ (i : Nat) (x y : Nat), [1, 2, 3][i]? = some x → [1, 2, 4][i]? = some y →
                Tied x y)) ∧
        ((∀ x y : Nat, Tied x y ↔ x = y) →
          (r = true ↔
            (∃ (k : Nat) (a b : Nat), [1, 2, 3][k]? = some a ∧ [1, 2, 4][k]? = some b ∧
                a ≠ b ∧ a < b ∧
                ∀ (i : Nat) (x y : Nat), i < k → [1, 2, 3][i]? = some x →
                  [1, 2, 4][i]? = some y → x = y) ∨
              ([1, 2, 3].length < [1, 2, 4].length ∧
                ∀ (i : Nat) (x y : Nat), [1, 2, 3][i]? = some x → [1, 2, 4][i]? = some y →
                  x = y))) :=
  ⟨mem124_list_a, mem124_list_b, by decide, by decide,
    op_lt_correct mem124 1 5 [(4, 1), (3, 2), (2, 3)] [(8, 1), (7, 2), (6, 4)] [1, 2, 3]
      [1, 2, 4] mem124_list_a mem124_list_b (by decide) (by decide)⟩

/-- C8 (derived operators).  For two well-formed lists `A` and `B` all six relational
operators return, and `A != B` is the negation of `A == B`, `A > B` is `B < A`, `A <= B`
is the negation of `B < A`, and `A >= B` is the negation of `A < B`. -/
theorem derived_operators [BEq T] [LT T] [DecidableRel (fun a b : T => a < b)]
    (m : Memory T) (A B : Nat) (ca cb : List (Nat × T)) (ha : ListAt m A ca)
    (hb : ListAt m B cb) :
    ∃ e l g : Bool, op_eq m A B = some e ∧ op_lt m A B = some l ∧ op_lt m B A = some g ∧
      op_ne m A B = some (!e) ∧ op_gt m A B = some g ∧ op_le m A B = some (!g) ∧
      op_ge m A B = some (!l) := by
  refine ⟨_, _, _, op_eq_of_ListAt ha hb, op_lt_of_ListAt ha hb, op_lt_of_ListAt hb ha,
    ?_, ?_, ?_, ?_⟩
  · simp only [op_ne, op_eq_of_ListAt ha hb]
  · simp only [op_gt, op_lt_of_ListAt hb ha]
  · simp only [op_le, op_lt_of_ListAt hb ha]
  · simp only [op_ge, op_gt, op_lt_of_ListAt ha hb]

theorem derived_operators_witness :
    ListAt mem124 1 [(4, 1), (3, 2), (2, 3)] ∧ ListAt mem124 5 [(8, 1), (7, 2), (6, 4)] ∧
      ∃ e l g : Bool, op_eq mem124 1 5 = some e ∧ op_lt mem124 1 5 = some l ∧
        op_lt mem124 5 1 = some g ∧ op_ne mem124 1 5 = some (!e) ∧
        op_gt mem124 1 5 = some g ∧ op_le mem124 1 5 = some (!g) ∧
        op_ge mem124 1 5 = some (!l) :=
  ⟨mem124_list_a, mem124_list_b,
    derived_operators mem124 1 5 [(4, 1), (3, 2), (2, 3)] [(8, 1), (7, 2), (6, 4)]
      mem124_list_a mem124_list_b⟩

/-- C9 (`swap`).  For two well-formed lists `A` and `B` that are the same object or share
no address, with traversal sequences `sa` and `sb`, the member `A.swap(B)` and the free
function `swap(A, B)` return the same memory, in which `A` has the size and traversal
sequence `B` had and `B` has the size and traversal sequence `A` had. -/
theorem swap_correct (m : Memory T) (A B : Nat) (ca cb : List (Nat × T)) (sa sb : List T)
    (ha : ListAt m A ca) (hb : ListAt m B cb) (hsa : toSeq m A = some sa)
    (hsb : toSeq m B = some sb)
    (hsep : A = B ∨ ∀ x ∈ footprint A ca, x ∉ footprint B cb) :
    ∃ m1, swap m A B = some m1 ∧ swap_free m A B = some m1 ∧
      GetSize m1 A = GetSize m B ∧ toSeq m1 A = some sb ∧
      GetSize m1 B = GetSize m A ∧ toSeq m1 B = some sa := by
  have ea := toSeq_eq_of_ListAt ha hsa
  have eb := toSeq_eq_of_ListAt hb hsb
  have hdis : A = B ∨ (A ∉ footprint B cb ∧ B ∉ footprint A ca) := by
    rcases hsep with h | h
    · exact Or.inl h
    · exact Or.inr ⟨h A (by simp [footprint]), fun hmem => h B hmem (by simp [footprint])⟩
  obtain ⟨m1, hrun, h1, h2, _⟩ := swap_ok ha hb hdis
  exact ⟨m1, hrun, hrun, by rw [h1.getSize, hb.getSize], by rw [h1.toSeq, eb],
    by rw [h2.getSize, ha.getSize], by rw [h2.toSeq, ea]⟩

theorem swap_correct_witness :
    ListAt mem124 1 [(4, 1), (3, 2), (2, 3)] ∧ ListAt mem124 5 [(8, 1), (7, 2), (6, 4)] ∧
      toSeq mem124 1 = some [1, 2, 3] ∧ toSeq mem124 5 = some [1, 2, 4] ∧
      (1 = 5 ∨ ∀ x ∈ footprint 1 [(4, 1), (3, 2), (2, 3)],
        x ∉ footprint 5 [(8, 1), (7, 2), (6, 4)]) ∧
      ∃ m1, swap mem124 1 5 = some m1 ∧ swap_free mem124 1 5 = some m1 ∧
        GetSize m1 1 = GetSize mem124 5 ∧ toSeq m1 1 = some [1, 2, 4] ∧
        GetSize m1 5 = GetSize mem124 1 ∧ toSeq m1 5 = some [1, 2, 3] :=
  ⟨mem124_list_a, mem124_list_b, by decide, by decide, Or.inr (by decide),
    swap_correct mem124 1 5 [(4, 1), (3, 2), (2, 3)] [(8, 1), (7, 2), (6, 4)] [1, 2, 3]
      [1, 2, 4] mem124_list_a mem124_list_b (by decide) (by decide) (Or.inr (by decide))⟩

/-- C10 (copy assignment).  For two well-formed lists `A` and `B` that are the same object
or share no address, with traversal sequences `sa` and `sb`, the assignment `A = B`
either returns, and then `A` has the size and traversal sequence of `B` whatever it held
before while `B` has kept its own, or it propagates a failed node creation, and then both
lists have kept their size and traversal sequence.  Self-assignment returns at once with
the memory untouched.  When node creation can only fail for lack of storage and enough
addresses are free, the assignment returns. -/
theorem assign_correct [Inhabited T] (alloc : Allocator T) (hA : AllocOK alloc)
    (m : Memory T) (A B tmp tmp2 : Nat) (ca cb : List (Nat × T)) (sa sb : List T)
    (ha : ListAt m A ca) (hb : ListAt m B cb) (hsa : toSeq m A = some sa)
    (hsb : toSeq m B = some sb)
    (hsep : A = B ∨ ∀ x ∈ footprint A ca, x ∉ footprint B cb)
    (hft : FreeAt m tmp) (hfu : FreeAt m tmp2) (htu : tmp ≠ tmp2) :
    ((∃ m1, assign alloc m A B tmp tmp2 = .ok m1 () ∧
          GetSize m1 A = GetSize m B ∧ toSeq m1 A = some sb ∧
          GetSize m1 B = GetSize m B ∧ toSeq m1 B = some sb) ∨
        (∃ m1, assign alloc m A B tmp tmp2 = .throw m1 ∧
          GetSize m1 A = GetSize m A ∧ toSeq m1 A = some sa ∧
          GetSize m1 B = GetSize m B ∧ toSeq m1 B = some sb)) ∧
      (A = B → assign alloc m A B tmp tmp2 = .ok m ()) ∧
      (Complete alloc → cb.length + 2 ≤ freeCount m →
        ∃ m1, assign alloc m A B tmp tmp2 = .ok m1 ()) := by
  have ea := toSeq_eq_of_ListAt ha hsa
  have eb := toSeq_eq_of_ListAt hb hsb
  by_cases hAB : A = B
  · subst hAB
    refine ⟨Or.inl ⟨m, assign_self alloc m A tmp tmp2, rfl, hsb, rfl, hsb⟩,
      fun _ => assign_self alloc m A tmp tmp2, fun _ _ => ⟨m, assign_self alloc m A tmp tmp2⟩⟩
  · have hdis : ∀ x ∈ footprint A ca, x ∉ footprint B cb := by
      rcases hsep with h | h
      · exact absurd h hAB
      · exact h
    refine ⟨?_, fun h => absurd h hAB,
      fun hC hroom => assign_ok hA hC ha hb hAB hdis hft hfu htu hroom⟩
    rcases assign_spec hA ha hb hAB hdis hft.1 hft.2.1 hft.2.2 hfu.1 hfu.2.1 hfu.2.2 htu with
      ⟨m1, news, hrun, hl1, hv, hf, _⟩ | ⟨m1, hrun, hf⟩
    · left
      have hlB : ListAt m1 B cb := hb.preserved hf (fun x hx hmem => hdis x hmem hx)
      refine ⟨m1, hrun, ?_, by rw [hl1.toSeq, hv, eb], by rw [hlB.getSize, hb.getSize],
        by rw [hlB.toSeq, eb]⟩
      rw [hl1.getSize, hb.getSize]
      have := congrArg List.length hv
      simpa using this
    · right
      have hlA : ListAt m1 A ca := ha.preserved hf (fun _ _ => by simp)
      have hlB : ListAt m1 B cb := hb.preserved hf (fun _ _ => by simp)
      exact ⟨m1, hrun, by rw [hlA.getSize, ha.getSize], by rw [hlA.toSeq, ea],
        by rw [hlB.getSize, hb.getSize], by rw [hlB.toSeq, eb]⟩

theorem assign_correct_witness :
    AllocOK (firstFit : Allocator Nat) ∧
      ListAt mem124 1 [(4, 1), (3, 2), (2, 3)] ∧ ListAt mem124 5 [(8, 1), (7, 2), (6, 4)] ∧
      toSeq mem124 1 = some [1, 2, 3] ∧ toSeq mem124 5 = some [1, 2, 4] ∧
      (1 = 5 ∨ ∀ x ∈ footprint 1 [(4, 1), (3, 2), (2, 3)],
        x ∉ footprint 5 [(8, 1), (7, 2), (6, 4)]) ∧
      FreeAt mem124 9 ∧ FreeAt mem124 10 ∧ 9 ≠ 10 ∧
      (((∃ m1, assign firstFit mem124 1 5 9 10 = .ok m1 () ∧
            GetSize m1 1 = GetSize mem124 5 ∧ toSeq m1 1 = some [1, 2, 4] ∧
            GetSize m1 5 = GetSize mem124 5 ∧ toSeq m1 5 = some [1, 2, 4]) ∨
          (∃ m1, assign firstFit mem124 1 5 9 10 = .throw m1 ∧
            GetSize m1 1 = GetSize mem124 1 ∧ toSeq m1 1 = some [1, 2, 3] ∧
            GetSize m1 5 = GetSize mem124 5 ∧ toSeq m1 5 = some [1, 2, 4])) ∧
        (1 = 5 → assign firstFit mem124 1 5 9 10 = .ok mem124 ()) ∧
        (Complete (firstFit : Allocator Nat) →
          [(8, 1), (7, 2), (6, 4)].length + 2 ≤ freeCount mem124 →
          ∃ m1, assign firstFit mem124 1 5 9 10 = .ok m1 ())) :=
  ⟨firstFit_ok, mem124_list_a, mem124_list_b, by decide, by decide, Or.inr (by decide),
    ⟨by decide, by decide, rfl⟩, ⟨by decide, by decide, rfl⟩, by decide,
    assign_correct firstFit firstFit_ok mem124 1 5 9 10 [(4, 1), (3, 2), (2, 3)]
      [(8, 1), (7, 2), (6, 4)] [1, 2, 3] [1, 2, 4] mem124_list_a mem124_list_b (by decide)
      (by decide) (Or.inr (by decide)) ⟨by decide, by decide, rfl⟩
      ⟨by decide, by decide, rfl⟩ (by decide)⟩

end MainResults3

/-! ## Failure, front operations and round trips -/

section FrontOperations

variable {T : Type}

theorem memFull_list : ListAt memFull 1 [(4, 1), (3, 2), (2, 3)] :=
  ⟨by decide, by decide, by decide, rfl, ⟨0, 4⟩, rfl, rfl, by decide, by decide, 3, rfl,
    rfl, by decide, by decide, 2, rfl, rfl, by decide, by decide, 0, rfl, rfl⟩

/-- An exception leaves `InsertAfter` only when node creation failed, and then the memory
is the one before the call. -/
theorem InsertAfter_throw_inv {alloc : Allocator T} {m m1 : Memory T} {self : Nat}
    {pos : BasicIterator} {v : T} (h : InsertAfter alloc m self pos v = .throw m1) :
    alloc m = none ∧ m1 = m := by
  unfold InsertAfter at h
  cases ha : alloc m with
  | none =>
    rw [ha] at h
    injection h with h
    exact ⟨rfl, h.symm⟩
  | some a =>
    rw [ha] at h
    simp only at h
    split at h
    · cases h
    · split at h
      · cases h
      · split at h <;> cases h

/-- An exception leaves `PushFront` only when node creation failed, and then the memory
is the one before the call. -/
theorem PushFront_throw_inv {alloc : Allocator T} {m m1 : Memory T} {self : Nat} {v : T}
    (h : PushFront alloc m self v = .throw m1) : alloc m = none ∧ m1 = m := by
  unfold PushFront at h
  cases ha : alloc m with
  | none =>
    rw [ha] at h
    injection h with h
    exact ⟨rfl, h.symm⟩
  | some a =>
    rw [ha] at h
    simp only at h
    split at h
    · cases h
    · split at h <;> cases h

/-- On a well-formed list `InsertAfter(before_begin(), v)` and `PushFront(v)` produce the
same memory. -/
theorem InsertAfter_front_eq {alloc : Allocator T} (hA : AllocOK alloc) {m : Memory T}
    {self a : Nat} {cells : List (Nat × T)} (v : T) (hl : ListAt m self cells)
    (ha : alloc m = some a) :
    ∃ m1, InsertAfter alloc m self (before_begin self) v = .ok m1 ⟨a⟩ ∧
      PushFront alloc m self v = .ok m1 () ∧ ListAt m1 self ((a, v) :: cells) := by
  obtain ⟨_, _, hfree⟩ := hA m a ha
  obtain ⟨hd, hld, hnd, _⟩ := hl.load
  have hs0 : self ≠ nullptr := hl.1
  have hsa : self ≠ a := fun e => by rw [e, hfree] at hnd; cases hnd
  have e1 : (m.store a ⟨v, hd.next_node⟩).node self = some hd := by
    rw [store_node_ne _ _ hsa]; exact hnd
  obtain ⟨m2, hp, hl2, _, _⟩ := PushFront_ok hA v hl ha
  have hP : PushFront alloc m self v =
      .ok (((m.store a ⟨v, hd.next_node⟩).store self ⟨hd.value, a⟩).setSize self
        (m.size_ self + 1)) () := by
    simp only [PushFront, ha, hld, setNext_eq _ a hs0 e1, store_size]
  have hI : InsertAfter alloc m self (before_begin self) v =
      .ok (((m.store a ⟨v, hd.next_node⟩).store self ⟨hd.value, a⟩).setSize self
        (m.size_ self + 1)) ⟨a⟩ := by
    simp only [InsertAfter, before_begin, ha, hld, setNext_eq _ a hs0 e1, store_size,
      load_of_ne _ hs0, setSize_node, store_node_same]
  rw [hP] at hp
  injection hp with hm
  subst hm
  exact ⟨_, hI, hP, hl2⟩

end FrontOperations

section MainResults4

variable {T : Type}

/-- C11 (failed node creation).  When node creation fails, `InsertAfter(pos, value)` and
`PushFront(value)` propagate the failure and the memory after the call is the memory
before it.  More generally, whenever an exception leaves either call, the list has the
size and the traversal sequence it had before and no node, hence no link, has
changed. -/
theorem creation_failure_safe (alloc : Allocator T) (m : Memory T) (self : Nat)
    (pos : BasicIterator) (v : T) (hfail : alloc m = none) :
    (InsertAfter alloc m self pos v = .throw m ∧ PushFront alloc m self v = .throw m) ∧
      ∀ m1, (InsertAfter alloc m self pos v = .throw m1 ∨
          PushFront alloc m self v = .throw m1) →
        GetSize m1 self = GetSize m self ∧ toSeq m1 self = toSeq m self ∧
          m1.node = m.node := by
  refine ⟨⟨InsertAfter_throw pos v hfail, PushFront_throw self v hfail⟩, ?_⟩
  intro m1 h
  have hm : m1 = m := by
    rcases h with h | h
    · exact (InsertAfter_throw_inv h).2
    · exact (PushFront_throw_inv h).2
  subst hm
  exact ⟨rfl, rfl, rfl⟩

theorem creation_failure_safe_witness :
    firstFit memFull = none ∧
      ((InsertAfter firstFit memFull 1 ⟨4⟩ 9 = .throw memFull ∧
          PushFront firstFit memFull 1 9 = .throw memFull) ∧
        ∀ m1, (InsertAfter firstFit memFull 1 ⟨4⟩ 9 = .throw m1 ∨
            PushFront firstFit memFull 1 9 = .throw m1) →
          GetSize m1 1 = GetSize memFull 1 ∧ toSeq m1 1 = toSeq memFull 1 ∧
            m1.node = memFull.node) :=
  ⟨by decide, creation_failure_safe firstFit memFull 1 ⟨4⟩ 9 (by decide)⟩

/-- C12 (`InsertAfter(before_begin(), v)` and `PushFront(v)`).  On a well-formed list with
traversal sequence `s`, the two calls have the same outcome: when node creation succeeds
both return, with the same memory, in which `GetSize()` has grown by one and the
traversal sequence is `v` followed by `s`; when node creation fails both propagate the
failure and leave the memory as it was. -/
theorem InsertAfter_front_PushFront (alloc : Allocator T) (hA : AllocOK alloc)
    (m : Memory T) (self : Nat) (cells : List (Nat × T)) (s : List T)
    (hl : ListAt m self cells) (hs : toSeq m self = some s) (v : T) :
    (∀ a, alloc m = some a →
        ∃ m1 it, InsertAfter alloc m self (before_begin self) v = .ok m1 it ∧
          PushFront alloc m self v = .ok m1 () ∧
          GetSize m1 self = GetSize m self + 1 ∧ toSeq m1 self = some (v :: s)) ∧
      (alloc m = none →
        InsertAfter alloc m self (before_begin self) v = .throw m ∧
          PushFront alloc m self v = .throw m) := by
  have hsv : s = cells.map Prod.snd := by
    rw [hl.toSeq] at hs
    injection hs with h
    exact h.symm
  constructor
  · intro a ha
    obtain ⟨m1, hI, hP, hl1⟩ := InsertAfter_front_eq hA v hl ha
    refine ⟨m1, ⟨a⟩, hI, hP, ?_, ?_⟩
    · rw [hl1.getSize, hl.getSize, List.length_cons]
    · rw [hl1.toSeq, hsv, List.map_cons]
  · intro hfail
    exact ⟨InsertAfter_throw _ v hfail, PushFront_throw self v hfail⟩

theorem InsertAfter_front_PushFront_witness :
    AllocOK (firstFit : Allocator Nat) ∧ ListAt mem123 1 [(4, 1), (3, 2), (2, 3)] ∧
      toSeq mem123 1 = some [1, 2, 3] ∧
      ((∀ a, firstFit mem123 = some a →
          ∃ m1 it, InsertAfter firstFit mem123 1 (before_begin 1) 0 = .ok m1 it ∧
            PushFront firstFit mem123 1 0 = .ok m1 () ∧
            GetSize m1 1 = GetSize mem123 1 + 1 ∧ toSeq m1 1 = some (0 :: [1, 2, 3])) ∧
        (firstFit mem123 = none →
          InsertAfter firstFit mem123 1 (before_begin 1) 0 = .throw mem123 ∧
            PushFront firstFit mem123 1 0 = .throw mem123)) :=
  ⟨firstFit_ok, mem123_list, by decide,
    InsertAfter_front_PushFront firstFit firstFit_ok mem123 1 [(4, 1), (3, 2), (2, 3)]
      [1, 2, 3] mem123_list (by decide) 0⟩

/-- C13 (`PopFront`).  On a well-formed non-empty list with traversal sequence `s`,
`PopFront()` returns the very memory `EraseAfter(before_begin())` returns; in it the
traversal sequence is `s` without its first element, the others in their order, and
`GetSize()` has dropped by one.  On a well-formed empty list `PopFront()` returns the
memory unchanged, with size 0 and an empty traversal. -/
theorem PopFront_correct (m : Memory T) (self : Nat) (cells : List (Nat × T)) (s : List T)
    (hl : ListAt m self cells) (hs : toSeq m self = some s) :
    (s ≠ [] →
        ∃ m1 it, PopFront m self = some m1 ∧
          EraseAfter m self (before_begin self) = some (m1, it) ∧
          toSeq m1 self = some s.tail ∧ GetSize m1 self + 1 = GetSize m self) ∧
      (s = [] → PopFront m self = some m ∧ GetSize m self = 0 ∧ toSeq m self = some []) := by
  have hsv : s = cells.map Prod.snd := by
    rw [hl.toSeq] at hs
    injection hs with h
    exact h.symm
  constructor
  · intro hne
    cases cells with
    | nil => exact absurd hsv hne
    | cons c rest =>
      obtain ⟨m1, it, hp, he, hl1, _⟩ := PopFront_eq_EraseAfter hl
      refine ⟨m1, it, hp, he, ?_, ?_⟩
      · rw [hl1.toSeq, hsv]
        rfl
      · rw [hl1.getSize, hl.getSize, List.length_cons]
  · intro he
    cases cells with
    | nil => exact ⟨PopFront_empty hl, hl.getSize, by rw [hs, he]⟩
    | cons c rest =>
      rw [he] at hsv
      simp at hsv

theorem PopFront_correct_witness :
    ListAt mem123 1 [(4, 1), (3, 2), (2, 3)] ∧ toSeq mem123 1 = some [1, 2, 3] ∧
      (([1, 2, 3] : List Nat) ≠ [] →
          ∃ m1 it, PopFront mem123 1 = some m1 ∧
            EraseAfter mem123 1 (before_begin 1) = some (m1, it) ∧
            toSeq m1 1 = some [1, 2, 3].tail ∧ GetSize m1 1 + 1 = GetSize mem123 1) ∧
        (([1, 2, 3] : List Nat) = [] →
          PopFront mem123 1 = some mem123 ∧ GetSize mem123 1 = 0 ∧
            toSeq mem123 1 = some []) :=
  ⟨mem123_list, by decide,
    PopFront_correct mem123 1 [(4, 1), (3, 2), (2, 3)] [1, 2, 3] mem123_list (by decide)⟩

end MainResults4

section ClearAndRoundTrips

variable {T : Type}

theorem store_same (m : Memory T) {p : Nat} {n : Node T} (h : m.node p = some n) :
    m.store p n = m := by
  cases m with
  | mk cap node size_ =>
    simp only [Memory.store, Memory.mk.injEq, true_and, and_true]
    simp only at h
    rw [← h]
    exact Function.update_eq_self p node

theorem setSize_same (m : Memory T) {p s : Nat} (h : m.size_ p = s % m.cap) :
    m.setSize p s = m := by
  cases m with
  | mk cap node size_ =>
    simp only [Memory.setSize, Memory.mk.injEq, true_and]
    simp only at h
    rw [← h]
    exact Function.update_eq_self p size_

/-- The member `Clear()` on a list whose sentinel has no successor and whose size is 0
returns the memory unchanged. -/
theorem Clear_empty {m : Memory T} {self : Nat} {hv : T} (h0 : self ≠ nullptr)
    (hn : m.node self = some ⟨hv, nullptr⟩) (hsz : m.size_ self = 0) :
    Clear m self = some m := by
  have hloop : clearLoop m.cap m nullptr = some m := by
    cases m.cap <;> simp [clearLoop]
  have h1 : m.store self ⟨hv, nullptr⟩ = m := store_same m hn
  have h2 : m.setSize self 0 = m := setSize_same m (by simp [hsz])
  simp only [Clear, load_of_ne _ h0, hn, hloop, setNext_eq _ nullptr h0 hn, h1, h2]

theorem freeCount_pos {m : Memory T} {p : Nat} (h : FreeAt m p) : 0 < freeCount m := by
  unfold freeCount
  rw [List.countP_pos_iff]
  exact ⟨p, List.mem_range.2 h.2.1, by simp [h.1, h.2.2]⟩

/-- The call `EraseAfter(before_begin())` on a non-empty well-formed list unlinks the first
data node and gives up its storage. -/
theorem EraseAfter_front {m : Memory T} {self : Nat} {c : Nat × T} {rest : List (Nat × T)}
    (hl : ListAt m self (c :: rest)) :
    ∃ m1 it, EraseAfter m self (before_begin self) = some (m1, it) ∧
      ListAt m1 self rest ∧ FreeAt m1 c.1 := by
  obtain ⟨m1, it, hp, he, hl1, _⟩ := PopFront_eq_EraseAfter hl
  refine ⟨m1, it, he, hl1, ?_⟩
  obtain ⟨hv, hseg⟩ := hl.seg
  have hk0 : ((self, hv) :: c :: rest)[0]? = some (self, hv) := by simp
  have hk1 : ((self, hv) :: c :: rest)[0 + 1]? = some c := by simp
  obtain ⟨hn, hd0, nx, hnd⟩ := Seg.next_at hseg hk0 hk1
  have hs0 : self ≠ nullptr := hl.1
  have hsc : self ≠ c.1 := fun e => hl.2.2.1 (by simp [← e])
  have hcc : c.1 < m.cap := (hl.live c.1 (by simp [footprint])).2.1
  have hsz : m.size_ self = (c :: rest).length := hl.2.2.2.1
  have hne : IsEmpty m self = false := by
    simp [IsEmpty, GetSize, hsz]
  have e1 : (m.release c.1).node self = some ⟨hv, c.1⟩ := by
    rw [release_node_ne _ hsc]; exact hn
  have hP : PopFront m self = some (((m.release c.1).store self ⟨hv, nx⟩).setSize self
      (m.size_ self + m.cap - 1)) := by
    simp only [PopFront, hne, if_true, load_of_ne _ hs0, load_of_ne _ hd0, hn, hnd,
      delete_eq _ hd0 hnd, setNext_eq _ nx hs0 e1, store_size, release_size, store_cap,
      release_cap]
  rw [hP] at hp
  injection hp with hm
  subst hm
  refine ⟨hd0, by simpa using hcc, ?_⟩
  rw [setSize_node, store_node_ne _ _ (Ne.symm hsc)]
  simp

end ClearAndRoundTrips

section MainResults5

variable {T : Type}

/-- C14 (`Clear`).  On every well-formed list, empty or not, `Clear()` returns; afterwards
every former data node is gone, the sentinel's `next_node` link is `nullptr`,
`GetSize() == 0`, `IsEmpty()` is true, `begin() == end()` and the traversal is empty.
Calling `Clear()` again on the now empty list returns the memory unchanged. -/
theorem Clear_correct (m : Memory T) (self : Nat) (cells : List (Nat × T))
    (hl : ListAt m self cells) :
    ∃ m1, Clear m self = some m1 ∧
      (∀ x ∈ cells.map Prod.fst, m1.node x = none) ∧
      (∃ h, m1.load self = some h ∧ h.next_node = nullptr) ∧
      GetSize m1 self = 0 ∧ IsEmpty m1 self = true ∧
      (∃ b, begin m1 self = some b ∧ b.op_eq end_ = true) ∧
      toSeq m1 self = some [] ∧
      Clear m1 self = some m1 := by
  obtain ⟨m1, hrun, hl1, _, hgone, hv, hn⟩ := Clear_ok hl
  have h0 : self ≠ nullptr := hl.1
  have hsz : m1.size_ self = 0 := hl1.2.2.2.1
  have hload : m1.load self = some ⟨hv, nullptr⟩ := by rw [load_of_ne _ h0, hn]
  refine ⟨m1, hrun, hgone, ⟨_, hload, rfl⟩, hsz, ?_, ⟨⟨nullptr⟩, ?_, ?_⟩, ?_, ?_⟩
  · simp [IsEmpty, GetSize, hsz]
  · simp only [begin, hload]
  · simp [BasicIterator.op_eq, end_]
  · simpa using hl1.toSeq
  · exact Clear_empty h0 hn hsz

theorem Clear_correct_witness :
    ListAt mem123 1 [(4, 1), (3, 2), (2, 3)] ∧
      ∃ m1, Clear mem123 1 = some m1 ∧
        (∀ x ∈ [(4, 1), (3, 2), (2, 3)].map Prod.fst, m1.node x = none) ∧
        (∃ h, m1.load 1 = some h ∧ h.next_node = nullptr) ∧
        GetSize m1 1 = 0 ∧ IsEmpty m1 1 = true ∧
        (∃ b, begin m1 1 = some b ∧ b.op_eq end_ = true) ∧
        toSeq m1 1 = some [] ∧
        Clear m1 1 = some m1 :=
  ⟨mem123_list, Clear_correct mem123 1 [(4, 1), (3, 2), (2, 3)] mem123_list⟩

/-- C15 (`PushFront` then `PopFront`).  On a well-formed list with traversal sequence `s`,
when node creation succeeds `PushFront(v)` returns and the following `PopFront()` returns
a memory in which the list consists of its original nodes, with the original `GetSize()`
and the original traversal sequence `s`; for an empty list that is size 0 and an empty
traversal. -/
theorem PushFront_PopFront (alloc : Allocator T) (hA : AllocOK alloc) (m : Memory T)
    (self : Nat) (cells : List (Nat × T)) (s : List T) (hl : ListAt m self cells)
    (hs : toSeq m self = some s) (v : T) (a : Nat) (ha : alloc m = some a) :
    ∃ m1 m2, PushFront alloc m self v = .ok m1 () ∧ PopFront m1 self = some m2 ∧
      ListAt m2 self cells ∧ GetSize m2 self = GetSize m self ∧ toSeq m2 self = some s ∧
      (s = [] → GetSize m2 self = 0 ∧ toSeq m2 self = some []) := by
  have hsv : s = cells.map Prod.snd := by
    rw [hl.toSeq] at hs
    injection hs with h
    exact h.symm
  obtain ⟨m1, hp, hl1, _, _⟩ := PushFront_ok hA v hl ha
  obtain ⟨m2, _, hpop, _, hl2, _⟩ := PopFront_eq_EraseAfter hl1
  have hsize : GetSize m2 self = GetSize m self := by rw [hl2.getSize, hl.getSize]
  have hseq : toSeq m2 self = some s := by rw [hl2.toSeq, hsv]
  refine ⟨m1, m2, hp, hpop, hl2, hsize, hseq, fun he => ⟨?_, by rw [hseq, he]⟩⟩
  rw [hl2.getSize]
  rw [he] at hsv
  have := congrArg List.length hsv
  simpa using this.symm

theorem PushFront_PopFront_witness :
    AllocOK (firstFit : Allocator Nat) ∧ ListAt mem123 1 [(4, 1), (3, 2), (2, 3)] ∧
      toSeq mem123 1 = some [1, 2, 3] ∧ firstFit mem123 = some 5 ∧
      ∃ m1 m2, PushFront firstFit mem123 1 0 = .ok m1 () ∧ PopFront m1 1 = some m2 ∧
        ListAt m2 1 [(4, 1), (3, 2), (2, 3)] ∧ GetSize m2 1 = GetSize mem123 1 ∧
        toSeq m2 1 = some [1, 2, 3] ∧
        (([1, 2, 3] : List Nat) = [] → GetSize m2 1 = 0 ∧ toSeq m2 1 = some []) :=
  ⟨firstFit_ok, mem123_list, by decide, by decide,
    PushFront_PopFront firstFit firstFit_ok mem123 1 [(4, 1), (3, 2), (2, 3)] [1, 2, 3]
      mem123_list (by decide) 0 5 (by decide)⟩

/-- C16 (`EraseAfter` then `InsertAfter` at `before_begin()`).  On a well-formed non-empty
list with traversal sequence `x :: rest` and `it = before_begin()`, `EraseAfter(it)`
returns, and when the node creation of the immediately following `InsertAfter(it, x)`
succeeds, that call returns a memory in which `GetSize()` is the original size, the
traversal sequence is the original `x :: rest`, and the returned iterator is `begin()`
and dereferences to `x`.  Node creation does succeed there when it can only fail for
lack of storage, since the erased node's storage is free. -/
theorem EraseAfter_InsertAfter (alloc : Allocator T) (hA : AllocOK alloc) (m : Memory T)
    (self : Nat) (cells : List (Nat × T)) (x : T) (rest : List T)
    (hl : ListAt m self cells) (hs : toSeq m self = some (x :: rest)) :
    ∃ m1 it1, EraseAfter m self (before_begin self) = some (m1, it1) ∧
      (∀ a, alloc m1 = some a →
        ∃ m2 it2, InsertAfter alloc m1 self (before_begin self) x = .ok m2 it2 ∧
          GetSize m2 self = GetSize m self ∧ toSeq m2 self = some (x :: rest) ∧
          begin m2 self = some it2 ∧ it2.deref m2 = some x) ∧
      (Complete alloc → ∃ a, alloc m1 = some a) := by
  have hsv : x :: rest = cells.map Prod.snd := by
    rw [hl.toSeq] at hs
    injection hs with h
    exact h.symm
  cases cells with
  | nil => simp at hsv
  | cons c cs =>
    simp only [List.map_cons, List.cons.injEq] at hsv
    obtain ⟨hx, hrest⟩ := hsv
    obtain ⟨m1, it1, he, hl1, hfree⟩ := EraseAfter_front hl
    refine ⟨m1, it1, he, ?_, ?_⟩
    · intro a ha
      obtain ⟨m2, hI, _, hl2⟩ := InsertAfter_front_eq hA x hl1 ha
      obtain ⟨hd, hld, _, hseg⟩ := hl2.load
      have hhead : hd.next_node = a := hseg.1
      refine ⟨m2, ⟨a⟩, hI, ?_, ?_, ?_, ?_⟩
      · rw [hl2.getSize, hl.getSize, List.length_cons, List.length_cons]
      · rw [hl2.toSeq, List.map_cons, hrest]
      · simp only [begin, hld, hhead]
      · have hk : ((a, x) :: cs)[0]? = some (a, x) := by simp
        exact hl2.deref_at hk
    · intro hC
      cases ha : alloc m1 with
      | none =>
        have := hC m1 ha
        have hpos := freeCount_pos hfree
        omega
      | some a => exact ⟨a, rfl⟩

theorem EraseAfter_InsertAfter_witness :
    AllocOK (firstFit : Allocator Nat) ∧ ListAt mem123 1 [(4, 1), (3, 2), (2, 3)] ∧
      toSeq mem123 1 = some (1 :: [2, 3]) ∧
      ∃ m1 it1, EraseAfter mem123 1 (before_begin 1) = some (m1, it1) ∧
        (∀ a, firstFit m1 = some a →
          ∃ m2 it2, InsertAfter firstFit m1 1 (before_begin 1) 1 = .ok m2 it2 ∧
            GetSize m2 1 = GetSize mem123 1 ∧ toSeq m2 1 = some (1 :: [2, 3]) ∧
            begin m2 1 = some it2 ∧ it2.deref m2 = some 1) ∧
        (Complete (firstFit : Allocator Nat) → ∃ a, firstFit m1 = some a) :=
  ⟨firstFit_ok, mem123_list, by decide,
    EraseAfter_InsertAfter firstFit firstFit_ok mem123 1 [(4, 1), (3, 2), (2, 3)] 1 [2, 3]
      mem123_list (by decide)⟩

end MainResults5

section MainResults6

variable {T : Type}

/-- Incrementing `j` times from the head of a chain lands on its `j`-th node. -/
theorem Seg.advance_lt {m : Memory T} {p j : Nat} {cells : List (Nat × T)}
    (hs : Seg m p cells) (hj : j < cells.length) :
    ∃ q, (cells.map Prod.fst)[j]? = some q ∧ q ≠ nullptr ∧ advance m j ⟨p⟩ = some ⟨q⟩ := by
  have hlt : j < (cells.map Prod.fst).length := by simpa using hj
  have hq : (cells.map Prod.fst)[j]? = some ((cells.map Prod.fst)[j]) :=
    List.getElem?_eq_getElem hlt
  exact ⟨_, hq, (Seg.addr_pos hs _ (List.getElem?_mem hq)).1, Seg.advance_to hs hq⟩

/-- C17 (`begin`, `end`, `IsEmpty`, `GetSize`).  For every live list of a reachable program
state, `begin() == end()` holds exactly when `IsEmpty()` is true, which holds exactly when
`GetSize() == 0`; and when the list is not empty, its traversal sequence has a first
element `x`, `begin()` is what incrementing `before_begin()` gives, it is not `end()`,
and it dereferences to `x`. -/
theorem begin_end_empty [Inhabited T] (alloc : Allocator T) (hA : AllocOK alloc)
    (w : World T) (hr : Reachable alloc w) (l : Nat) (hl : l ∈ w.lists) :
    ∃ b s, begin w.mem l = some b ∧ toSeq w.mem l = some s ∧
      (b.op_eq end_ = true ↔ IsEmpty w.mem l = true) ∧
      (IsEmpty w.mem l = true ↔ GetSize w.mem l = 0) ∧
      (IsEmpty w.mem l = false →
        ∃ x rest, s = x :: rest ∧ (before_begin l).preInc w.mem = some b ∧
          b.op_ne end_ = true ∧ b.deref w.mem = some x) := by
  obtain ⟨fp, _, hall, _⟩ := hr.worldOK hA
  have hla := hall l hl
  obtain ⟨hd, hld, _, hseg⟩ := hla.load
  have hsz : w.mem.size_ l = (fp l).length := hla.2.2.2.1
  refine ⟨⟨hd.next_node⟩, (fp l).map Prod.snd, by simp only [begin, hld], hla.toSeq, ?_,
    by simp [IsEmpty], ?_⟩
  · cases hc : fp l with
    | nil =>
      rw [hc] at hseg hsz
      have hnx : hd.next_node = nullptr := hseg
      simp [BasicIterator.op_eq, end_, IsEmpty, GetSize, hsz, hnx]
    | cons c rest =>
      rw [hc] at hseg hsz
      have hnx : hd.next_node = c.1 := hseg.1
      have hc0 : c.1 ≠ nullptr := hseg.2.1
      simp [BasicIterator.op_eq, end_, IsEmpty, GetSize, hsz, hnx, hc0]
  · intro hne
    cases hc : fp l with
    | nil =>
      rw [hc] at hsz
      simp [IsEmpty, GetSize, hsz] at hne
    | cons c rest =>
      rw [hc] at hseg hla
      have hnx : hd.next_node = c.1 := hseg.1
      have hc0 : c.1 ≠ nullptr := hseg.2.1
      have hk : (c :: rest)[0]? = some c := by simp
      refine ⟨c.2, rest.map Prod.snd, by simp, ?_, ?_, ?_⟩
      · simp only [BasicIterator.preInc, before_begin, hld]
      · simp [BasicIterator.op_ne, BasicIterator.op_eq, end_, hnx, hc0]
      · rw [hnx]
        exact hla.deref_at hk

theorem begin_end_empty_witness :
    AllocOK (firstFit : Allocator Nat) ∧ Reachable firstFit world123 ∧ 1 ∈ world123.lists ∧
      ∃ b s, begin world123.mem 1 = some b ∧ toSeq world123.mem 1 = some s ∧
        (b.op_eq end_ = true ↔ IsEmpty world123.mem 1 = true) ∧
        (IsEmpty world123.mem 1 = true ↔ GetSize world123.mem 1 = 0) ∧
        (IsEmpty world123.mem 1 = false →
          ∃ x rest, s = x :: rest ∧ (before_begin 1).preInc world123.mem = some b ∧
            b.op_ne end_ = true ∧ b.deref world123.mem = some x) :=
  ⟨firstFit_ok, world123_reachable, by decide,
    begin_end_empty firstFit firstFit_ok world123 world123_reachable 1 (by decide)⟩

/-- C18 (finite acyclic chain).  For every live list of a reachable program state:
incrementing an iterator from `begin()` gives `end()` after exactly `GetSize()`
increments; after fewer increments the iterator is defined and is not `end()`; no two
different numbers of increments below `GetSize()` give the same iterator (no node is
visited twice); incrementing `before_begin()` once gives `begin()`; and for every
iterator, post-increment is defined exactly when pre-increment is, returns the iterator's
prior value and leaves the iterator where pre-increment leaves it. -/
theorem chain_finite [Inhabited T] (alloc : Allocator T) (hA : AllocOK alloc)
    (w : World T) (hr : Reachable alloc w) (l : Nat) (hl : l ∈ w.lists) :
    ∃ b, begin w.mem l = some b ∧
      advance w.mem (GetSize w.mem l) b = some end_ ∧
      (∀ j, j < GetSize w.mem l →
        ∃ it, advance w.mem j b = some it ∧ it.op_ne end_ = true) ∧
      (∀ i j it, i < j → j < GetSize w.mem l → advance w.mem i b = some it →
        advance w.mem j b ≠ some it) ∧
      (before_begin l).preInc w.mem = some b ∧
      ∀ it : BasicIterator,
        it.postInc w.mem = (it.preInc w.mem).map (fun advanced => (it, advanced)) := by
  obtain ⟨fp, _, hall, _⟩ := hr.worldOK hA
  have hla := hall l hl
  obtain ⟨hd, hld, _, hseg⟩ := hla.load
  have hsz : GetSize w.mem l = (fp l).length := hla.getSize
  refine ⟨⟨hd.next_node⟩, by simp only [begin, hld], ?_, ?_, ?_, ?_, ?_⟩
  · rw [hsz]
    exact Seg.advance_end hseg
  · intro j hj
    rw [hsz] at hj
    obtain ⟨q, _, hq0, hadv⟩ := Seg.advance_lt hseg hj
    exact ⟨⟨q⟩, hadv, by simp [BasicIterator.op_ne, BasicIterator.op_eq, end_, hq0]⟩
  · intro i j it hij hj hi hjj
    rw [hsz] at hj
    obtain ⟨qi, hqi, _, hai⟩ := Seg.advance_lt hseg (Nat.lt_trans hij hj)
    obtain ⟨qj, hqj, _, haj⟩ := Seg.advance_lt hseg hj
    rw [hai] at hi
    rw [haj] at hjj
    have hq : qi = qj := by
      injection hi with hi
      injection hjj with hjj
      rw [← hjj] at hi
      injection hi with hi
    rw [hq] at hqi
    have hlt : i < ((fp l).map Prod.fst).length := by
      rw [List.length_map]
      omega
    have := List.getElem?_inj hlt (Seg.nodup hseg) (hqi.trans hqj.symm)
    omega
  · simp only [BasicIterator.preInc, before_begin, hld]
  · intro it
    simp only [BasicIterator.postInc, BasicIterator.preInc]
    cases w.mem.load it.node_ <;> rfl

theorem chain_finite_witness :
    AllocOK (firstFit : Allocator Nat) ∧ Reachable firstFit world123 ∧ 1 ∈ world123.lists ∧
      ∃ b, begin world123.mem 1 = some b ∧
        advance world123.mem (GetSize world123.mem 1) b = some end_ ∧
        (∀ j, j < GetSize world123.mem 1 →
          ∃ it, advance world123.mem j b = some it ∧ it.op_ne end_ = true) ∧
        (∀ i j it, i < j → j < GetSize world123.mem 1 →
          advance world123.mem i b = some it → advance world123.mem j b ≠ some it) ∧
        (before_begin 1).preInc world123.mem = some b ∧
        ∀ it : BasicIterator,
          it.postInc world123.mem =
            (it.preInc world123.mem).map (fun advanced => (it, advanced)) :=
  ⟨firstFit_ok, world123_reachable, by decide,
    chain_finite firstFit firstFit_ok world123 world123_reachable 1 (by decide)⟩

/-- C19 (`EraseAfter` without successor).  On a well-formed list with traversal sequence
`s`, for a position `pos` reached from `before_begin()` by `k` increments whose node has
no successor (incrementing `pos` gives `end()`), `pos` is the last position (`k` is the
length of `s`: the last data node, or `before_begin()` of an empty list) and
`EraseAfter(pos)` returns the memory unchanged, so size and traversal sequence are
unchanged, together with an iterator equal to `end()`. -/
theorem EraseAfter_noop (m : Memory T) (self : Nat) (cells : List (Nat × T)) (s : List T)
    (hl : ListAt m self cells) (hs : toSeq m self = some s) (k : Nat) (pos : BasicIterator)
    (hpos : advance m k (before_begin self) = some pos)
    (hlast : pos.preInc m = some end_) :
    k = s.length ∧
      ∃ m1 it, EraseAfter m self pos = some (m1, it) ∧ m1 = m ∧
        GetSize m1 self = GetSize m self ∧ toSeq m1 self = some s ∧
        it.op_eq end_ = true := by
  have hsv : s = cells.map Prod.snd := by
    rw [hl.toSeq] at hs
    injection hs with h
    exact h.symm
  have hp0 : pos.node_ ≠ nullptr := by
    intro e
    simp [BasicIterator.preInc, e] at hlast
  obtain ⟨hidx, hkle⟩ := hl.index_of_advance hpos hp0
  have hnx := hl.preInc_at hidx
  have hpe : (⟨pos.node_⟩ : BasicIterator) = pos := rfl
  rw [hpe, hlast] at hnx
  have hk : k = cells.length := by
    cases h : (footprint self cells)[k + 1]? with
    | none =>
      have := List.getElem?_eq_none_iff.1 h
      simp [footprint] at this
      omega
    | some q =>
      rw [h] at hnx
      have hq := (hl.live q (List.getElem?_mem h)).1
      simp only [end_, Option.getD_some, Option.some.injEq, BasicIterator.mk.injEq] at hnx
      exact absurd hnx.symm hq
  have hrun := EraseAfter_last hl hidx hk
  refine ⟨by rw [hk, hsv, List.length_map], m, end_, hrun, rfl, rfl, hs, ?_⟩
  simp [BasicIterator.op_eq]

theorem EraseAfter_noop_witness :
    ListAt mem123 1 [(4, 1), (3, 2), (2, 3)] ∧ toSeq mem123 1 = some [1, 2, 3] ∧
      advance mem123 3 (before_begin 1) = some ⟨2⟩ ∧
      (⟨2⟩ : BasicIterator).preInc mem123 = some end_ ∧
      (3 = [1, 2, 3].length ∧
        ∃ m1 it, EraseAfter mem123 1 ⟨2⟩ = some (m1, it) ∧ m1 = mem123 ∧
          GetSize m1 1 = GetSize mem123 1 ∧ toSeq m1 1 = some [1, 2, 3] ∧
          it.op_eq end_ = true) :=
  ⟨mem123_list, by decide, by decide, by decide,
    EraseAfter_noop mem123 1 [(4, 1), (3, 2), (2, 3)] [1, 2, 3] mem123_list (by decide) 3
      ⟨2⟩ (by decide) (by decide)⟩

end MainResults6

section MainResults7

variable {T : Type}

/-- Under a strict total order whose equality is the element `operator==`, exactly one of
"less", "equal", "greater" holds between two value sequences. -/
theorem seq_trichotomy [BEq T] [LT T] [DecidableRel (fun a b : T => a < b)]
    (hirr : ∀ x : T, ¬ x < x) (htrans : ∀ x y z : T, x < y → y < z → x < z)
    (htotal : ∀ x y : T, x < y ∨ x = y ∨ y < x)
    (heq : ∀ x y : T, (x == y) = true ↔ x = y) :
    ∀ (sa sb : List T),
      (seqLess sa sb = true ∧ seqEqual sa sb = false ∧ seqLess sb sa = false) ∨
        (seqLess sa sb = false ∧ seqEqual sa sb = true ∧ seqLess sb sa = false) ∨
        (seqLess sa sb = false ∧ seqEqual sa sb = false ∧ seqLess sb sa = true)
  | [], [] => by simp [seqLess, seqEqual]
  | [], b :: bs => by simp [seqLess, seqEqual]
  | a :: as, [] => by simp [seqLess, seqEqual]
  | a :: as, b :: bs => by
    have ih := seq_trichotomy hirr htrans htotal heq as bs
    rcases htotal a b with hab | hab | hab
    · have hba : ¬ b < a := fun h => hirr a (htrans a b a hab h)
      have hne : ¬ ((a == b) = true) := fun h => hirr a (by
        have := (heq a b).1 h
        rw [← this] at hab
        exact hab)
      left
      simp [seqLess, seqEqual, hab, hba, hne]
    · subst hab
      have haa : ¬ a < a := hirr a
      have he : (a == a) = true := (heq a a).2 rfl
      simpa [seqLess, seqEqual, haa, he] using ih
    · have hnab : ¬ a < b := fun h => hirr a (htrans a b a h hab)
      have hne : ¬ ((a == b) = true) := fun h => hirr a (by
        have := (heq a b).1 h
        rw [this] at hnab
        rw [← this] at hab
        exact hab)
      right; right
      simp [seqLess, seqEqual, hab, hnab, hne]

/-- C20 (trichotomy).  When the element `operator<` is a strict total order (irreflexive,
transitive, any two elements comparable or equal) and the element `operator==` is
equality, then for two well-formed lists `A` and `B` all relational operators return,
exactly one of `A < B`, `A == B`, `A > B` is true, `A <= B` is true exactly when
`A < B` or `A == B` is, and `A >= B` is true exactly when `A > B` or `A == B` is. -/
theorem order_trichotomy [BEq T] [LT T] [DecidableRel (fun a b : T => a < b)]
    (hirr : ∀ x : T, ¬ x < x) (htrans : ∀ x y z : T, x < y → y < z → x < z)
    (htotal : ∀ x y : T, x < y ∨ x = y ∨ y < x)
    (heq : ∀ x y : T, (x == y) = true ↔ x = y)
    (m : Memory T) (A B : Nat) (ca cb : List (Nat × T)) (ha : ListAt m A ca)
    (hb : ListAt m B cb) :
    ∃ l e g : Bool, op_lt m A B = some l ∧ op_eq m A B = some e ∧ op_gt m A B = some g ∧
      ((l = true ∧ e = false ∧ g = false) ∨ (l = false ∧ e = true ∧ g = false) ∨
        (l = false ∧ e = false ∧ g = true)) ∧
      op_le m A B = some (l || e) ∧ op_ge m A B = some (g || e) := by
  have htri := seq_trichotomy hirr htrans htotal heq (ca.map Prod.snd) (cb.map Prod.snd)
  refine ⟨_, _, _, op_lt_of_ListAt ha hb, op_eq_of_ListAt ha hb, ?_, htri, ?_, ?_⟩
  · simp only [op_gt, op_lt_of_ListAt hb ha]
  · simp only [op_le, op_lt_of_ListAt hb ha]
    rcases htri with ⟨h1, h2, h3⟩ | ⟨h1, h2, h3⟩ | ⟨h1, h2, h3⟩ <;> simp [h1, h2, h3]
  · simp only [op_ge, op_gt, op_lt_of_ListAt ha hb]
    rcases htri with ⟨h1, h2, h3⟩ | ⟨h1, h2, h3⟩ | ⟨h1, h2, h3⟩ <;> simp [h1, h2, h3]

theorem order_trichotomy_witness :
    (∀ x : Nat, ¬ x < x) ∧ (∀ x y z : Nat, x < y → y < z → x < z) ∧
      (∀ x y : Nat, x < y ∨ x = y ∨ y < x) ∧ (∀ x y : Nat, (x == y) = true ↔ x = y) ∧
      ListAt mem124 1 [(4, 1), (3, 2), (2, 3)] ∧ ListAt mem124 5 [(8, 1), (7, 2), (6, 4)] ∧
      ∃ l e g : Bool, op_lt mem124 1 5 = some l ∧ op_eq mem124 1 5 = some e ∧
        op_gt mem124 1 5 = some g ∧
        ((l = true ∧ e = false ∧ g = false) ∨ (l = false ∧ e = true ∧ g = false) ∨
          (l = false ∧ e = false ∧ g = true)) ∧
        op_le mem124 1 5 = some (l || e) ∧ op_ge mem124 1 5 = some (g || e) :=
  ⟨Nat.lt_irrefl, fun _ _ _ => Nat.lt_trans, Nat.lt_trichotomy, fun _ _ => beq_iff_eq,
    mem124_list_a, mem124_list_b,
    order_trichotomy Nat.lt_irrefl (fun _ _ _ => Nat.lt_trans) Nat.lt_trichotomy
      (fun _ _ => beq_iff_eq) mem124 1 5 [(4, 1), (3, 2), (2, 3)] [(8, 1), (7, 2), (6, 4)]
      mem124_list_a mem124_list_b⟩

end MainResults7

end SingleLinkedList
